import Mathlib

/-!
# Static Huffman file compressor: embedding and verification

A shallow embedding of `tree_function.c` (tree construction, code-table
generation, bit-level writer and reader, `perform_compression`,
`perform_decompression`).

Modelling conventions.

* A value of type `TreeNode*` is a `TreeNode`: the null pointer or a node with
  the four fields of the C struct.  `malloc` is taken to succeed.
* A linked list of `ListItem` is a `List TreeNode` (NULL is the empty list).
* `unsigned int` is a `Nat` reduced modulo `2 ^ 32` wherever the C arithmetic
  can wrap; `unsigned char` is a `Nat` reduced modulo `256`.
* A file is the `List Nat` of its bytes; an output stream is extended at its end.
* `sizeof(unsigned int)` is 4 and the host is little-endian (the header is a
  raw `fwrite` of the counter array).
* Loops that C runs until a condition holds carry a fuel argument; the callers
  pass a fuel that is proved sufficient.
-/

namespace HuffmanCodec

/-! ## Data model -/

/-- Modulus of `unsigned int` arithmetic. -/
def UINT_MOD : Nat := 4294967296

/-- A `TreeNode*`: `NULL`, or a node holding `character`, `weight`,
`child_left`, `child_right`. -/
inductive TreeNode where
  | NULL : TreeNode
  | node (character : Nat) (weight : Nat) (child_left child_right : TreeNode) : TreeNode
deriving DecidableEq, Repr

namespace TreeNode

/-- Field `weight` (reading through `NULL` is modelled as 0; the code never does it). -/
def weight : TreeNode → Nat
  | NULL => 0
  | node _ w _ _ => w

/-- Field `character`. -/
def character : TreeNode → Nat
  | NULL => 0
  | node c _ _ _ => c

/-- Field `child_left`. -/
def child_left : TreeNode → TreeNode
  | NULL => NULL
  | node _ _ l _ => l

/-- Field `child_right`. -/
def child_right : TreeNode → TreeNode
  | NULL => NULL
  | node _ _ _ r => r

/-- Test `p == NULL`. -/
def is_null : TreeNode → Bool
  | NULL => true
  | node _ _ _ _ => false

/-- Test `p->child_left == NULL && p->child_right == NULL` on a non-null `p`. -/
def is_leaf : TreeNode → Bool
  | node _ _ NULL NULL => true
  | _ => false

/-- The assignments `p->child_left = l; p->child_right = r;`. -/
def set_children : TreeNode → TreeNode → TreeNode → TreeNode
  | NULL, _, _ => NULL
  | node c w _ _, l, r => node c w l r

end TreeNode

open TreeNode

/-- An `EncodingRecord`: `binary_sequence` is `none` for a NULL pointer and
otherwise the characters of the C string before its terminator. -/
structure EncodingRecord where
  character : Nat
  binary_sequence : Option (List Char)
  sequence_length : Nat
deriving DecidableEq, Repr

/-- An `EncodingRecord` after `memset(.., 0, ..)`. -/
def EncodingRecord.zero : EncodingRecord := ⟨0, none, 0⟩

instance : Inhabited EncodingRecord := ⟨EncodingRecord.zero⟩

/-! ## Tree construction -/

/-- The function `make_tree_node`. -/
def make_tree_node (character : Nat) (weight : Nat) : TreeNode :=
  node (character % 256) (weight % UINT_MOD) NULL NULL

/-- The `while` loop of `place_in_order`: `rest` is `current_ptr->next_item`;
the loop advances while the next item exists and its weight is at most the new
weight, then links the new item in. -/
def place_loop : List TreeNode → TreeNode → List TreeNode
  | [], new_item => [new_item]
  | next :: rest, new_item =>
    if next.weight ≤ new_item.weight then next :: place_loop rest new_item
    else new_item :: next :: rest

/-- The function `place_in_order`. -/
def place_in_order : List TreeNode → TreeNode → List TreeNode
  | [], new_item => [new_item]
  | head :: rest, new_item =>
    if new_item.weight < head.weight then new_item :: head :: rest
    else head :: place_loop rest new_item

/-- Read `list_head->huffman_node`. -/
def head_node : List TreeNode → TreeNode
  | [] => NULL
  | item :: _ => item

/-- One iteration of the first `for` loop of `construct_huffman_tree`, on the
pair `(list_head, distinct_count)`. -/
def leaf_step (frequency_array : List Nat) (st : List TreeNode × Nat) (index : Nat) :
    List TreeNode × Nat :=
  if frequency_array.getD index 0 > 0 then
    (place_in_order st.1 (make_tree_node index (frequency_array.getD index 0)), st.2 + 1)
  else st

/-- The first `for` loop of `construct_huffman_tree` (index 0 to 255). -/
def leaf_list (frequency_array : List Nat) : List TreeNode × Nat :=
  (List.range 256).foldl (leaf_step frequency_array) ([], 0)

/-- Step 2 of the merging loop: `merged_node`, of weight `combined_weight`,
with the two extracted nodes as its children. -/
def merge_nodes (first_min second_min : TreeNode) : TreeNode :=
  (make_tree_node 0 ((first_min.weight + second_min.weight) % UINT_MOD)).set_children
    first_min second_min

/-- The merging `while` loop of `construct_huffman_tree`; every iteration
shortens the list by one item, so a fuel equal to its length suffices. -/
def merge_loop : Nat → List TreeNode → List TreeNode
  | fuel + 1, first_min :: second_min :: rest =>
    merge_loop fuel (place_in_order rest (merge_nodes first_min second_min))
  | _, list_head => list_head

/-- The function `construct_huffman_tree`. -/
def construct_huffman_tree (frequency_array : List Nat) : TreeNode :=
  let st := leaf_list frequency_array
  if st.2 = 0 then NULL
  else if st.2 = 1 then
    (make_tree_node 0 (head_node st.1).weight).set_children (head_node st.1) NULL
  else head_node (merge_loop st.1.length st.1)

/-! ## Code table generation -/

/-- The C string left in `binary_sequence` by `strncpy(dst, src, n)` followed
by `dst[n] = 0`: the first `n` characters of `src` up to a terminator. -/
def strncpy (src : List Char) (n : Nat) : List Char :=
  (src.take n).takeWhile (fun ch => ch != Char.ofNat 0)

/-- The function `create_encodings`, on the pair `(temp_buffer, encoding_table)`. -/
def create_encodings : TreeNode → List Char × List EncodingRecord → Nat →
    List Char × List EncodingRecord
  | NULL, st, _ => st
  | node c w l r, st, current_depth =>
    if (node c w l r).is_leaf then
      (st.1, st.2.set c ⟨c, some (strncpy st.1 current_depth), current_depth⟩)
    else
      let st1 :=
        if current_depth < 256 then
          create_encodings l (st.1.set current_depth '0', st.2) (current_depth + 1)
        else st
      if current_depth < 256 then
        create_encodings r (st1.1.set current_depth '1', st1.2) (current_depth + 1)
      else st1

/-- The function `create_encodings` together with a log of the tests
`current_depth < 256` it makes: one entry for every internal node visited, in
the order of the visits, holding `current_depth` and the value of the test.
When the test is true the node writes `temp_buffer[current_depth]` and
descends into both children; when it is false it skips them. -/
def create_encodings_logged : TreeNode → List Char × List EncodingRecord → Nat →
    (List Char × List EncodingRecord) × List (Nat × Bool)
  | NULL, st, _ => (st, [])
  | node c w l r, st, current_depth =>
    if (node c w l r).is_leaf then
      ((st.1, st.2.set c ⟨c, some (strncpy st.1 current_depth), current_depth⟩), [])
    else
      let left :=
        if current_depth < 256 then
          create_encodings_logged l (st.1.set current_depth '0', st.2) (current_depth + 1)
        else (st, [])
      let right :=
        if current_depth < 256 then
          create_encodings_logged r (left.1.1.set current_depth '1', left.1.2)
            (current_depth + 1)
        else (left.1, [])
      (right.1, (current_depth, decide (current_depth < 256)) :: (left.2 ++ right.2))

/-! ## Streams -/

/-- An input `FILE*` opened for reading: the bytes of the file and the read
position. -/
structure InStream where
  data : List Nat
  pos : Nat
deriving DecidableEq, Repr

/-- The call `fopen(name, "rb")` on a file with the given bytes. -/
def fopen_rb (data : List Nat) : InStream := ⟨data, 0⟩

/-- The call `fgetc`: `none` is `EOF`; a byte is returned as an `unsigned char`
value and the position advances. -/
def fgetc (file_stream : InStream) : Option Nat × InStream :=
  match file_stream.data.get? file_stream.pos with
  | none => (none, file_stream)
  | some byte_value => (some (byte_value % 256), ⟨file_stream.data, file_stream.pos + 1⟩)

/-- The call `rewind`. -/
def rewind (file_stream : InStream) : InStream := ⟨file_stream.data, 0⟩

/-- The bytes `fgetc` returns from the current position until `EOF`. -/
def InStream.unread (file_stream : InStream) : List Nat :=
  file_stream.data.drop file_stream.pos

/-- The call `fputc(c, stream)`: the byte `(unsigned char)c` is appended. -/
def fputc (c : Nat) (file_stream : List Nat) : List Nat :=
  file_stream ++ [c % 256]

/-! ## Frequency counting -/

/-- The statement `frequency_array[(unsigned char)character]++`. -/
def count_step (frequency_array : List Nat) (character : Nat) : List Nat :=
  frequency_array.set (character % 256)
    ((frequency_array.getD (character % 256) 0 + 1) % UINT_MOD)

/-- The function `compute_frequencies`: the array is zeroed by `memset`
whatever it held, every byte up to `EOF` is counted, the stream is rewound.
Returns the stream and the array. -/
def compute_frequencies (file_stream : InStream) (_frequency_array : List Nat) :
    InStream × List Nat :=
  (rewind file_stream, file_stream.unread.foldl count_step (List.replicate 256 0))

/-! ## Bit stream writer -/

/-- The writer state: the output file, `bit_collector`, `bit_counter`. -/
structure BitWriter where
  file_stream : List Nat
  bit_collector : Nat
  bit_counter : Nat
deriving DecidableEq, Repr

/-- The function `output_bit`. -/
def output_bit (st : BitWriter) (bit_value : Nat) : BitWriter :=
  let bit_collector := ((st.bit_collector <<< 1) ||| (bit_value &&& 1)) % 256
  let bit_counter := st.bit_counter + 1
  if bit_counter = 8 then ⟨fputc bit_collector st.file_stream, 0, 0⟩
  else ⟨st.file_stream, bit_collector, bit_counter⟩

/-- The function `empty_bit_buffer`. -/
def empty_bit_buffer (st : BitWriter) : BitWriter :=
  if st.bit_counter > 0 then
    ⟨fputc ((st.bit_collector <<< (8 - st.bit_counter)) % 256) st.file_stream, 0, 0⟩
  else st

/-! ## Bit stream reader -/

/-- The reader state: the input file, `bit_collector`, `bit_counter`, `end_of_file`. -/
structure BitReader where
  file_stream : InStream
  bit_collector : Nat
  bit_counter : Nat
  end_of_file : Nat
deriving DecidableEq, Repr

/-- The function `input_bit`: the returned bit and the new state. -/
def input_bit (st : BitReader) : Nat × BitReader :=
  let refill : Option BitReader :=
    if st.bit_counter = 0 then
      match fgetc st.file_stream with
      | (none, _) => none
      | (some byte_value, fs) => some ⟨fs, byte_value % 256, 8, st.end_of_file⟩
    else some st
  match refill with
  | none => (0, ⟨st.file_stream, st.bit_collector, st.bit_counter, 1⟩)
  | some st1 =>
    ((st1.bit_collector >>> 7) &&& 1,
     ⟨st1.file_stream, (st1.bit_collector <<< 1) % 256, st1.bit_counter - 1, st1.end_of_file⟩)

/-! ## Compression -/

/-- What `perform_compression` reports once both files are open. -/
inductive CompressionOutcome where
  | source_empty
  | completed
deriving DecidableEq, Repr

/-- The outcome of `perform_compression` and the bytes of the result file. -/
structure CompressionResult where
  outcome : CompressionOutcome
  output_file : List Nat
deriving DecidableEq, Repr

/-- The four bytes `fwrite` emits for one `unsigned int`. -/
def uint_bytes (x : Nat) : List Nat :=
  [x % 256, x / 256 % 256, x / 65536 % 256, x / 16777216 % 256]

/-- The call `fwrite(frequency_data, sizeof(unsigned int), 256, output_stream)`. -/
def fwrite_uint (frequency_data : List Nat) (count : Nat) (output_stream : List Nat) :
    List Nat :=
  output_stream ++ (frequency_data.take count).flatMap uint_bytes

/-- The inner `for` loop of `perform_compression` over the characters of one code. -/
def encode_code (binary_code : List Char) (st : BitWriter) : BitWriter :=
  binary_code.foldl (fun st ch => output_bit st (if ch = '1' then 1 else 0)) st

/-- The body of the `while` loop of `perform_compression` for one character. -/
def encode_step (encoding_data : List EncodingRecord) (st : BitWriter) (character : Nat) :
    BitWriter :=
  match (encoding_data.getD (character % 256) EncodingRecord.zero).binary_sequence with
  | some binary_code => encode_code binary_code st
  | none => st

/-- The function `perform_compression` on a source file with the given bytes,
both files having been opened.  `encoding_buffer` is the indeterminate initial
content of the 256-character stack buffer. -/
def perform_compression (encoding_buffer : List Char) (source : List Nat) :
    CompressionResult :=
  let input_stream := fopen_rb source
  let output_stream : List Nat := []
  let counted := compute_frequencies input_stream []
  let input_stream := counted.1
  let frequency_data := counted.2
  let huffman_root := construct_huffman_tree frequency_data
  if huffman_root.is_null then ⟨CompressionOutcome.source_empty, output_stream⟩
  else
    let encoding_data :=
      (create_encodings huffman_root
        (encoding_buffer, List.replicate 256 EncodingRecord.zero) 0).2
    let output_stream := fwrite_uint frequency_data 256 output_stream
    let st := input_stream.unread.foldl (encode_step encoding_data) ⟨output_stream, 0, 0⟩
    let st := empty_bit_buffer st
    ⟨CompressionOutcome.completed, st.file_stream⟩

/-! ## Decompression -/

/-- What `perform_decompression` reports once both files are open;
`null_dereference` is the undefined behaviour of reading a child of a NULL
cursor, `fuel_exhausted` marks a model loop that ran out of fuel. -/
inductive DecompressionOutcome where
  | invalid_format
  | tree_failure
  | completed
  | null_dereference
  | fuel_exhausted
deriving DecidableEq, Repr

/-- The outcomes that make up the format error of the specification: a header
that cannot be read in full, or a header from which no tree is built. -/
def DecompressionOutcome.is_format_error : DecompressionOutcome → Bool
  | DecompressionOutcome.invalid_format => true
  | DecompressionOutcome.tree_failure => true
  | _ => false

/-- The outcome of `perform_decompression`, the bytes of the restored file and
the two counters of the final report (0 on the paths that print no report). -/
structure DecompressionResult where
  outcome : DecompressionOutcome
  output_file : List Nat
  decoded_symbols : Int
  total_symbols : Int
deriving DecidableEq, Repr

/-- The complete 4-byte items among the given bytes, at most `count` of them. -/
def read_items : Nat → List Nat → List Nat
  | count + 1, b0 :: b1 :: b2 :: b3 :: rest =>
    (b0 % 256 + 256 * (b1 % 256) + 65536 * (b2 % 256) + 16777216 * (b3 % 256)) ::
      read_items count rest
  | _, _ => []

/-- The call `fread(frequency_data, sizeof(unsigned int), 256, input_stream)`:
the items read (their number is the return value) and the stream. -/
def fread_uint (count : Nat) (input_stream : InStream) : List Nat × InStream :=
  (read_items count input_stream.unread,
   ⟨input_stream.data, input_stream.pos + min (4 * count) input_stream.unread.length⟩)

/-- Conversion of an `unsigned int` value to `int`. -/
def int_of_uint (x : Nat) : Int :=
  if x % UINT_MOD < 2147483648 then (x % UINT_MOD : Nat) else (x % UINT_MOD : Nat) - 4294967296

/-- Conversion of an `int` value to `unsigned int`. -/
def uint_of_int (x : Int) : Nat := (x % 4294967296).toNat

/-- The statement `total_symbols += frequency_data[i]`: the sum is formed in
`unsigned int` and converted back to `int`. -/
def total_step (total_symbols : Int) (frequency : Nat) : Int :=
  int_of_uint ((uint_of_int total_symbols + frequency) % UINT_MOD)

/-- The state of the decoding loop. -/
structure DecodeState where
  reader : BitReader
  current_position : TreeNode
  decoded_symbols : Int
  output_stream : List Nat
deriving DecidableEq, Repr

/-- How the decoding loop ends. -/
inductive LoopResult where
  | exited (st : DecodeState)
  | null_dereference (st : DecodeState)
  | fuel_exhausted
deriving DecidableEq, Repr

/-- The decoding `while` loop of `perform_decompression`; the fuel bounds the
number of executions of the loop body. -/
def decode_loop (huffman_root : TreeNode) (total_symbols : Int) :
    Nat → DecodeState → LoopResult
  | fuel, st =>
    if st.reader.end_of_file ≠ 0 then LoopResult.exited st
    else
      match fuel with
      | 0 => LoopResult.fuel_exhausted
      | fuel + 1 =>
        let read := input_bit st.reader
        let bit_value := read.1
        let reader := read.2
        if reader.end_of_file ≠ 0 then
          decode_loop huffman_root total_symbols fuel
            ⟨reader, st.current_position, st.decoded_symbols, st.output_stream⟩
        else
          let current_position :=
            if bit_value = 0 then st.current_position.child_left
            else st.current_position.child_right
          if current_position.is_null then
            LoopResult.null_dereference
              ⟨reader, current_position, st.decoded_symbols, st.output_stream⟩
          else if current_position.is_leaf then
            let output_stream := fputc current_position.character st.output_stream
            let decoded_symbols := st.decoded_symbols + 1
            if decoded_symbols ≥ total_symbols then
              LoopResult.exited ⟨reader, huffman_root, decoded_symbols, output_stream⟩
            else
              decode_loop huffman_root total_symbols fuel
                ⟨reader, huffman_root, decoded_symbols, output_stream⟩
          else
            decode_loop huffman_root total_symbols fuel
              ⟨reader, current_position, st.decoded_symbols, st.output_stream⟩

/-- The function `perform_decompression` on a compressed file with the given
bytes, both files having been opened. -/
def perform_decompression (compressed : List Nat) : DecompressionResult :=
  let input_stream := fopen_rb compressed
  let output_stream : List Nat := []
  let header := fread_uint 256 input_stream
  let frequency_data := header.1
  let input_stream := header.2
  if frequency_data.length ≠ 256 then
    ⟨DecompressionOutcome.invalid_format, output_stream, 0, 0⟩
  else
    let huffman_root := construct_huffman_tree frequency_data
    if huffman_root.is_null then
      ⟨DecompressionOutcome.tree_failure, output_stream, 0, 0⟩
    else
      let total_symbols := ((List.range 256).map (fun i => frequency_data.getD i 0)).foldl
        total_step 0
      match decode_loop huffman_root total_symbols (8 * input_stream.unread.length + 1)
          ⟨⟨input_stream, 0, 0, 0⟩, huffman_root, 0, output_stream⟩ with
      | LoopResult.exited st =>
        ⟨DecompressionOutcome.completed, st.output_stream, st.decoded_symbols, total_symbols⟩
      | LoopResult.null_dereference st =>
        ⟨DecompressionOutcome.null_dereference, st.output_stream, st.decoded_symbols,
          total_symbols⟩
      | LoopResult.fuel_exhausted =>
        ⟨DecompressionOutcome.fuel_exhausted, output_stream, 0, total_symbols⟩

/-! ## Opening the files -/

/-- The files the two commands work on: the bytes of every existing file,
and for every path whether it may be read and whether `fopen(path, "wb")`
can create or truncate it. -/
structure FileSystem where
  content : String → Option (List Nat)
  readable : String → Bool
  writable : String → Bool

/-- Whether `fopen(path, "rb")` returns a stream: the file exists and may be read. -/
def FileSystem.opens_rb (fs : FileSystem) (path : String) : Bool :=
  fs.readable path && (fs.content path).isSome

/-- The effect of a successful `fopen(path, "wb")`: the file exists and is empty. -/
def FileSystem.truncate (fs : FileSystem) (path : String) : FileSystem :=
  ⟨fun p => if p = path then some [] else fs.content p, fs.readable, fs.writable⟩

/-- The file system once the output stream of `path` holds `bytes` and is closed. -/
def FileSystem.store (fs : FileSystem) (path : String) (bytes : List Nat) : FileSystem :=
  ⟨fun p => if p = path then some bytes else fs.content p, fs.readable, fs.writable⟩

/-- What a call of `perform_compression` or `perform_decompression` reports:
one of the two errors of stage 1, or the outcome of the stages that follow. -/
inductive Report (α : Type) where
  | source_not_opened
  | result_not_created
  | ran (outcome : α)

/-- Stage 1 of `perform_compression` and the call as a whole, on a file
system: the source is opened first and the call returns if that fails; only
then is the result file opened for writing, which empties it. -/
def perform_compression_at (fs : FileSystem) (encoding_buffer : List Char)
    (source_filename result_filename : String) :
    FileSystem × Report CompressionOutcome :=
  if fs.opens_rb source_filename = false then (fs, Report.source_not_opened)
  else if fs.writable result_filename = false then (fs, Report.result_not_created)
  else
    let fs1 := fs.truncate result_filename
    let res := perform_compression encoding_buffer ((fs1.content source_filename).getD [])
    (fs1.store result_filename res.output_file, Report.ran res.outcome)

/-- Stage 1 of `perform_decompression` and the call as a whole, on a file system. -/
def perform_decompression_at (fs : FileSystem)
    (compressed_filename restored_filename : String) :
    FileSystem × Report DecompressionOutcome :=
  if fs.opens_rb compressed_filename = false then (fs, Report.source_not_opened)
  else if fs.writable restored_filename = false then (fs, Report.result_not_created)
  else
    let fs1 := fs.truncate restored_filename
    let res := perform_decompression ((fs1.content compressed_filename).getD [])
    (fs1.store restored_filename res.output_file, Report.ran res.outcome)

/-! ## The loops as the functions run them -/

/-- The reading `while` loop of `compute_frequencies`: `fgetc` until `EOF`,
one count per byte.  A fuel of the number of unread bytes suffices. -/
def count_loop : Nat → InStream → List Nat → InStream × List Nat
  | 0, file_stream, frequency_array => (file_stream, frequency_array)
  | fuel + 1, file_stream, frequency_array =>
    match fgetc file_stream with
    | (none, file_stream) => (file_stream, frequency_array)
    | (some character, file_stream) =>
      count_loop fuel file_stream (count_step frequency_array character)

/-- The counters `perform_decompression` reads from the head of a file. -/
def header_counters (compressed : List Nat) : List Nat :=
  (fread_uint 256 (fopen_rb compressed)).1

/-- The input stream of `perform_decompression` after the header has been read. -/
def payload_stream (compressed : List Nat) : InStream :=
  (fread_uint 256 (fopen_rb compressed)).2

/-- The value `perform_decompression` computes for `total_symbols`. -/
def header_total (compressed : List Nat) : Int :=
  ((List.range 256).map (fun i => (header_counters compressed).getD i 0)).foldl total_step 0

/-- The decoding loop as `perform_decompression` runs it on a file whose
header gave a tree. -/
def decode_run (compressed : List Nat) : LoopResult :=
  decode_loop (construct_huffman_tree (header_counters compressed)) (header_total compressed)
    (8 * (payload_stream compressed).unread.length + 1)
    ⟨⟨payload_stream compressed, 0, 0, 0⟩,
      construct_huffman_tree (header_counters compressed), 0, []⟩

/-! ## Notions used in the statements -/

/-- A strict binary tree: a leaf, or a node with two strict subtrees. -/
inductive Full : TreeNode → Prop where
  | leaf (c w : Nat) : Full (node c w NULL NULL)
  | inner (c w : Nat) (l r : TreeNode) : Full l → Full r → Full (node c w l r)

/-- The leaves of a tree from left to right, each with the path leading to it
from the root, written as `create_encodings` writes it (the character 0 for a
left child, the character 1 for a right child). -/
def leaf_paths : TreeNode → List (Nat × List Char)
  | NULL => []
  | node c w l r =>
    if (node c w l r).is_leaf then [(c, [])]
    else (leaf_paths l).map (fun p => (p.1, '0' :: p.2)) ++
      (leaf_paths r).map (fun p => (p.1, '1' :: p.2))

/-- The byte values on the leaves of a tree, from left to right. -/
def leaf_chars (t : TreeNode) : List Nat := (leaf_paths t).map Prod.fst

/-- The number of edges on the longest path from the root down to a node. -/
def height : TreeNode → Nat
  | NULL => 0
  | node c w l r => if (node c w l r).is_leaf then 0 else 1 + max (height l) (height r)

/-- Follow a bit string down from a node: bit 0 to the left child, any other
bit to the right child. -/
def walk : TreeNode → List Nat → TreeNode
  | t, [] => t
  | t, bit :: rest => walk (if bit = 0 then t.child_left else t.child_right) rest

/-- The bit the compressor writes for a character of a code string. -/
def char_bit (ch : Char) : Nat := if ch = '1' then 1 else 0

/-- The table after `create_encodings` has recorded the given leaves below a
node whose own path is `pre`. -/
def record_paths (pre : List Char) (tab : List EncodingRecord)
    (ps : List (Nat × List Char)) : List EncodingRecord :=
  ps.foldl (fun tab p => tab.set p.1 ⟨p.1, some (pre ++ p.2), (pre ++ p.2).length⟩) tab

/-- The byte values with a non-zero count, in increasing order. -/
def present (frequency_array : List Nat) : List Nat :=
  (List.range 256).filter (fun i => decide (0 < frequency_array.getD i 0))

/-- The leaf `construct_huffman_tree` makes for byte value `i`. -/
def leaf_of (frequency_array : List Nat) (i : Nat) : TreeNode :=
  make_tree_node i (frequency_array.getD i 0)

/-- The table `perform_compression` zeroes with `memset`. -/
def zero_table : List EncodingRecord := List.replicate 256 EncodingRecord.zero

/-- The code table `create_encodings` fills for the tree of a histogram. -/
def code_table (encoding_buffer : List Char) (frequency_array : List Nat) :
    List EncodingRecord :=
  (create_encodings (construct_huffman_tree frequency_array)
    (encoding_buffer, zero_table) 0).2

/-- The entry of byte value `b` in a code table. -/
def table_entry (encoding_data : List EncodingRecord) (b : Nat) : EncodingRecord :=
  encoding_data.getD b EncodingRecord.zero

/-- The bits of a populated entry, as the compressor emits them. -/
def entry_bits (e : EncodingRecord) : List Nat :=
  match e.binary_sequence with
  | some binary_code => binary_code.map char_bit
  | none => []

/-- The code bits of a source in input order: for each byte the bits of its
entry in the table built for the histogram of the source. -/
def payload_bits (encoding_buffer : List Char) (source : List Nat) : List Nat :=
  source.flatMap (fun x => entry_bits
    (table_entry (code_table encoding_buffer (compute_frequencies (fopen_rb source) []).2)
      (x % 256)))

/-- Writing a bit sequence from a fresh writer state and flushing:
`output_bit` for every bit, then `empty_bit_buffer`. -/
def write_bits (bits : List Nat) : BitWriter :=
  empty_bit_buffer (bits.foldl output_bit ⟨[], 0, 0⟩)

/-- A fresh reader state on a file with the given bytes. -/
def fresh_reader (bytes : List Nat) : BitReader := ⟨fopen_rb bytes, 0, 0, 0⟩

/-- Calling `input_bit` up to `n` times and stopping at the call that reports
the end of the file: the bits returned and the last state. -/
def read_bits : Nat → BitReader → List Nat × BitReader
  | 0, st => ([], st)
  | n + 1, st =>
    if (input_bit st).2.end_of_file ≠ 0 then ([], (input_bit st).2)
    else ((input_bit st).1 :: (read_bits n (input_bit st).2).1,
      (read_bits n (input_bit st).2).2)

/-- The `k` low-order bits of `x`, most significant first. -/
def bits_of : Nat → Nat → List Nat
  | 0, _ => []
  | k + 1, x => bits_of k (x / 2) ++ [x % 2]

/-- The eight bits of a byte, most significant first. -/
def byte_bits (x : Nat) : List Nat := bits_of 8 x

/-- The bits a reader state still holds: those left in the accumulator, then
those of the unread bytes. -/
def pending (st : BitReader) : List Nat :=
  (byte_bits st.bit_collector).take st.bit_counter ++ st.file_stream.unread.flatMap byte_bits

/-- The nodes of a tree: the root, then the nodes of the left subtree, then
those of the right subtree. -/
def subtrees : TreeNode → List TreeNode
  | NULL => []
  | node c w l r => node c w l r :: (subtrees l ++ subtrees r)

/-- The leaves among the nodes of a tree. -/
def leaf_nodes (t : TreeNode) : List TreeNode :=
  (subtrees t).filter (fun n => n.is_leaf)

/-- The internal nodes of a tree. -/
def internal_nodes (t : TreeNode) : List TreeNode :=
  (subtrees t).filter (fun n => !n.is_leaf)

/-- The value of byte `k` of a packed bit sequence: bit `8 * k + j` of the
sequence has weight `2 ^ (7 - j)`, and a bit past the end of the sequence
counts as 0. -/
def packed_byte (bits : List Nat) (k : Nat) : Nat :=
  ((List.range 8).map (fun j => bits.getD (8 * k + j) 0 * 2 ^ (7 - j))).sum

/-! ## Weighted path length -/

/-- The loop of `place_in_order`, on the weights alone. -/
def weight_loop : List Nat → Nat → List Nat
  | [], x => [x]
  | next :: rest, x => if next ≤ x then next :: weight_loop rest x else x :: next :: rest

/-- The function `place_in_order`, on the weights alone. -/
def place_weight : List Nat → Nat → List Nat
  | [], x => [x]
  | head :: rest, x => if x < head then x :: head :: rest else head :: weight_loop rest x

/-- The sum of the weights of the nodes the merging loop creates from a list
of weights, when no sum wraps. -/
def merge_cost : Nat → List Nat → Nat
  | fuel + 1, a :: b :: rest => a + b + merge_cost fuel (place_weight rest (a + b))
  | _, _ => 0

/-- The weighted path length of a tree for a histogram: the sum over its
leaves of the count of the byte value times the length of the path. -/
def path_cost (frequency_array : List Nat) (t : TreeNode) : Nat :=
  ((leaf_paths t).map (fun p => frequency_array.getD p.1 0 * p.2.length)).sum

/-- The sum of the counts of the byte values on the leaves of a tree. -/
def leaf_sum (frequency_array : List Nat) (t : TreeNode) : Nat :=
  ((leaf_chars t).map (fun c => frequency_array.getD c 0)).sum

/-- The total encoded length of a code table for a histogram, in bits: the
sum over the byte values of count times `sequence_length`. -/
def table_cost (frequency_array : List Nat) (encoding_data : List EncodingRecord) : Nat :=
  ∑ b ∈ Finset.range 256,
    frequency_array.getD b 0 * (table_entry encoding_data b).sequence_length

/-- The total encoded length of an arbitrary assignment of bit strings to the
byte values, for a histogram. -/
def code_cost (frequency_array : List Nat) (code : Nat → List Bool) : Nat :=
  ∑ b ∈ Finset.range 256, frequency_array.getD b 0 * (code b).length

/-- The sum of the 256 counters of a histogram. -/
def histogram_sum (frequency_array : List Nat) : Nat :=
  ((List.range 256).map (fun b => frequency_array.getD b 0)).sum

/-- The string of a table entry as a bit string (`true` for the character 1);
empty for an entry that is not populated. -/
def entry_code (e : EncodingRecord) : List Bool :=
  match e.binary_sequence with
  | some binary_code => binary_code.map (fun ch => decide (ch = '1'))
  | none => []

/-- The path recorded for byte value `b` in a list of leaves. -/
def path_of : List (Nat × List Char) → Nat → List Char
  | [], _ => []
  | p :: rest, b => if p.1 = b then p.2 else path_of rest b

/-- The bit string a tree assigns to byte value `b`: the path to its leaf. -/
def tree_code (t : TreeNode) (b : Nat) : List Bool :=
  (path_of (leaf_paths t) b).map (fun ch => decide (ch = '1'))

/-- The Kraft inequality at scale `D` for code lengths `len` on the index set `s`. -/
def Kraft (D : Nat) (s : Finset Nat) (len : Nat → Nat) : Prop :=
  (∀ i ∈ s, len i ≤ D) ∧ ∑ i ∈ s, 2 ^ (D - len i) ≤ 2 ^ D

/-! ## Invariants used in the proofs -/

/-- What the writer state stands for: the bits written so far are those of the
bytes emitted followed by the `bit_counter` low bits of the accumulator. -/
structure WriterInv (st : BitWriter) (written : List Nat) : Prop where
  counter_lt : st.bit_counter < 8
  collector_lt : st.bit_collector < 2 ^ st.bit_counter
  bits_eq : st.file_stream.flatMap byte_bits ++ bits_of st.bit_counter st.bit_collector
    = written
  length_eq : 8 * st.file_stream.length + st.bit_counter = written.length

/-- A reader state between two calls: no end of file seen, a byte in the
accumulator, at most eight bits left in it. -/
structure ReaderOK (st : BitReader) : Prop where
  eof_zero : st.end_of_file = 0
  collector_lt : st.bit_collector < 256
  counter_le : st.bit_counter ≤ 8

/-- The invariant of the list during construction: its items are strict
binary trees and their leaves carry the byte values with a non-zero count,
each once. -/
def ForestInv (frequency_array : List Nat) (l : List TreeNode) : Prop :=
  (∀ t ∈ l, Full t) ∧ (l.flatMap leaf_chars).Perm (present frequency_array)

/-! ## Basic facts on nodes -/

@[simp] theorem is_leaf_mk_leaf (c w : Nat) : (node c w NULL NULL).is_leaf = true := rfl

@[simp] theorem is_null_node (c w : Nat) (l r : TreeNode) : (node c w l r).is_null = false := rfl

@[simp] theorem is_null_NULL : NULL.is_null = true := rfl

theorem is_null_iff (t : TreeNode) : t.is_null = true ↔ t = NULL := by
  cases t <;> simp [is_null]

theorem is_leaf_false_of_left (c w : Nat) (l r : TreeNode) (h : l ≠ NULL) :
    (node c w l r).is_leaf = false := by
  cases l with
  | NULL => exact absurd rfl h
  | node _ _ _ _ => rfl

theorem is_leaf_false_of_right (c w : Nat) (l r : TreeNode) (h : r ≠ NULL) :
    (node c w l r).is_leaf = false := by
  cases r with
  | NULL => exact absurd rfl h
  | node _ _ _ _ => cases l <;> rfl

theorem is_leaf_iff (c w : Nat) (l r : TreeNode) :
    (node c w l r).is_leaf = true ↔ l = NULL ∧ r = NULL := by
  cases l <;> cases r <;> simp [is_leaf]

theorem Full.ne_null {t : TreeNode} (h : Full t) : t ≠ NULL := by
  cases h <;> simp

theorem merge_nodes_eq (a b : TreeNode) :
    merge_nodes a b = node 0 ((a.weight + b.weight) % UINT_MOD) a b := by
  simp [merge_nodes, make_tree_node, set_children]

theorem make_tree_node_eq (c w : Nat) :
    make_tree_node c w = node (c % 256) (w % UINT_MOD) NULL NULL := rfl

/-! ## The ordered list -/

theorem place_loop_perm (l : List TreeNode) (x : TreeNode) :
    (place_loop l x).Perm (x :: l) := by
  induction l with
  | nil => simp [place_loop]
  | cons y ys ih =>
    simp only [place_loop]
    split
    · exact (List.Perm.cons y ih).trans (List.Perm.swap x y ys)
    · exact List.Perm.refl _

theorem place_in_order_perm (l : List TreeNode) (x : TreeNode) :
    (place_in_order l x).Perm (x :: l) := by
  cases l with
  | nil => simp [place_in_order]
  | cons y ys =>
    simp only [place_in_order]
    split
    · exact List.Perm.refl _
    · exact (List.Perm.cons y (place_loop_perm ys x)).trans (List.Perm.swap x y ys)

theorem place_in_order_length (l : List TreeNode) (x : TreeNode) :
    (place_in_order l x).length = l.length + 1 := by
  simpa using (place_in_order_perm l x).length_eq

theorem mem_place_in_order {l : List TreeNode} {x t : TreeNode} :
    t ∈ place_in_order l x ↔ t = x ∨ t ∈ l := by
  rw [(place_in_order_perm l x).mem_iff]; simp

/-- An invariant of the list that one merging step keeps is kept by the loop. -/
theorem merge_loop_invariant (Q : List TreeNode → Prop)
    (hstep : ∀ a b rest, Q (a :: b :: rest) → Q (place_in_order rest (merge_nodes a b))) :
    ∀ (fuel : Nat) (l : List TreeNode), Q l → Q (merge_loop fuel l) := by
  intro fuel
  induction fuel with
  | zero => intro l h; simpa [merge_loop] using h
  | succ n ih =>
    intro l h
    match l, h with
    | [], h => simpa [merge_loop] using h
    | [a], h => simpa [merge_loop] using h
    | a :: b :: rest, h =>
      simp only [merge_loop]
      exact ih _ (hstep a b rest h)

/-- With a fuel of at least the length minus one the loop ends on one item. -/
theorem merge_loop_length (fuel : Nat) (l : List TreeNode) (hne : l ≠ [])
    (hfuel : l.length ≤ fuel + 1) : (merge_loop fuel l).length = 1 := by
  induction fuel generalizing l with
  | zero =>
    match l, hne, hfuel with
    | [a], _, _ => simp [merge_loop]
    | a :: b :: rest, _, h => simp at h
  | succ n ih =>
    match l, hne, hfuel with
    | [a], _, _ => simp [merge_loop]
    | a :: b :: rest, _, h =>
      simp only [merge_loop]
      apply ih
      · intro h0
        have := place_in_order_length rest (merge_nodes a b)
        rw [h0] at this; simp at this
      · rw [place_in_order_length]; simp at h; omega

/-! ## The initial list of leaves -/

theorem leaf_step_pos (freq : List Nat) (st : List TreeNode × Nat) (i : Nat)
    (hi : 0 < freq.getD i 0) :
    leaf_step freq st i = (place_in_order st.1 (leaf_of freq i), st.2 + 1) := by
  unfold leaf_step leaf_of
  exact if_pos hi

theorem leaf_step_zero (freq : List Nat) (st : List TreeNode × Nat) (i : Nat)
    (hi : ¬ 0 < freq.getD i 0) : leaf_step freq st i = st := by
  unfold leaf_step
  exact if_neg hi

theorem leaf_fold_spec (freq : List Nat) (idx : List Nat) (st : List TreeNode × Nat) :
    (idx.foldl (leaf_step freq) st).2
        = st.2 + (idx.filter (fun i => decide (0 < freq.getD i 0))).length ∧
    (idx.foldl (leaf_step freq) st).1.Perm
        (((idx.filter (fun i => decide (0 < freq.getD i 0))).map (leaf_of freq)).reverse
          ++ st.1) := by
  induction idx generalizing st with
  | nil => exact ⟨rfl, List.Perm.refl _⟩
  | cons i rest ih =>
    rw [List.foldl_cons]
    by_cases hi : 0 < freq.getD i 0
    · rw [leaf_step_pos freq st i hi, List.filter_cons_of_pos (by simpa using hi)]
      obtain ⟨h1, h2⟩ := ih (place_in_order st.1 (leaf_of freq i), st.2 + 1)
      constructor
      · rw [h1, List.length_cons]; omega
      · refine h2.trans ?_
        rw [List.map_cons, List.reverse_cons, List.append_assoc]
        exact List.Perm.append_left _ (place_in_order_perm _ _)
    · rw [leaf_step_zero freq st i hi, List.filter_cons_of_neg (by simpa using hi)]
      exact ih st

theorem leaf_list_count (freq : List Nat) : (leaf_list freq).2 = (present freq).length := by
  have := (leaf_fold_spec freq (List.range 256) ([], 0)).1
  rw [Nat.zero_add] at this
  exact this

theorem leaf_list_perm (freq : List Nat) :
    (leaf_list freq).1.Perm ((present freq).map (leaf_of freq)) := by
  have := (leaf_fold_spec freq (List.range 256) ([], 0)).2
  rw [List.append_nil] at this
  exact this.trans (List.reverse_perm _)

theorem leaf_list_length (freq : List Nat) :
    (leaf_list freq).1.length = (present freq).length := by
  simpa using (leaf_list_perm freq).length_eq

theorem mem_present {freq : List Nat} {i : Nat} :
    i ∈ present freq ↔ i < 256 ∧ 0 < freq.getD i 0 := by
  unfold present
  rw [List.mem_filter, List.mem_range, decide_eq_true_iff]

theorem present_nodup (freq : List Nat) : (present freq).Nodup :=
  (List.nodup_range 256).filter _

theorem present_length_le (freq : List Nat) : (present freq).length ≤ 256 := by
  have := List.length_filter_le (fun i => decide (0 < freq.getD i 0)) (List.range 256)
  simpa [present] using this

theorem present_eq_nil_iff (freq : List Nat) :
    present freq = [] ↔ ∀ i, i < 256 → freq.getD i 0 = 0 := by
  rw [List.eq_nil_iff_forall_not_mem]
  constructor
  · intro h i hi
    by_contra h0
    exact h i (mem_present.mpr ⟨hi, Nat.pos_of_ne_zero h0⟩)
  · intro h i hi
    rw [mem_present] at hi
    have := h i hi.1
    omega

/-- Every item of the list the loops handle is a node, never NULL. -/
theorem leaf_list_ne_null (freq : List Nat) : ∀ t ∈ (leaf_list freq).1, t ≠ NULL := by
  intro t ht
  rw [(leaf_list_perm freq).mem_iff] at ht
  simp only [List.mem_map] at ht
  obtain ⟨i, _, rfl⟩ := ht
  simp [leaf_of, make_tree_node]

theorem merge_loop_ne_null (fuel : Nat) (l : List TreeNode) (h : ∀ t ∈ l, t ≠ NULL) :
    ∀ t ∈ merge_loop fuel l, t ≠ NULL := by
  refine merge_loop_invariant (fun l => ∀ t ∈ l, t ≠ NULL) ?_ fuel l h
  intro a b rest hQ t ht
  rw [mem_place_in_order] at ht
  rcases ht with rfl | ht
  · simp [merge_nodes_eq]
  · exact hQ t (by simp [ht])

theorem head_node_mem {l : List TreeNode} (h : l ≠ []) : head_node l ∈ l := by
  cases l with
  | nil => exact absurd rfl h
  | cons a _ => simp [head_node]

theorem construct_eq_null_iff (freq : List Nat) :
    construct_huffman_tree freq = NULL ↔ ∀ i, i < 256 → freq.getD i 0 = 0 := by
  rw [← present_eq_nil_iff]
  unfold construct_huffman_tree
  simp only [leaf_list_count]
  constructor
  · intro h
    by_contra hne
    have hpos : (present freq).length ≠ 0 := by simpa using hne
    rw [if_neg hpos] at h
    by_cases h1 : (present freq).length = 1
    · rw [if_pos h1] at h
      simp [make_tree_node, set_children] at h
    · rw [if_neg h1] at h
      have hl : (leaf_list freq).1 ≠ [] := by
        intro h0
        have := leaf_list_length freq
        rw [h0] at this
        exact hpos this.symm
      have hlen := merge_loop_length (leaf_list freq).1.length (leaf_list freq).1 hl (by omega)
      have hmem : head_node (merge_loop (leaf_list freq).1.length (leaf_list freq).1)
          ∈ merge_loop (leaf_list freq).1.length (leaf_list freq).1 := by
        apply head_node_mem
        intro h0; rw [h0] at hlen; simp at hlen
      exact merge_loop_ne_null _ _ (leaf_list_ne_null freq) _ hmem h
  · intro h
    simp [h]

/-! ## Frequency counting -/

theorem getD_set_eq (l : List Nat) (i j v : Nat) :
    (l.set i v).getD j 0 = if i = j ∧ j < l.length then v else l.getD j 0 := by
  rw [List.getD_eq_getElem?_getD, List.getD_eq_getElem?_getD, List.getElem?_set]
  by_cases hij : i = j
  · subst hij
    by_cases hlt : i < l.length
    · simp [hlt]
    · have : l[i]? = none := List.getElem?_eq_none (by omega)
      simp [hlt, this]
  · simp [hij]

theorem count_step_length (arr : List Nat) (x : Nat) :
    (count_step arr x).length = arr.length := by
  simp [count_step]

theorem count_fold_length (S arr : List Nat) :
    (S.foldl count_step arr).length = arr.length := by
  induction S generalizing arr with
  | nil => rfl
  | cons x xs ih => rw [List.foldl_cons, ih, count_step_length]

theorem count_step_getD (arr : List Nat) (x b : Nat) (hlen : arr.length = 256)
    (hb : b < 256) :
    (count_step arr x).getD b 0
      = if x % 256 = b then (arr.getD b 0 + 1) % UINT_MOD else arr.getD b 0 := by
  unfold count_step
  rw [getD_set_eq]
  by_cases h : x % 256 = b
  · subst h
    rw [if_pos ⟨rfl, by omega⟩, if_pos rfl]
  · rw [if_neg (fun hh => h hh.1), if_neg h]

/-- Every counter is the number of matching bytes modulo `2 ^ 32`. -/
theorem count_fold_getD (S arr : List Nat) (b : Nat) (hlen : arr.length = 256)
    (hb : b < 256) (harr : arr.getD b 0 < UINT_MOD) :
    (S.foldl count_step arr).getD b 0
      = (arr.getD b 0 + S.countP (fun x => decide (x % 256 = b))) % UINT_MOD := by
  induction S generalizing arr with
  | nil =>
    rw [List.foldl_nil, List.countP_nil, Nat.add_zero, Nat.mod_eq_of_lt harr]
  | cons x xs ih =>
    rw [List.foldl_cons, ih (count_step arr x) (by rw [count_step_length, hlen])]
    · rw [count_step_getD arr x b hlen hb]
      by_cases h : x % 256 = b
      · rw [if_pos h, List.countP_cons_of_pos _ _ (by simpa using h)]
        rw [Nat.mod_add_mod]
        congr 1; omega
      · rw [if_neg h, List.countP_cons_of_neg _ _ (by simpa using h)]
    · rw [count_step_getD arr x b hlen hb]
      split
      · exact Nat.mod_lt _ (by decide)
      · exact harr

theorem getD_replicate_zero (n b : Nat) : (List.replicate n 0).getD b 0 = 0 := by
  rw [List.getD_eq_getElem?_getD, List.getElem?_replicate]
  split <;> rfl

theorem compute_frequencies_getD (S prior : List Nat) (b : Nat) (hb : b < 256) :
    (compute_frequencies (fopen_rb S) prior).2.getD b 0
      = S.countP (fun x => decide (x % 256 = b)) % UINT_MOD := by
  unfold compute_frequencies
  simp only [InStream.unread, fopen_rb, List.drop_zero]
  rw [count_fold_getD _ _ b (List.length_replicate 256 0) hb
      (by rw [getD_replicate_zero]; decide),
    getD_replicate_zero, Nat.zero_add]

theorem compute_frequencies_length (S prior : List Nat) :
    (compute_frequencies (fopen_rb S) prior).2.length = 256 := by
  unfold compute_frequencies
  rw [count_fold_length]; exact List.length_replicate 256 0

theorem countP_byte_eq_count (S : List Nat) (b : Nat) (hS : ∀ x ∈ S, x < 256) :
    S.countP (fun x => decide (x % 256 = b)) = S.count b := by
  rw [List.count, List.countP_congr]
  intro x hx
  rw [Nat.mod_eq_of_lt (hS x hx)]
  simp

/-- The counts of all byte values add up to the length. -/
theorem sum_count_range (S : List Nat) (n : Nat) (hS : ∀ x ∈ S, x < n) :
    ((List.range n).map (fun b => S.count b)).sum = S.length := by
  induction S with
  | nil => simp
  | cons x xs ih =>
    have hx : x < n := hS x (by simp)
    have ih' := ih (fun y hy => hS y (by simp [hy]))
    have h1 : ∀ b, (x :: xs).count b = xs.count b + (if b = x then 1 else 0) := by
      intro b
      rw [List.count_cons]
      by_cases h : x = b
      · subst h; simp
      · have h' : ¬ b = x := fun hh => h hh.symm
        simp [h, h']
    simp only [h1, List.length_cons]
    rw [List.sum_map_add, ih']
    congr 1
    clear ih ih' h1 hS
    induction n with
    | zero => omega
    | succ m ihm =>
      rw [List.range_succ, List.map_append, List.sum_append]
      by_cases hxm : x < m
      · rw [ihm hxm]
        have : ¬ m = x := by omega
        simp [this]
      · have hxe : x = m := by omega
        subst hxe
        have hz : ((List.range x).map (fun b => if b = x then 1 else 0)).sum = 0 := by
          apply List.sum_eq_zero
          intro y hy
          rw [List.mem_map] at hy
          obtain ⟨b, hb, rfl⟩ := hy
          rw [List.mem_range] at hb
          rw [if_neg (by omega)]
        rw [hz]; simp

theorem list_eq_map_getD (l : List Nat) :
    l = (List.range l.length).map (fun i => l.getD i 0) := by
  apply List.ext_getElem
  · simp
  · intro i h1 h2
    simp [List.getD_eq_getElem?_getD, List.getElem?_eq_getElem h1]

theorem compute_frequencies_count (S prior : List Nat) (hS : ∀ x ∈ S, x < 256) (b : Nat)
    (hb : b < 256) (hc : S.count b < UINT_MOD) :
    (compute_frequencies (fopen_rb S) prior).2.getD b 0 = S.count b := by
  rw [compute_frequencies_getD S prior b hb, countP_byte_eq_count S b hS]
  exact Nat.mod_eq_of_lt hc

theorem compute_frequencies_sum (S prior : List Nat) (hS : ∀ x ∈ S, x < 256)
    (hc : ∀ b, b < 256 → S.count b < UINT_MOD) :
    (compute_frequencies (fopen_rb S) prior).2.sum = S.length := by
  rw [list_eq_map_getD (compute_frequencies (fopen_rb S) prior).2,
    compute_frequencies_length, ← sum_count_range S 256 hS]
  congr 1
  apply List.map_congr_left
  intro b hb
  exact compute_frequencies_count S prior hS b (List.mem_range.mp hb)
    (hc b (List.mem_range.mp hb))

theorem count_lt_of_length_lt (S : List Nat) (n b : Nat) (h : S.length < n) :
    S.count b < n :=
  Nat.lt_of_le_of_lt (List.count_le_length b S) h

/-! ## Bits of a byte -/

theorem bits_of_length (k x : Nat) : (bits_of k x).length = k := by
  induction k generalizing x with
  | zero => rfl
  | succ k ih => simp [bits_of, ih]

theorem bits_of_mod (k x : Nat) : bits_of k (x % 2 ^ k) = bits_of k x := by
  induction k generalizing x with
  | zero => rfl
  | succ k ih =>
    simp only [bits_of]
    have h1 : x % 2 ^ (k + 1) / 2 = x / 2 % 2 ^ k := by
      rw [pow_succ, Nat.mul_comm]
      exact Nat.mod_mul_right_div_self x 2 (2 ^ k)
    have h2 : x % 2 ^ (k + 1) % 2 = x % 2 := by
      apply Nat.mod_mod_of_dvd
      exact Dvd.intro_left (2 ^ k) rfl
    rw [h1, h2, ih]

theorem byte_bits_mod (x : Nat) : byte_bits (x % 256) = byte_bits x :=
  bits_of_mod 8 x

theorem byte_bits_length (x : Nat) : (byte_bits x).length = 8 := bits_of_length 8 x

theorem bits_of_double_add (k c b : Nat) (hb : b < 2) :
    bits_of (k + 1) (2 * c + b) = bits_of k c ++ [b] := by
  simp only [bits_of]
  congr 2 <;> omega

theorem bits_of_shift (k j c : Nat) :
    bits_of (k + j) (c * 2 ^ j) = bits_of k c ++ List.replicate j 0 := by
  induction j with
  | zero => simp
  | succ j ih =>
    rw [← Nat.add_assoc]
    simp only [bits_of]
    have h1 : c * 2 ^ (j + 1) / 2 = c * 2 ^ j := by
      rw [pow_succ, ← Nat.mul_assoc]
      exact Nat.mul_div_cancel _ (by decide)
    have h2 : c * 2 ^ (j + 1) % 2 = 0 := by
      rw [pow_succ, ← Nat.mul_assoc]
      exact Nat.mul_mod_left _ _
    rw [h1, h2, ih, List.append_assoc]
    congr 1
    rw [List.replicate_succ']

set_option maxRecDepth 100000 in
theorem or_bit_eq : ∀ c, c < 128 → ∀ b, b < 2 →
    ((c <<< 1) ||| (b &&& 1)) % 256 = 2 * c + b := by
  decide

set_option maxRecDepth 100000 in
theorem take_byte_bits : ∀ c, c < 256 → ∀ k, k < 8 →
    (byte_bits c).take (k + 1)
      = ((c >>> 7) &&& 1) :: (byte_bits ((c <<< 1) % 256)).take k := by
  decide

/-! ## The writer -/

theorem writerInv_init : WriterInv ⟨[], 0, 0⟩ [] :=
  ⟨by decide, by decide, rfl, rfl⟩

theorem flatMap_append_single (l : List Nat) (x : Nat) :
    (l ++ [x]).flatMap byte_bits = l.flatMap byte_bits ++ byte_bits x := by
  simp [List.flatMap_append]

theorem writerInv_output_bit (st : BitWriter) (written : List Nat) (b : Nat) (hb : b < 2)
    (h : WriterInv st written) : WriterInv (output_bit st b) (written ++ [b]) := by
  obtain ⟨h1, h2, h3, h4⟩ := h
  have hc : st.bit_collector < 128 := by
    calc st.bit_collector < 2 ^ st.bit_counter := h2
      _ ≤ 2 ^ 7 := Nat.pow_le_pow_right (by decide) (by omega)
  have hor := or_bit_eq st.bit_collector hc b hb
  unfold output_bit
  simp only [hor]
  by_cases h8 : st.bit_counter + 1 = 8
  · rw [if_pos h8]
    have h7 : st.bit_counter = 7 := by omega
    refine ⟨by simp only; decide, by simp only; decide, ?_, ?_⟩
    · simp only [fputc, flatMap_append_single, byte_bits_mod, bits_of, List.append_nil]
      rw [← h3, h7, List.append_assoc]
      congr 1
      exact bits_of_double_add 7 st.bit_collector b hb
    · simp only [fputc, List.length_append, List.length_singleton]
      omega
  · rw [if_neg h8]
    refine ⟨by simp only; omega, ?_, ?_, ?_⟩
    · simp only
      rw [pow_succ]; omega
    · simp only
      rw [bits_of_double_add _ _ _ hb, ← List.append_assoc, h3]
    · simp only [List.length_append, List.length_singleton]
      omega

theorem writerInv_foldl (bits : List Nat) (hbits : ∀ b ∈ bits, b < 2) (st : BitWriter)
    (written : List Nat) (h : WriterInv st written) :
    WriterInv (bits.foldl output_bit st) (written ++ bits) := by
  induction bits generalizing st written with
  | nil => simpa using h
  | cons b bs ih =>
    rw [List.foldl_cons]
    have := ih (fun x hx => hbits x (by simp [hx])) (output_bit st b) (written ++ [b])
      (writerInv_output_bit st written b (hbits b (by simp)) h)
    simpa using this

/-- After the flush the file holds the written bits followed by the zero bits
that complete the last byte. -/
theorem writerInv_flush (st : BitWriter) (written : List Nat) (h : WriterInv st written) :
    (empty_bit_buffer st).file_stream.flatMap byte_bits
        = written ++ List.replicate ((8 - written.length % 8) % 8) 0 ∧
    (empty_bit_buffer st).file_stream.length = (written.length + 7) / 8 ∧
    (empty_bit_buffer st).bit_counter = 0 ∧ (empty_bit_buffer st).bit_collector = 0 := by
  obtain ⟨h1, h2, h3, h4⟩ := h
  unfold empty_bit_buffer
  by_cases hk : st.bit_counter > 0
  · rw [if_pos hk]
    simp only [fputc, flatMap_append_single, byte_bits_mod, List.length_append,
      List.length_singleton]
    refine ⟨?_, by omega, trivial, trivial⟩
    rw [Nat.shiftLeft_eq]
    have hpad : (8 - written.length % 8) % 8 = 8 - st.bit_counter := by omega
    rw [hpad, ← h3, List.append_assoc]
    congr 1
    have := bits_of_shift st.bit_counter (8 - st.bit_counter) st.bit_collector
    rw [show st.bit_counter + (8 - st.bit_counter) = 8 by omega] at this
    exact this
  · rw [if_neg hk]
    have h0 : st.bit_counter = 0 := by omega
    have hc0 : st.bit_collector = 0 := by
      rw [h0] at h2; simpa using h2
    refine ⟨?_, by omega, h0, hc0⟩
    have hpad : (8 - written.length % 8) % 8 = 0 := by omega
    rw [hpad, ← h3, h0]
    simp [bits_of]

/-! ## The reader -/

theorem fgetc_of_unread_nil (fs : InStream) (h : fs.unread = []) : fgetc fs = (none, fs) := by
  unfold fgetc
  have : fs.data.get? fs.pos = none := by
    rw [List.get?_eq_getElem?, List.getElem?_eq_none]
    unfold InStream.unread at h
    exact List.drop_eq_nil_iff.mp h
  rw [this]

theorem fgetc_of_unread_cons (fs : InStream) (x : Nat) (xs : List Nat)
    (h : fs.unread = x :: xs) :
    fgetc fs = (some (x % 256), ⟨fs.data, fs.pos + 1⟩) ∧
    (⟨fs.data, fs.pos + 1⟩ : InStream).unread = xs := by
  unfold InStream.unread at h
  have hget : fs.data.get? fs.pos = some x := by
    rw [List.get?_eq_getElem?, ← List.head?_drop, h]; rfl
  constructor
  · unfold fgetc
    rw [hget]
  · unfold InStream.unread
    simp only
    rw [← List.tail_drop, h]; rfl

theorem input_bit_of_counter_pos (st : BitReader) (h : st.bit_counter ≠ 0) :
    input_bit st = ((st.bit_collector >>> 7) &&& 1,
      ⟨st.file_stream, (st.bit_collector <<< 1) % 256, st.bit_counter - 1, st.end_of_file⟩) := by
  unfold input_bit
  simp only [if_neg h]

theorem input_bit_of_eof (st : BitReader) (h : st.bit_counter = 0)
    (hu : st.file_stream.unread = []) :
    input_bit st = (0, ⟨st.file_stream, st.bit_collector, st.bit_counter, 1⟩) := by
  unfold input_bit
  simp only [if_pos h, fgetc_of_unread_nil _ hu]

theorem input_bit_of_refill (st : BitReader) (h : st.bit_counter = 0) (x : Nat)
    (xs : List Nat) (hu : st.file_stream.unread = x :: xs) :
    input_bit st = (((x % 256) >>> 7) &&& 1,
      ⟨⟨st.file_stream.data, st.file_stream.pos + 1⟩, ((x % 256) <<< 1) % 256, 7,
        st.end_of_file⟩) := by
  unfold input_bit
  simp only [if_pos h, (fgetc_of_unread_cons _ x xs hu).1, Nat.mod_mod]

theorem fresh_reader_ok (bytes : List Nat) : ReaderOK (fresh_reader bytes) :=
  ⟨rfl, Nat.zero_lt_succ _, Nat.zero_le _⟩

theorem pending_fresh (bytes : List Nat) :
    pending (fresh_reader bytes) = bytes.flatMap byte_bits := by
  simp [pending, fresh_reader, fopen_rb, InStream.unread]

theorem input_bit_nil (st : BitReader) (hok : ReaderOK st) (hp : pending st = []) :
    input_bit st = (0, ⟨st.file_stream, st.bit_collector, st.bit_counter, 1⟩) := by
  unfold pending at hp
  rw [List.append_eq_nil] at hp
  obtain ⟨hp1, hp2⟩ := hp
  have hc : st.bit_counter = 0 := by
    have := congrArg List.length hp1
    rw [List.length_take, byte_bits_length] at this
    have := hok.counter_le
    simp at *
    omega
  have hu : st.file_stream.unread = [] := by
    cases hun : st.file_stream.unread with
    | nil => rfl
    | cons x xs =>
      rw [hun] at hp2
      have := congrArg List.length hp2
      simp [List.flatMap_cons, byte_bits_length] at this
  exact input_bit_of_eof st hc hu

theorem input_bit_cons (st : BitReader) (hok : ReaderOK st) (b : Nat) (rest : List Nat)
    (hp : pending st = b :: rest) :
    (input_bit st).1 = b ∧ ReaderOK (input_bit st).2 ∧ pending (input_bit st).2 = rest ∧
    (input_bit st).2.file_stream.data = st.file_stream.data := by
  by_cases hc : st.bit_counter = 0
  · unfold pending at hp
    rw [hc, List.take_zero, List.nil_append] at hp
    cases hun : st.file_stream.unread with
    | nil => rw [hun] at hp; simp at hp
    | cons x xs =>
      rw [hun, List.flatMap_cons] at hp
      rw [input_bit_of_refill st hc x xs hun]
      have hx : x % 256 < 256 := Nat.mod_lt _ (by decide)
      have htake := take_byte_bits (x % 256) hx 7 (by decide)
      rw [List.take_of_length_le (by rw [byte_bits_length]), byte_bits_mod] at htake
      rw [htake, List.cons_append, List.cons.injEq] at hp
      refine ⟨hp.1, ⟨hok.eof_zero, Nat.mod_lt _ (by decide), by simp only; omega⟩, ?_, rfl⟩
      unfold pending
      simp only [(fgetc_of_unread_cons _ x xs hun).2]
      exact hp.2
  · rw [input_bit_of_counter_pos st hc]
    unfold pending at hp
    obtain ⟨k, hk⟩ : ∃ k, st.bit_counter = k + 1 := ⟨st.bit_counter - 1, by omega⟩
    have hk8 : k < 8 := by have := hok.counter_le; omega
    rw [hk, take_byte_bits _ hok.collector_lt k hk8, List.cons_append, List.cons.injEq] at hp
    refine ⟨hp.1, ⟨hok.eof_zero, Nat.mod_lt _ (by decide), by simp only; omega⟩, ?_, rfl⟩
    unfold pending
    simp only [hk, Nat.add_sub_cancel]
    exact hp.2

/-- Reading `n` bits that the state still holds returns them in order. -/
theorem read_bits_take (n : Nat) (st : BitReader) (hok : ReaderOK st)
    (hn : n ≤ (pending st).length) :
    (read_bits n st).1 = (pending st).take n ∧ ReaderOK (read_bits n st).2 ∧
    pending (read_bits n st).2 = (pending st).drop n := by
  induction n generalizing st with
  | zero => exact ⟨rfl, hok, rfl⟩
  | succ n ih =>
    cases hp : pending st with
    | nil => rw [hp] at hn; simp at hn
    | cons b rest =>
      obtain ⟨h1, h2, h3, _⟩ := input_bit_cons st hok b rest hp
      have hlen : n ≤ (pending (input_bit st).2).length := by
        rw [h3]; rw [hp] at hn; simpa using hn
      obtain ⟨i1, i2, i3⟩ := ih (input_bit st).2 h2 hlen
      have he : ¬ (input_bit st).2.end_of_file ≠ 0 := by
        rw [h2.eof_zero]; simp
      simp only [read_bits, if_neg he]
      refine ⟨?_, i2, ?_⟩
      · rw [i1, h1, h3]; rfl
      · rw [i3, h3]; rfl

theorem write_bits_spec (bits : List Nat) (hbits : ∀ b ∈ bits, b < 2) :
    (write_bits bits).file_stream.flatMap byte_bits
        = bits ++ List.replicate ((8 - bits.length % 8) % 8) 0 ∧
    (write_bits bits).file_stream.length = (bits.length + 7) / 8 := by
  have h := writerInv_foldl bits hbits ⟨[], 0, 0⟩ [] writerInv_init
  rw [List.nil_append] at h
  have h2 := writerInv_flush _ _ h
  exact ⟨h2.1, h2.2.1⟩

/-! ## Leaves, paths and height -/

theorem leaf_paths_leaf (c w : Nat) : leaf_paths (node c w NULL NULL) = [(c, [])] := by
  simp [leaf_paths]

theorem leaf_paths_inner (c w : Nat) (l r : TreeNode) (h : (node c w l r).is_leaf = false) :
    leaf_paths (node c w l r)
      = (leaf_paths l).map (fun p => (p.1, '0' :: p.2)) ++
        (leaf_paths r).map (fun p => (p.1, '1' :: p.2)) := by
  simp [leaf_paths, h]

theorem height_leaf (c w : Nat) : height (node c w NULL NULL) = 0 := by
  simp [height]

theorem height_inner (c w : Nat) (l r : TreeNode) (h : (node c w l r).is_leaf = false) :
    height (node c w l r) = 1 + max (height l) (height r) := by
  simp [height, h]

theorem leaf_chars_leaf (c w : Nat) : leaf_chars (node c w NULL NULL) = [c] := by
  simp [leaf_chars, leaf_paths_leaf]

theorem leaf_chars_inner (c w : Nat) (l r : TreeNode) (h : (node c w l r).is_leaf = false) :
    leaf_chars (node c w l r) = leaf_chars l ++ leaf_chars r := by
  simp [leaf_chars, leaf_paths_inner c w l r h, List.map_map, Function.comp_def]

theorem Full.is_leaf_inner {l : TreeNode} (c w : Nat) (r : TreeNode) (hl : Full l) :
    (node c w l r).is_leaf = false :=
  is_leaf_false_of_left c w l r hl.ne_null

/-- A strict binary tree is lower than its number of leaves. -/
theorem Full.height_lt {t : TreeNode} (h : Full t) : height t + 1 ≤ (leaf_chars t).length := by
  induction h with
  | leaf c w => simp [height_leaf, leaf_chars_leaf]
  | inner c w l r hl hr ihl ihr =>
    rw [height_inner c w l r (hl.is_leaf_inner c w r),
      leaf_chars_inner c w l r (hl.is_leaf_inner c w r), List.length_append]
    omega

/-- One step down the path of a leaf from a node that is not a leaf. -/
theorem leaf_paths_step (c w : Nat) (l r : TreeNode) (h : (node c w l r).is_leaf = false)
    (b : Nat) (p : List Char) (hp : (b, p) ∈ leaf_paths (node c w l r)) :
    ∃ ch q, p = ch :: q ∧
      ((ch = '0' ∧ (b, q) ∈ leaf_paths l) ∨ (ch = '1' ∧ (b, q) ∈ leaf_paths r)) := by
  rw [leaf_paths_inner c w l r h, List.mem_append, List.mem_map, List.mem_map] at hp
  rcases hp with ⟨x, hx, hxe⟩ | ⟨x, hx, hxe⟩
  · rw [Prod.mk.injEq] at hxe
    refine ⟨'0', x.2, hxe.2.symm, Or.inl ⟨rfl, ?_⟩⟩
    rw [← hxe.1]; exact hx
  · rw [Prod.mk.injEq] at hxe
    refine ⟨'1', x.2, hxe.2.symm, Or.inr ⟨rfl, ?_⟩⟩
    rw [← hxe.1]; exact hx

/-- Walking the path of a leaf from the root ends on that leaf. -/
theorem walk_leaf_path (t : TreeNode) (b : Nat) (p : List Char)
    (hp : (b, p) ∈ leaf_paths t) :
    ∃ w, walk t (p.map char_bit) = node b w NULL NULL := by
  induction t generalizing p with
  | NULL => simp [leaf_paths] at hp
  | node c w l r ihl ihr =>
    by_cases hleaf : (node c w l r).is_leaf = true
    · obtain ⟨hl, hr⟩ := (is_leaf_iff c w l r).mp hleaf
      subst hl; subst hr
      rw [leaf_paths_leaf, List.mem_singleton, Prod.mk.injEq] at hp
      obtain ⟨rfl, rfl⟩ := hp
      exact ⟨w, rfl⟩
    · have hleaf' : (node c w l r).is_leaf = false := by simpa using hleaf
      obtain ⟨ch, q, rfl, h | h⟩ := leaf_paths_step c w l r hleaf' b p hp
      · obtain ⟨rfl, hq⟩ := h
        obtain ⟨w', hw⟩ := ihl q hq
        exact ⟨w', by simpa [walk, char_bit, child_left] using hw⟩
      · obtain ⟨rfl, hq⟩ := h
        obtain ⟨w', hw⟩ := ihr q hq
        exact ⟨w', by simpa [walk, char_bit, child_right] using hw⟩

/-- The characters on the path of a leaf are the characters 0 and 1. -/
theorem leaf_paths_chars (t : TreeNode) (b : Nat) (p : List Char)
    (hp : (b, p) ∈ leaf_paths t) : ∀ ch ∈ p, ch = '0' ∨ ch = '1' := by
  induction t generalizing p with
  | NULL => simp [leaf_paths] at hp
  | node c w l r ihl ihr =>
    by_cases hleaf : (node c w l r).is_leaf = true
    · obtain ⟨hl, hr⟩ := (is_leaf_iff c w l r).mp hleaf
      subst hl; subst hr
      rw [leaf_paths_leaf, List.mem_singleton, Prod.mk.injEq] at hp
      obtain ⟨rfl, rfl⟩ := hp
      simp
    · have hleaf' : (node c w l r).is_leaf = false := by simpa using hleaf
      obtain ⟨ch, q, rfl, h | h⟩ := leaf_paths_step c w l r hleaf' b p hp
      · obtain ⟨rfl, hq⟩ := h
        intro x hx
        rw [List.mem_cons] at hx
        rcases hx with rfl | hx
        · exact Or.inl rfl
        · exact ihl q hq x hx
      · obtain ⟨rfl, hq⟩ := h
        intro x hx
        rw [List.mem_cons] at hx
        rcases hx with rfl | hx
        · exact Or.inr rfl
        · exact ihr q hq x hx

/-- No path of a leaf is a prefix of the path of another leaf. -/
theorem leaf_paths_prefix_free (t : TreeNode) :
    (leaf_paths t).Pairwise (fun x y => ¬ x.2 <+: y.2 ∧ ¬ y.2 <+: x.2) := by
  induction t with
  | NULL => simp [leaf_paths]
  | node c w l r ihl ihr =>
    by_cases hleaf : (node c w l r).is_leaf = true
    · obtain ⟨hl, hr⟩ := (is_leaf_iff c w l r).mp hleaf
      subst hl; subst hr
      rw [leaf_paths_leaf]
      exact List.pairwise_singleton _ _
    · have hleaf' : (node c w l r).is_leaf = false := by simpa using hleaf
      rw [leaf_paths_inner c w l r hleaf', List.pairwise_append]
      refine ⟨?_, ?_, ?_⟩
      · rw [List.pairwise_map]
        refine ihl.imp ?_
        intro x y hxy
        simpa [List.cons_prefix_cons] using hxy
      · rw [List.pairwise_map]
        refine ihr.imp ?_
        intro x y hxy
        simpa [List.cons_prefix_cons] using hxy
      · intro x hx y hy
        rw [List.mem_map] at hx hy
        obtain ⟨x', _, rfl⟩ := hx
        obtain ⟨y', _, rfl⟩ := hy
        simp [List.cons_prefix_cons]

/-! ## The forest handled by `construct_huffman_tree` -/

theorem leaf_of_eq (freq : List Nat) (i : Nat) (hi : i < 256) :
    leaf_of freq i = node i (freq.getD i 0 % UINT_MOD) NULL NULL := by
  unfold leaf_of make_tree_node
  rw [Nat.mod_eq_of_lt hi]

theorem merge_nodes_full {a b : TreeNode} (ha : Full a) (hb : Full b) :
    Full (merge_nodes a b) := by
  rw [merge_nodes_eq]
  exact Full.inner _ _ a b ha hb

theorem leaf_chars_merge {a b : TreeNode} (ha : Full a) :
    leaf_chars (merge_nodes a b) = leaf_chars a ++ leaf_chars b := by
  rw [merge_nodes_eq]
  exact leaf_chars_inner _ _ a b (ha.is_leaf_inner _ _ b)

theorem forestInv_leaf_list (freq : List Nat) : ForestInv freq (leaf_list freq).1 := by
  constructor
  · intro t ht
    rw [(leaf_list_perm freq).mem_iff, List.mem_map] at ht
    obtain ⟨i, hi, rfl⟩ := ht
    rw [leaf_of_eq freq i (mem_present.mp hi).1]
    exact Full.leaf _ _
  · refine ((leaf_list_perm freq).flatMap_right leaf_chars).trans ?_
    rw [List.flatMap_map]
    have : ∀ l : List Nat, (∀ i ∈ l, i < 256) →
        l.flatMap (fun i => leaf_chars (leaf_of freq i)) = l := by
      intro l
      induction l with
      | nil => intro _; rfl
      | cons i rest ih =>
        intro h
        rw [List.flatMap_cons, ih (fun j hj => h j (by simp [hj])),
          leaf_of_eq freq i (h i (by simp)), leaf_chars_leaf]
        rfl
    rw [this _ (fun i hi => (mem_present.mp hi).1)]

theorem forestInv_step (freq : List Nat) (a b : TreeNode) (rest : List TreeNode)
    (h : ForestInv freq (a :: b :: rest)) :
    ForestInv freq (place_in_order rest (merge_nodes a b)) := by
  obtain ⟨h1, h2⟩ := h
  have ha : Full a := h1 a (by simp)
  have hb : Full b := h1 b (by simp)
  constructor
  · intro t ht
    rw [mem_place_in_order] at ht
    rcases ht with rfl | ht
    · exact merge_nodes_full ha hb
    · exact h1 t (by simp [ht])
  · refine ((place_in_order_perm rest (merge_nodes a b)).flatMap_right leaf_chars).trans ?_
    rw [List.flatMap_cons, leaf_chars_merge ha]
    simpa [List.flatMap_cons, List.append_assoc] using h2

theorem forestInv_merge_loop (freq : List Nat) (fuel : Nat) :
    ForestInv freq (merge_loop fuel (leaf_list freq).1) :=
  merge_loop_invariant (ForestInv freq) (forestInv_step freq) fuel _ (forestInv_leaf_list freq)

/-- The three shapes of the result of `construct_huffman_tree`. -/
theorem construct_cases (freq : List Nat) :
    (present freq = [] ∧ construct_huffman_tree freq = NULL) ∨
    (∃ b, present freq = [b] ∧
      construct_huffman_tree freq
        = node 0 (freq.getD b 0 % UINT_MOD) (node b (freq.getD b 0 % UINT_MOD) NULL NULL) NULL) ∨
    (2 ≤ (present freq).length ∧ Full (construct_huffman_tree freq) ∧
      (construct_huffman_tree freq).is_leaf = false ∧
      (leaf_chars (construct_huffman_tree freq)).Perm (present freq) ∧
      merge_loop (leaf_list freq).1.length (leaf_list freq).1 = [construct_huffman_tree freq]) := by
  unfold construct_huffman_tree
  simp only [leaf_list_count]
  by_cases h0 : (present freq).length = 0
  · left
    rw [if_pos h0]
    exact ⟨List.length_eq_zero.mp h0, rfl⟩
  · right
    rw [if_neg h0]
    by_cases h1 : (present freq).length = 1
    · left
      rw [if_pos h1]
      obtain ⟨b, hb⟩ := List.length_eq_one.mp h1
      refine ⟨b, hb, ?_⟩
      have hperm := leaf_list_perm freq
      rw [hb, List.map_singleton, List.perm_singleton] at hperm
      have hb256 : b < 256 := (mem_present.mp (by rw [hb]; simp)).1
      rw [hperm, leaf_of_eq freq b hb256]
      simp [head_node, make_tree_node, set_children, TreeNode.weight]
    · right
      rw [if_neg h1]
      have h2 : 2 ≤ (present freq).length := by omega
      have hl : (leaf_list freq).1 ≠ [] := by
        intro hnil
        have := leaf_list_length freq
        rw [hnil] at this
        exact h0 this.symm
      have hlen := merge_loop_length (leaf_list freq).1.length (leaf_list freq).1 hl (by omega)
      obtain ⟨T, hT⟩ := List.length_eq_one.mp hlen
      rw [hT]
      have hinv := forestInv_merge_loop freq (leaf_list freq).1.length
      rw [hT] at hinv
      obtain ⟨i1, i2⟩ := hinv
      have hfull : Full T := i1 T (by simp)
      have hperm : (leaf_chars T).Perm (present freq) := by
        simpa [List.flatMap_cons] using i2
      refine ⟨h2, hfull, ?_, hperm, rfl⟩
      cases hfull with
      | leaf c w =>
        rw [leaf_chars_leaf] at hperm
        have := hperm.length_eq
        simp at this
        omega
      | inner c w l r hl' hr' => exact hl'.is_leaf_inner c w r

/-! ## The code table -/

theorem record_paths_nil (pre : List Char) (tab : List EncodingRecord) :
    record_paths pre tab [] = tab := rfl

theorem record_paths_append (pre : List Char) (tab : List EncodingRecord)
    (ps qs : List (Nat × List Char)) :
    record_paths pre tab (ps ++ qs) = record_paths pre (record_paths pre tab ps) qs := by
  simp [record_paths, List.foldl_append]

theorem record_paths_map (pre : List Char) (ch : Char) (tab : List EncodingRecord)
    (ps : List (Nat × List Char)) :
    record_paths pre tab (ps.map (fun p => (p.1, ch :: p.2)))
      = record_paths (pre ++ [ch]) tab ps := by
  simp [record_paths, List.foldl_map]

theorem record_paths_length (pre : List Char) (tab : List EncodingRecord)
    (ps : List (Nat × List Char)) : (record_paths pre tab ps).length = tab.length := by
  induction ps generalizing tab with
  | nil => rfl
  | cons p ps ih =>
    simp only [record_paths, List.foldl_cons] at ih ⊢
    rw [ih]; simp

theorem take_set_succ (buf : List Char) (d : Nat) (x : Char) (h : d < buf.length) :
    (buf.set d x).take (d + 1) = buf.take d ++ [x] := by
  induction buf generalizing d with
  | nil => simp at h
  | cons y ys ih =>
    cases d with
    | zero => simp
    | succ d =>
      simp only [List.set_cons_succ, List.take_succ_cons, List.cons_append]
      rw [ih d (by simpa using h)]

theorem strncpy_eq (buf pre : List Char) (h : buf.take pre.length = pre)
    (hpre : ∀ ch ∈ pre, ch = '0' ∨ ch = '1') : strncpy buf pre.length = pre := by
  unfold strncpy
  rw [h, List.takeWhile_eq_self_iff]
  intro ch hch
  rcases hpre ch hch with rfl | rfl <;> decide

/-- The effect of `create_encodings` below a node whose path `pre` is in the
buffer: every leaf gets its path recorded, the path of the node is still in
the buffer on return. -/
theorem create_encodings_spec (t : TreeNode) :
    ∀ (pre buf : List Char) (tab : List EncodingRecord) (d : Nat), d = pre.length →
      buf.take d = pre → d + height t ≤ 256 → 256 ≤ buf.length →
      (∀ ch ∈ pre, ch = '0' ∨ ch = '1') →
      (create_encodings t (buf, tab) d).2 = record_paths pre tab (leaf_paths t) ∧
      (create_encodings t (buf, tab) d).1.take d = pre ∧
      (create_encodings t (buf, tab) d).1.length = buf.length := by
  induction t with
  | NULL =>
    intro pre buf tab d _ htake _ _ _
    exact ⟨rfl, htake, rfl⟩
  | node c w l r ihl ihr =>
    intro pre buf tab d hd htake hh hlen hpre
    by_cases hleaf : (node c w l r).is_leaf = true
    · simp only [create_encodings, hleaf, if_true]
      obtain ⟨hl, hr⟩ := (is_leaf_iff c w l r).mp hleaf
      subst hl; subst hr
      refine ⟨?_, htake, trivial⟩
      rw [leaf_paths_leaf]
      subst hd
      rw [strncpy_eq buf pre htake hpre]
      simp [record_paths]
    · have hleaf' : (node c w l r).is_leaf = false := by simpa using hleaf
      rw [height_inner c w l r hleaf'] at hh
      have hd256 : d < 256 := by omega
      simp only [create_encodings, hleaf', Bool.false_eq_true, if_false, hd256, if_true]
      have hpre0 : ∀ ch ∈ pre ++ ['0'], ch = '0' ∨ ch = '1' := by
        intro ch hch
        rw [List.mem_append, List.mem_singleton] at hch
        rcases hch with h | h
        · exact hpre ch h
        · exact Or.inl h
      have hpre1 : ∀ ch ∈ pre ++ ['1'], ch = '0' ∨ ch = '1' := by
        intro ch hch
        rw [List.mem_append, List.mem_singleton] at hch
        rcases hch with h | h
        · exact hpre ch h
        · exact Or.inr h
      obtain ⟨l1, l2, l3⟩ := ihl (pre ++ ['0']) (buf.set d '0') tab (d + 1)
        (by rw [List.length_append, hd]; rfl)
        (by rw [take_set_succ buf d '0' (by omega), htake])
        (by omega) (by rw [List.length_set]; exact hlen) hpre0
      have hlen1 : (create_encodings l (buf.set d '0', tab) (d + 1)).1.length = buf.length := by
        rw [l3, List.length_set]
      have htake1 : (create_encodings l (buf.set d '0', tab) (d + 1)).1.take d = pre := by
        have := congrArg (List.take d) l2
        rw [List.take_take, Nat.min_eq_left (Nat.le_succ d)] at this
        rw [this, hd, List.take_left']
        rfl
      obtain ⟨r1, r2, r3⟩ := ihr (pre ++ ['1'])
        ((create_encodings l (buf.set d '0', tab) (d + 1)).1.set d '1')
        (create_encodings l (buf.set d '0', tab) (d + 1)).2 (d + 1)
        (by rw [List.length_append, hd]; rfl)
        (by rw [take_set_succ _ d '1' (by omega), htake1])
        (by omega) (by rw [List.length_set, hlen1]; exact hlen) hpre1
      refine ⟨?_, ?_, ?_⟩
      · rw [r1, l1, leaf_paths_inner c w l r hleaf', record_paths_append, record_paths_map,
          record_paths_map]
      · have := congrArg (List.take d) r2
        rw [List.take_take, Nat.min_eq_left (Nat.le_succ d)] at this
        rw [this, hd, List.take_left']
        rfl
      · rw [r3, List.length_set, hlen1]

/-- A byte value that is on no recorded leaf keeps its table entry. -/
theorem record_paths_getD_not_mem (pre : List Char) (ps : List (Nat × List Char))
    (tab : List EncodingRecord) (b : Nat) (hb : b ∉ ps.map Prod.fst) :
    (record_paths pre tab ps).getD b EncodingRecord.zero = tab.getD b EncodingRecord.zero := by
  induction ps generalizing tab with
  | nil => rfl
  | cons p ps ih =>
    rw [List.map_cons, List.mem_cons, not_or] at hb
    have hstep : record_paths pre tab (p :: ps)
        = record_paths pre (tab.set p.1 ⟨p.1, some (pre ++ p.2), (pre ++ p.2).length⟩) ps := rfl
    rw [hstep, ih _ hb.2, List.getD_eq_getElem?_getD, List.getD_eq_getElem?_getD,
      List.getElem?_set_ne (fun h => hb.1 h.symm)]

/-- The table entry of a byte value that is on exactly one recorded leaf. -/
theorem record_paths_getD_mem (pre : List Char) (ps : List (Nat × List Char))
    (tab : List EncodingRecord) (b : Nat) (p : List Char) (hmem : (b, p) ∈ ps)
    (hnd : (ps.map Prod.fst).Nodup) (hb : b < tab.length) :
    (record_paths pre tab ps).getD b EncodingRecord.zero
      = ⟨b, some (pre ++ p), (pre ++ p).length⟩ := by
  induction ps generalizing tab with
  | nil => simp at hmem
  | cons q qs ih =>
    have hstep : record_paths pre tab (q :: qs)
        = record_paths pre (tab.set q.1 ⟨q.1, some (pre ++ q.2), (pre ++ q.2).length⟩) qs := rfl
    rw [List.map_cons, List.nodup_cons] at hnd
    rw [hstep]
    rw [List.mem_cons] at hmem
    rcases hmem with h | h
    · subst h
      rw [record_paths_getD_not_mem pre qs _ b hnd.1, List.getD_eq_getElem?_getD,
        List.getElem?_set_self hb]
      rfl
    · exact ih _ h hnd.2 (by rw [List.length_set]; exact hb)

/-! ## The tree and the table of a histogram -/

/-- The leaves of the constructed tree carry the byte values with a non-zero
count, each once. -/
theorem leaf_chars_construct (freq : List Nat) :
    (leaf_chars (construct_huffman_tree freq)).Perm (present freq) := by
  rcases construct_cases freq with ⟨h1, h2⟩ | ⟨b, h1, h2⟩ | ⟨_, _, _, h, _⟩
  · rw [h1, h2]; exact List.Perm.refl _
  · rw [h1, h2, leaf_chars_inner _ _ _ _ (is_leaf_false_of_left _ _ _ _ (by simp)),
      leaf_chars_leaf]
    exact List.Perm.refl _
  · exact h

theorem height_construct (freq : List Nat) : height (construct_huffman_tree freq) ≤ 255 := by
  rcases construct_cases freq with ⟨_, h2⟩ | ⟨b, _, h2⟩ | ⟨_, hfull, _, h, _⟩
  · rw [h2]; simp [height]
  · rw [h2, height_inner _ _ _ _ (is_leaf_false_of_left _ _ _ _ (by simp)), height_leaf]
    simp [height]
  · have h1 := hfull.height_lt
    have h2 := h.length_eq
    have h3 := present_length_le freq
    omega

theorem code_table_eq (buf : List Char) (freq : List Nat) (hbuf : buf.length = 256) :
    code_table buf freq
      = record_paths [] zero_table (leaf_paths (construct_huffman_tree freq)) := by
  unfold code_table
  have hh := height_construct freq
  exact (create_encodings_spec (construct_huffman_tree freq) [] buf zero_table 0 rfl
    (List.take_zero buf) (by omega) (by omega) (by simp)).1

theorem zero_table_getD (b : Nat) : zero_table.getD b EncodingRecord.zero = EncodingRecord.zero := by
  unfold zero_table
  rw [List.getD_eq_getElem?_getD, List.getElem?_replicate]
  split <;> rfl

/-- The table entry of a byte value: its leaf path when the count is
non-zero, the zeroed record otherwise. -/
theorem table_entry_spec (buf : List Char) (freq : List Nat) (hbuf : buf.length = 256)
    (b : Nat) (hb : b < 256) :
    (0 < freq.getD b 0 → ∃ p, (b, p) ∈ leaf_paths (construct_huffman_tree freq) ∧
      table_entry (code_table buf freq) b = ⟨b, some p, p.length⟩) ∧
    (freq.getD b 0 = 0 → table_entry (code_table buf freq) b = EncodingRecord.zero) := by
  have hperm := leaf_chars_construct freq
  unfold table_entry
  rw [code_table_eq buf freq hbuf]
  constructor
  · intro hpos
    have hmem : b ∈ leaf_chars (construct_huffman_tree freq) :=
      hperm.mem_iff.mpr (mem_present.mpr ⟨hb, hpos⟩)
    unfold leaf_chars at hmem
    rw [List.mem_map] at hmem
    obtain ⟨⟨b', p⟩, hp, hbp⟩ := hmem
    simp only at hbp
    subst hbp
    refine ⟨p, hp, ?_⟩
    have hnd : ((leaf_paths (construct_huffman_tree freq)).map Prod.fst).Nodup :=
      hperm.nodup_iff.mpr (present_nodup freq)
    have := record_paths_getD_mem [] _ zero_table b' p hp hnd
      (by unfold zero_table; rw [List.length_replicate]; exact hb)
    rw [this]
    simp
  · intro hz
    have hnot : b ∉ (leaf_paths (construct_huffman_tree freq)).map Prod.fst := by
      intro hmem
      have := (mem_present.mp (hperm.mem_iff.mp hmem)).2
      omega
    rw [record_paths_getD_not_mem [] _ zero_table b hnot, zero_table_getD]

/-! ## The output of `perform_compression` -/

/-- The writer state with a file that already starts with `file`. -/
theorem output_bit_prepend (file : List Nat) (st : BitWriter) (b : Nat) :
    output_bit ⟨file ++ st.file_stream, st.bit_collector, st.bit_counter⟩ b
      = ⟨file ++ (output_bit st b).file_stream, (output_bit st b).bit_collector,
          (output_bit st b).bit_counter⟩ := by
  unfold output_bit
  simp only
  split
  · simp [fputc]
  · rfl

theorem foldl_output_bit_prepend (file : List Nat) (bits : List Nat) (st : BitWriter) :
    bits.foldl output_bit ⟨file ++ st.file_stream, st.bit_collector, st.bit_counter⟩
      = ⟨file ++ (bits.foldl output_bit st).file_stream,
          (bits.foldl output_bit st).bit_collector, (bits.foldl output_bit st).bit_counter⟩ := by
  induction bits generalizing st with
  | nil => rfl
  | cons b bs ih =>
    rw [List.foldl_cons, output_bit_prepend, ih (output_bit st b)]
    rfl

theorem empty_bit_buffer_prepend (file : List Nat) (st : BitWriter) :
    (empty_bit_buffer ⟨file ++ st.file_stream, st.bit_collector, st.bit_counter⟩).file_stream
      = file ++ (empty_bit_buffer st).file_stream := by
  unfold empty_bit_buffer
  simp only
  split
  · simp [fputc]
  · rfl

theorem encode_code_eq (binary_code : List Char) (st : BitWriter) :
    encode_code binary_code st = (binary_code.map char_bit).foldl output_bit st := by
  unfold encode_code
  rw [List.foldl_map]
  rfl

theorem encode_step_eq (tab : List EncodingRecord) (st : BitWriter) (x : Nat) :
    encode_step tab st x = (entry_bits (table_entry tab (x % 256))).foldl output_bit st := by
  unfold encode_step entry_bits table_entry
  cases (tab.getD (x % 256) EncodingRecord.zero).binary_sequence with
  | none => rfl
  | some code => exact encode_code_eq code st

/-- The bits `perform_compression` writes for a source. -/
theorem foldl_encode_step (tab : List EncodingRecord) (S : List Nat) (st : BitWriter) :
    S.foldl (encode_step tab) st
      = (S.flatMap (fun x => entry_bits (table_entry tab (x % 256)))).foldl output_bit st := by
  induction S generalizing st with
  | nil => rfl
  | cons x xs ih =>
    rw [List.foldl_cons, ih, encode_step_eq, List.flatMap_cons, List.foldl_append]

/-- The result of `perform_compression` on a source whose histogram is not
all zero: the header, then the flushed bit stream of the codes. -/
theorem perform_compression_eq (buf : List Char) (S : List Nat)
    (hT : construct_huffman_tree (compute_frequencies (fopen_rb S) []).2 ≠ NULL) :
    perform_compression buf S = ⟨CompressionOutcome.completed,
      (compute_frequencies (fopen_rb S) []).2.flatMap uint_bytes ++
        (write_bits (S.flatMap (fun x => entry_bits
          (table_entry (code_table buf (compute_frequencies (fopen_rb S) []).2)
            (x % 256))))).file_stream⟩ := by
  have hnull : (construct_huffman_tree (compute_frequencies (fopen_rb S) []).2).is_null
      = false := by
    cases h : construct_huffman_tree (compute_frequencies (fopen_rb S) []).2 with
    | NULL => exact absurd h hT
    | node _ _ _ _ => rfl
  have hunread : (compute_frequencies (fopen_rb S) []).1.unread = S := rfl
  have htake : (compute_frequencies (fopen_rb S) []).2.take 256
      = (compute_frequencies (fopen_rb S) []).2 := by
    apply List.take_of_length_le
    rw [compute_frequencies_length]
  unfold perform_compression
  simp only [hnull, Bool.false_eq_true, if_false, hunread, fwrite_uint, htake,
    List.nil_append, foldl_encode_step]
  congr 1
  have h1 := foldl_output_bit_prepend ((compute_frequencies (fopen_rb S) []).2.flatMap uint_bytes)
    (S.flatMap (fun x => entry_bits
      (table_entry (code_table buf (compute_frequencies (fopen_rb S) []).2) (x % 256))))
    ⟨[], 0, 0⟩
  simp only [List.append_nil] at h1
  unfold write_bits code_table zero_table at *
  rw [h1]
  exact empty_bit_buffer_prepend _ _

/-! ## The header -/

theorem read_items_uint_bytes (l p : List Nat) (hl : ∀ x ∈ l, x < UINT_MOD) :
    read_items l.length (l.flatMap uint_bytes ++ p) = l := by
  induction l with
  | nil => cases p <;> rfl
  | cons x xs ih =>
    have hx : x < 4294967296 := hl x (by simp)
    rw [List.flatMap_cons, List.length_cons]
    simp only [uint_bytes, List.cons_append, List.nil_append, read_items, Nat.mod_mod,
      List.append_eq]
    rw [ih (fun y hy => hl y (by simp [hy]))]
    congr 1
    omega

theorem uint_bytes_flatMap_length (l : List Nat) : (l.flatMap uint_bytes).length = 4 * l.length := by
  induction l with
  | nil => rfl
  | cons x xs ih =>
    rw [List.flatMap_cons, List.length_append, ih]
    simp [uint_bytes]; omega

/-! ## The symbol total -/

theorem total_step_eq (acc : Int) (f : Nat) (h0 : 0 ≤ acc) (h : acc + f < 2147483648) :
    total_step acc f = acc + f := by
  unfold total_step int_of_uint uint_of_int UINT_MOD
  have h1 : (acc % 4294967296).toNat = acc.toNat := by
    rw [Int.emod_eq_of_lt h0 (by omega)]
  rw [h1]
  have h2 : (acc.toNat + f) % 4294967296 = acc.toNat + f := by
    apply Nat.mod_eq_of_lt; omega
  rw [h2, h2, if_pos (by omega)]
  omega

theorem foldl_total_step (l : List Nat) (acc : Int) (h0 : 0 ≤ acc)
    (h : acc + (l.sum : Nat) < 2147483648) :
    l.foldl total_step acc = acc + (l.sum : Nat) := by
  induction l generalizing acc with
  | nil => simp
  | cons x xs ih =>
    rw [List.sum_cons, Nat.cast_add] at h
    rw [List.foldl_cons, total_step_eq acc x h0 (by omega),
      ih (acc + x) (by omega) (by omega), List.sum_cons, Nat.cast_add]
    omega

/-! ## The decoding loop -/

theorem decode_loop_exit (T : TreeNode) (total : Int) (fuel : Nat) (st : DecodeState)
    (h : st.reader.end_of_file ≠ 0) : decode_loop T total fuel st = LoopResult.exited st := by
  cases fuel <;> simp [decode_loop, h]

/-- One execution of the body of the decoding loop on a bit the reader holds. -/
theorem decode_loop_bit (T : TreeNode) (total : Int) (fuel : Nat) (st : DecodeState)
    (hok : ReaderOK st.reader) (b : Nat) (rest : List Nat)
    (hp : pending st.reader = b :: rest) (next : TreeNode)
    (hnext : next = if b = 0 then st.current_position.child_left
      else st.current_position.child_right) :
    decode_loop T total (fuel + 1) st =
      if next.is_null then
        LoopResult.null_dereference
          ⟨(input_bit st.reader).2, next, st.decoded_symbols, st.output_stream⟩
      else if next.is_leaf then
        if st.decoded_symbols + 1 ≥ total then
          LoopResult.exited ⟨(input_bit st.reader).2, T, st.decoded_symbols + 1,
            fputc next.character st.output_stream⟩
        else
          decode_loop T total fuel ⟨(input_bit st.reader).2, T, st.decoded_symbols + 1,
            fputc next.character st.output_stream⟩
      else
        decode_loop T total fuel
          ⟨(input_bit st.reader).2, next, st.decoded_symbols, st.output_stream⟩ := by
  obtain ⟨h1, h2, _, _⟩ := input_bit_cons st.reader hok b rest hp
  have he : ¬ st.reader.end_of_file ≠ 0 := by rw [hok.eof_zero]; simp
  have he2 : ¬ (input_bit st.reader).2.end_of_file ≠ 0 := by rw [h2.eof_zero]; simp
  rw [decode_loop]
  simp only [if_neg he, if_neg he2, h1, ← hnext]

/-- Decoding one symbol: from a cursor on a node that is not a leaf, the bits
of the path of a leaf below it lead to the emission of its byte value. -/
theorem decode_path (T : TreeNode) (total : Int) (c : Nat) (p : List Char) :
    ∀ (t : TreeNode) (st : DecodeState) (rest : List Nat) (k : Nat),
      t.is_leaf = false → (c, p) ∈ leaf_paths t → ReaderOK st.reader →
      st.current_position = t → pending st.reader = p.map char_bit ++ rest →
      ReaderOK (read_bits p.length st.reader).2 ∧
      pending (read_bits p.length st.reader).2 = rest ∧
      decode_loop T total (p.length + k) st =
        if st.decoded_symbols + 1 ≥ total then
          LoopResult.exited ⟨(read_bits p.length st.reader).2, T, st.decoded_symbols + 1,
            fputc c st.output_stream⟩
        else
          decode_loop T total k ⟨(read_bits p.length st.reader).2, T, st.decoded_symbols + 1,
            fputc c st.output_stream⟩ := by
  induction p with
  | nil =>
    intro t st rest k hleaf hp _ _ _
    cases t with
    | NULL => simp [leaf_paths] at hp
    | node c' w l r =>
      obtain ⟨ch, q, hq, _⟩ := leaf_paths_step c' w l r hleaf c [] hp
      simp at hq
  | cons ch q ih =>
    intro t st rest k hleaf hp hok hpos hpend
    cases t with
    | NULL => simp [leaf_paths] at hp
    | node c' w l r =>
      obtain ⟨ch', q', hq, hcase⟩ := leaf_paths_step c' w l r hleaf c (ch :: q) hp
      rw [List.cons.injEq] at hq
      obtain ⟨rfl, rfl⟩ := hq
      rw [List.map_cons, List.cons_append] at hpend
      obtain ⟨h1, h2, h3, _⟩ := input_bit_cons st.reader hok _ _ hpend
      have he2 : ¬ (input_bit st.reader).2.end_of_file ≠ 0 := by rw [h2.eof_zero]; simp
      have hread : read_bits (q.length + 1) st.reader
          = ((input_bit st.reader).1 :: (read_bits q.length (input_bit st.reader).2).1,
            (read_bits q.length (input_bit st.reader).2).2) := by
        simp only [read_bits, if_neg he2]
      -- the child the cursor moves to
      obtain ⟨next, hnext, hmem⟩ : ∃ next,
          next = (if char_bit ch = 0 then st.current_position.child_left
            else st.current_position.child_right) ∧ (c, q) ∈ leaf_paths next := by
        rcases hcase with ⟨rfl, hm⟩ | ⟨rfl, hm⟩
        · exact ⟨l, by rw [hpos]; rfl, hm⟩
        · exact ⟨r, by rw [hpos]; rfl, hm⟩
      have hnn : next.is_null = false := by
        cases next with
        | NULL => simp [leaf_paths] at hmem
        | node _ _ _ _ => rfl
      rw [List.length_cons, Nat.add_right_comm,
        decode_loop_bit T total (q.length + k) st hok _ _ hpend next hnext, hnn, hread]
      simp only [Bool.false_eq_true, if_false]
      by_cases hnl : next.is_leaf = true
      · -- the child is the leaf: the symbol is emitted
        cases next with
        | NULL => simp [is_leaf] at hnl
        | node c2 w2 l2 r2 =>
          obtain ⟨hl2, hr2⟩ := (is_leaf_iff c2 w2 l2 r2).mp hnl
          subst hl2; subst hr2
          rw [leaf_paths_leaf, List.mem_singleton, Prod.mk.injEq] at hmem
          obtain ⟨rfl, rfl⟩ := hmem
          simp only [read_bits, List.length_nil, Nat.zero_add, is_leaf_mk_leaf, if_true,
            TreeNode.character]
          exact ⟨h2, h3, trivial⟩
      · have hnl' : next.is_leaf = false := by simpa using hnl
        simp only [hnl', Bool.false_eq_true, if_false]
        have := ih next ⟨(input_bit st.reader).2, next, st.decoded_symbols, st.output_stream⟩
          rest k hnl' hmem h2 rfl h3
        exact this

/-- Decoding a run of symbols up to the symbol total: the loop leaves through
its `break` with exactly these symbols appended to the output. -/
theorem decode_symbols (T : TreeNode) (total : Int) (codes : Nat → List Char) :
    ∀ (syms : List Nat) (st : DecodeState) (pad : List Nat) (k : Nat), syms ≠ [] →
      (∀ x ∈ syms, (x, codes x) ∈ leaf_paths T ∧ x < 256) → T.is_leaf = false →
      ReaderOK st.reader → st.current_position = T →
      pending st.reader = syms.flatMap (fun x => (codes x).map char_bit) ++ pad →
      st.decoded_symbols + syms.length = total →
      ∃ rd, decode_loop T total
          ((syms.flatMap (fun x => (codes x).map char_bit)).length + k) st
        = LoopResult.exited ⟨rd, T, total, st.output_stream ++ syms⟩ := by
  intro syms
  induction syms with
  | nil => intro st pad k h; exact absurd rfl h
  | cons x xs ih =>
    intro st pad k _ hcodes hT hok hpos hpend htotal
    obtain ⟨hx, hx256⟩ := hcodes x (by simp)
    rw [List.flatMap_cons, List.append_assoc] at hpend
    obtain ⟨d1, d2, d3⟩ := decode_path T total x (codes x) T st _
      ((xs.flatMap (fun x => (codes x).map char_bit)).length + k) hT hx hok hpos hpend
    have hfuel : ((x :: xs).flatMap (fun x => (codes x).map char_bit)).length + k
        = (codes x).length + ((xs.flatMap (fun x => (codes x).map char_bit)).length + k) := by
      rw [List.flatMap_cons, List.length_append, List.length_map]; omega
    have hput : fputc x st.output_stream = st.output_stream ++ [x] := by
      unfold fputc; rw [Nat.mod_eq_of_lt hx256]
    rw [hfuel, d3, hput]
    rw [List.length_cons] at htotal
    by_cases hxs : xs = []
    · subst hxs
      have hge : st.decoded_symbols + 1 ≥ total := by
        simp at htotal; omega
      rw [if_pos hge]
      have hdec : st.decoded_symbols + 1 = total := by
        simp at htotal; omega
      exact ⟨(read_bits (codes x).length st.reader).2, by rw [hdec]⟩
    · have hpos' : 0 < xs.length := List.length_pos.mpr hxs
      have hge : ¬ st.decoded_symbols + 1 ≥ total := by
        push_cast at htotal; omega
      rw [if_neg hge]
      obtain ⟨rd, hrd⟩ := ih
        ⟨(read_bits (codes x).length st.reader).2, T, st.decoded_symbols + 1,
          st.output_stream ++ [x]⟩ pad k hxs
        (fun y hy => hcodes y (by simp [hy])) hT d1 rfl d2
        (by push_cast at htotal ⊢; omega)
      refine ⟨rd, ?_⟩
      rw [hrd]
      simp

/-- The function `perform_decompression` with its stream reads spelled out. -/
theorem perform_decompression_eq (compressed : List Nat) :
    perform_decompression compressed =
      if (read_items 256 compressed).length ≠ 256 then
        ⟨DecompressionOutcome.invalid_format, [], 0, 0⟩
      else if (construct_huffman_tree (read_items 256 compressed)).is_null = true then
        ⟨DecompressionOutcome.tree_failure, [], 0, 0⟩
      else
        match decode_loop (construct_huffman_tree (read_items 256 compressed))
            (((List.range 256).map (fun i => (read_items 256 compressed).getD i 0)).foldl
              total_step 0)
            (8 * (compressed.drop (min 1024 compressed.length)).length + 1)
            ⟨⟨⟨compressed, min 1024 compressed.length⟩, 0, 0, 0⟩,
              construct_huffman_tree (read_items 256 compressed), 0, []⟩ with
        | LoopResult.exited st =>
          ⟨DecompressionOutcome.completed, st.output_stream, st.decoded_symbols,
            ((List.range 256).map (fun i => (read_items 256 compressed).getD i 0)).foldl
              total_step 0⟩
        | LoopResult.null_dereference st =>
          ⟨DecompressionOutcome.null_dereference, st.output_stream, st.decoded_symbols,
            ((List.range 256).map (fun i => (read_items 256 compressed).getD i 0)).foldl
              total_step 0⟩
        | LoopResult.fuel_exhausted =>
          ⟨DecompressionOutcome.fuel_exhausted, [], 0,
            ((List.range 256).map (fun i => (read_items 256 compressed).getD i 0)).foldl
              total_step 0⟩ := by
  simp only [perform_decompression, fread_uint, fopen_rb, InStream.unread, List.drop_zero,
    Nat.zero_add, Nat.reduceMul] <;> rfl


theorem char_bit_lt (ch : Char) : char_bit ch < 2 := by
  unfold char_bit; split <;> decide

theorem entry_bits_lt (e : EncodingRecord) : ∀ b ∈ entry_bits e, b < 2 := by
  intro b hb
  unfold entry_bits at hb
  cases h : e.binary_sequence with
  | none => rw [h] at hb; simp at hb
  | some code =>
    rw [h] at hb
    simp only [List.mem_map] at hb
    obtain ⟨ch, _, rfl⟩ := hb
    exact char_bit_lt ch

/-- The root `construct_huffman_tree` returns is never a leaf. -/
theorem construct_not_leaf (freq : List Nat) :
    (construct_huffman_tree freq).is_leaf = false := by
  rcases construct_cases freq with ⟨_, h2⟩ | ⟨b, _, h2⟩ | ⟨_, _, h, _, _⟩
  · rw [h2]; rfl
  · rw [h2]; rfl
  · exact h

/-- The round trip on a source with at least one byte and fewer than `2 ^ 31`
bytes. -/
theorem round_trip (buf : List Char) (S : List Nat) (hbuf : buf.length = 256)
    (hbytes : ∀ x ∈ S, x < 256) (hne : S ≠ []) (hlen : S.length < 2147483648) :
    (perform_compression buf S).outcome = CompressionOutcome.completed ∧
    perform_decompression (perform_compression buf S).output_file
      = ⟨DecompressionOutcome.completed, S, S.length, S.length⟩ := by
  have hN : S.length < UINT_MOD := by unfold UINT_MOD; omega
  -- the histogram
  have hflen := compute_frequencies_length S []
  have hcount : ∀ b, b < 256 → (compute_frequencies (fopen_rb S) []).2.getD b 0 = S.count b :=
    fun b hb => compute_frequencies_count S [] hbytes b hb (count_lt_of_length_lt S _ b hN)
  have hsum := compute_frequencies_sum S [] hbytes
    (fun b _ => count_lt_of_length_lt S _ b hN)
  generalize hfreq : (compute_frequencies (fopen_rb S) []).2 = freq at hflen hcount hsum
  have hpos : ∀ x ∈ S, 0 < freq.getD x 0 := by
    intro x hx
    rw [hcount x (hbytes x hx)]
    exact List.count_pos_iff.mpr hx
  have hflt : ∀ f ∈ freq, f < UINT_MOD := by
    intro f hf
    have := List.single_le_sum (fun _ _ => Nat.zero_le _) f hf
    omega
  -- the tree
  have hT : construct_huffman_tree freq ≠ NULL := by
    rw [Ne, construct_eq_null_iff]
    intro h
    obtain ⟨x, hx⟩ := List.exists_mem_of_ne_nil S hne
    have := hpos x hx
    have := h x (hbytes x hx)
    omega
  have hnull : (construct_huffman_tree freq).is_null = false := by
    cases h : construct_huffman_tree freq with
    | NULL => exact absurd h hT
    | node _ _ _ _ => rfl
  -- the codes
  obtain ⟨codes, hcodes⟩ : ∃ codes : Nat → List Char, ∀ x ∈ S,
      (x, codes x) ∈ leaf_paths (construct_huffman_tree freq) ∧
      entry_bits (table_entry (code_table buf freq) (x % 256)) = (codes x).map char_bit := by
    refine ⟨fun x => match (table_entry (code_table buf freq) x).binary_sequence with
      | some code => code
      | none => [], ?_⟩
    intro x hx
    obtain ⟨p, hp, he⟩ := (table_entry_spec buf freq hbuf x (hbytes x hx)).1 (hpos x hx)
    rw [Nat.mod_eq_of_lt (hbytes x hx)]
    simp only [he]
    exact ⟨hp, rfl⟩
  have hbits : S.flatMap (fun x => entry_bits (table_entry (code_table buf freq) (x % 256)))
      = S.flatMap (fun x => (codes x).map char_bit) := by
    apply List.flatMap_congr
    intro x hx
    exact (hcodes x hx).2
  -- the compressed file
  have hcomp := perform_compression_eq buf S (by rw [hfreq]; exact hT)
  rw [hfreq, hbits] at hcomp
  rw [hcomp]
  refine ⟨rfl, ?_⟩
  simp only
  generalize hbs : S.flatMap (fun x => (codes x).map char_bit) = bits at *
  have hbits2 : ∀ b ∈ bits, b < 2 := by
    intro b hb
    rw [← hbs, List.mem_flatMap] at hb
    obtain ⟨x, _, hx⟩ := hb
    rw [List.mem_map] at hx
    obtain ⟨ch, _, rfl⟩ := hx
    exact char_bit_lt ch
  obtain ⟨hw1, hw2⟩ := write_bits_spec bits hbits2
  generalize (write_bits bits).file_stream = payload at *
  -- the header is read back
  have hhead : read_items 256 (freq.flatMap uint_bytes ++ payload) = freq := by
    have := read_items_uint_bytes freq payload hflt
    rwa [hflen] at this
  have hhlen : (freq.flatMap uint_bytes).length = 1024 := by
    rw [uint_bytes_flatMap_length, hflen]
  have hmin : min 1024 (freq.flatMap uint_bytes ++ payload).length = 1024 := by
    rw [List.length_append, hhlen]; omega
  have hdrop : (freq.flatMap uint_bytes ++ payload).drop 1024 = payload := by
    rw [← hhlen, List.drop_left]
  have htot : ((List.range 256).map (fun i => freq.getD i 0)).foldl total_step 0
      = (S.length : Int) := by
    have h1 : (List.range 256).map (fun i => freq.getD i 0) = freq := by
      have := list_eq_map_getD freq
      rw [hflen] at this
      exact this.symm
    rw [h1, foldl_total_step freq 0 (le_refl _) (by rw [hsum]; omega), hsum]
    simp
  rw [perform_decompression_eq, hhead, hmin, hdrop, htot,
    if_neg (by rw [hflen]; exact fun h => h rfl), hnull]
  simp only [Bool.false_eq_true, if_false]
  -- the decoding loop
  have hok : ReaderOK (⟨⟨freq.flatMap uint_bytes ++ payload, 1024⟩, 0, 0, 0⟩ : BitReader) :=
    ⟨rfl, Nat.zero_lt_succ _, Nat.zero_le _⟩
  have hpend : pending (⟨⟨freq.flatMap uint_bytes ++ payload, 1024⟩, 0, 0, 0⟩ : BitReader)
      = bits ++ List.replicate ((8 - bits.length % 8) % 8) 0 := by
    unfold pending InStream.unread
    simp only [List.take_zero, List.nil_append, hdrop, hw1]
  have hfuel : 8 * payload.length + 1
      = bits.length + ((8 - bits.length % 8) % 8 + 1) := by
    rw [hw2]; omega
  rw [← hbs] at hpend hfuel
  obtain ⟨rd, hrd⟩ := decode_symbols (construct_huffman_tree freq) (S.length : Int) codes S
    ⟨⟨⟨freq.flatMap uint_bytes ++ payload, 1024⟩, 0, 0, 0⟩, construct_huffman_tree freq, 0, []⟩
    (List.replicate ((8 - (S.flatMap (fun x => (codes x).map char_bit)).length % 8) % 8) 0)
    ((8 - (S.flatMap (fun x => (codes x).map char_bit)).length % 8) % 8 + 1) hne
    (fun x hx => ⟨(hcodes x hx).1, hbytes x hx⟩) (construct_not_leaf freq) hok rfl hpend
    (by simp)
  rw [hfuel, hrd]
  simp

/-! ## Exchanging code lengths -/

theorem sum_swap {M : Type} [AddCommMonoid M] (s : Finset Nat) (i j : Nat) (hi : i ∈ s)
    (hj : j ∈ s) (f : Nat → M) :
    ∑ k ∈ s, f (Equiv.swap i j k) = ∑ k ∈ s, f k := by
  apply Equiv.Perm.sum_comp
  intro k hk
  simp only [Set.mem_setOf_eq] at hk
  by_cases hki : k = i
  · subst hki; exact hi
  · by_cases hkj : k = j
    · subst hkj; exact hj
    · exact absurd (Equiv.swap_apply_of_ne_of_ne hki hkj) hk

/-- Giving the longer of two lengths to the lighter of two symbols does not
raise the total. -/
theorem cost_swap (s : Finset Nat) (w len : Nat → Nat) (i j : Nat) (hi : i ∈ s) (hj : j ∈ s)
    (hw : w i ≤ w j) (hl : len i ≤ len j) :
    ∑ k ∈ s, w k * len (Equiv.swap i j k) ≤ ∑ k ∈ s, w k * len k := by
  by_cases hij : i = j
  · subst hij; simp
  · have hj' : j ∈ s.erase i := Finset.mem_erase.mpr ⟨fun h => hij h.symm, hj⟩
    rw [← Finset.add_sum_erase s _ hi, ← Finset.add_sum_erase (s.erase i) _ hj',
      ← Finset.add_sum_erase s (fun k => w k * len k) hi,
      ← Finset.add_sum_erase (s.erase i) (fun k => w k * len k) hj']
    have hrest : ∑ k ∈ (s.erase i).erase j, w k * len (Equiv.swap i j k)
        = ∑ k ∈ (s.erase i).erase j, w k * len k := by
      apply Finset.sum_congr rfl
      intro k hk
      rw [Finset.mem_erase, Finset.mem_erase] at hk
      rw [Equiv.swap_apply_of_ne_of_ne hk.2.1 hk.1]
    rw [hrest, Equiv.swap_apply_left, Equiv.swap_apply_right]
    obtain ⟨x, hx⟩ := Nat.exists_eq_add_of_le hw
    obtain ⟨y, hy⟩ := Nat.exists_eq_add_of_le hl
    rw [hx, hy]
    nlinarith [Nat.zero_le (x * y)]

theorem kraft_swap (D : Nat) (s : Finset Nat) (len : Nat → Nat) (i j : Nat) (hi : i ∈ s)
    (hj : j ∈ s) (h : Kraft D s len) : Kraft D s (fun k => len (Equiv.swap i j k)) := by
  obtain ⟨h1, h2⟩ := h
  constructor
  · intro k hk
    show len (Equiv.swap i j k) ≤ D
    by_cases hki : k = i
    · subst hki; rw [Equiv.swap_apply_left]; exact h1 j hj
    · by_cases hkj : k = j
      · subst hkj; rw [Equiv.swap_apply_right]; exact h1 i hi
      · rw [Equiv.swap_apply_of_ne_of_ne hki hkj]; exact h1 k hk
  · rw [sum_swap s i j hi hj (fun k => 2 ^ (D - len k))]
    exact h2

/-! ## Two symbols of maximal length -/

/-- When a single symbol has the maximal length, that length can be
shortened by one without breaking the Kraft inequality. -/
theorem kraft_shorten (D : Nat) (s : Finset Nat) (len : Nat → Nat) (j : Nat) (hj : j ∈ s)
    (h : Kraft D s len) (hpos : 1 ≤ len j) (hmax : ∀ i ∈ s, i ≠ j → len i < len j) :
    Kraft D s (Function.update len j (len j - 1)) := by
  obtain ⟨h1, h2⟩ := h
  have hjD := h1 j hj
  constructor
  · intro i hi
    by_cases hij : i = j
    · subst hij; rw [Function.update_same]; omega
    · rw [Function.update_noteq hij]; exact h1 i hi
  · rw [← Finset.add_sum_erase s _ hj] at h2 ⊢
    rw [Function.update_same]
    have hrest : ∑ k ∈ s.erase j, 2 ^ (D - Function.update len j (len j - 1) k)
        = ∑ k ∈ s.erase j, 2 ^ (D - len k) := by
      apply Finset.sum_congr rfl
      intro k hk
      rw [Function.update_noteq (Finset.mem_erase.mp hk).1]
    rw [hrest]
    -- every other term is a multiple of twice the term of `j`
    have hdvd : 2 ^ (D - len j + 1) ∣ ∑ k ∈ s.erase j, 2 ^ (D - len k) := by
      apply Finset.dvd_sum
      intro k hk
      rw [Finset.mem_erase] at hk
      apply pow_dvd_pow
      have := hmax k hk.2 hk.1
      have := h1 k hk.2
      omega
    have hdvdD : 2 ^ (D - len j + 1) ∣ 2 ^ D := pow_dvd_pow 2 (by omega)
    obtain ⟨q, hq⟩ := hdvd
    obtain ⟨q', hq'⟩ := hdvdD
    have hexp : D - (len j - 1) = D - len j + 1 := by omega
    rw [hexp, hq]
    rw [hq, hq'] at h2
    rw [hq']
    have hm : 2 ^ (D - len j + 1) = 2 * 2 ^ (D - len j) := by rw [pow_succ]; ring
    have hmpos : 0 < 2 ^ (D - len j) := Nat.pow_pos (by decide)
    rw [hm] at h2 ⊢
    generalize 2 ^ (D - len j) = m at *
    have hlt : q < q' := by
      by_contra hge
      have hge' : q' ≤ q := Nat.le_of_not_lt hge
      have : 2 * m * q' ≤ 2 * m * q := Nat.mul_le_mul_left _ hge'
      omega
    have : 2 * m * (q + 1) ≤ 2 * m * q' := Nat.mul_le_mul_left _ hlt
    rw [Nat.mul_add] at this
    omega

theorem kraft_len_pos (D : Nat) (s : Finset Nat) (len : Nat → Nat) (hcard : 2 ≤ s.card)
    (h : Kraft D s len) (j : Nat) (hmax : ∀ i ∈ s, len i ≤ len j) : 1 ≤ len j := by
  by_contra h0
  have hz : ∀ i ∈ s, len i = 0 := by
    intro i hi
    have := hmax i hi
    omega
  have hsum : ∑ i ∈ s, 2 ^ (D - len i) = s.card * 2 ^ D := by
    rw [Finset.sum_congr rfl (fun i hi => by rw [hz i hi])]
    simp
  have h2 := h.2
  rw [hsum] at h2
  have hpos : 0 < 2 ^ D := Nat.pow_pos (by decide)
  have : 2 * 2 ^ D ≤ s.card * 2 ^ D := Nat.mul_le_mul_right _ hcard
  omega

/-- Some assignment of lengths that costs no more has two symbols of maximal
length. -/
theorem exists_two_max (D : Nat) (s : Finset Nat) (w : Nat → Nat) (hcard : 2 ≤ s.card) :
    ∀ (n : Nat) (len : Nat → Nat), ∑ k ∈ s, len k = n → Kraft D s len →
      ∃ len', Kraft D s len' ∧ ∑ k ∈ s, w k * len' k ≤ ∑ k ∈ s, w k * len k ∧
        ∃ j0 ∈ s, ∃ j1 ∈ s, j0 ≠ j1 ∧ len' j1 = len' j0 ∧ 1 ≤ len' j0 ∧
          ∀ i ∈ s, len' i ≤ len' j0 := by
  intro n
  induction n using Nat.strong_induction_on with
  | _ n ih =>
    intro len hn hk
    have hne : s.Nonempty := Finset.card_pos.mp (by omega)
    obtain ⟨j0, hj0, hmax⟩ := Finset.exists_max_image s len hne
    have hpos := kraft_len_pos D s len hcard hk j0 hmax
    by_cases htwo : ∃ j1 ∈ s, j1 ≠ j0 ∧ len j1 = len j0
    · obtain ⟨j1, hj1, hne1, heq⟩ := htwo
      exact ⟨len, hk, le_refl _, j0, hj0, j1, hj1, fun h => hne1 h.symm, heq, hpos, hmax⟩
    · have hlt : ∀ i ∈ s, i ≠ j0 → len i < len j0 := by
        intro i hi hij
        have h1 := hmax i hi
        have h2 : len i ≠ len j0 := fun h => htwo ⟨i, hi, hij, h⟩
        omega
      have hk2 := kraft_shorten D s len j0 hj0 hk hpos hlt
      have hle : ∀ k ∈ s, Function.update len j0 (len j0 - 1) k ≤ len k := by
        intro k _
        by_cases hkj : k = j0
        · subst hkj; rw [Function.update_same]; omega
        · rw [Function.update_noteq hkj]
      have hsumlt : ∑ k ∈ s, Function.update len j0 (len j0 - 1) k < n := by
        rw [← hn]
        apply Finset.sum_lt_sum hle
        exact ⟨j0, hj0, by rw [Function.update_same]; omega⟩
      obtain ⟨len', h1, h2, h3⟩ := ih _ hsumlt (Function.update len j0 (len j0 - 1)) rfl hk2
      refine ⟨len', h1, le_trans h2 ?_, h3⟩
      apply Finset.sum_le_sum
      intro k hk'
      exact Nat.mul_le_mul_left _ (hle k hk')

/-- Some assignment of lengths that costs no more gives the maximal length
to two chosen symbols, one lightest and one lightest among the others. -/
theorem exists_two_max_at (D : Nat) (s : Finset Nat) (w len : Nat → Nat) (i0 i1 : Nat)
    (hi0 : i0 ∈ s) (hi1 : i1 ∈ s) (h01 : i0 ≠ i1) (hk : Kraft D s len)
    (hw0 : ∀ k ∈ s, w i0 ≤ w k) (hw1 : ∀ k ∈ s, k ≠ i0 → w i1 ≤ w k) :
    ∃ len', Kraft D s len' ∧ ∑ k ∈ s, w k * len' k ≤ ∑ k ∈ s, w k * len k ∧
      len' i1 = len' i0 ∧ 1 ≤ len' i0 := by
  have hcard : 2 ≤ s.card := by
    have : ({i0, i1} : Finset Nat) ⊆ s := by
      intro x hx
      rw [Finset.mem_insert, Finset.mem_singleton] at hx
      rcases hx with rfl | rfl
      · exact hi0
      · exact hi1
    have h2 := Finset.card_le_card this
    rw [Finset.card_pair h01] at h2
    exact h2
  obtain ⟨l1, k1, c1, j0, hj0, j1, hj1, hj01, heq, hpos, hmax⟩ :=
    exists_two_max D s w hcard _ len rfl hk
  -- first exchange: `i0` takes the length of `j0`
  let l2 : Nat → Nat := fun k => l1 (Equiv.swap i0 j0 k)
  have k2 : Kraft D s l2 := kraft_swap D s l1 i0 j0 hi0 hj0 k1
  have c2 : ∑ k ∈ s, w k * l2 k ≤ ∑ k ∈ s, w k * l1 k :=
    cost_swap s w l1 i0 j0 hi0 hj0 (hw0 j0 hj0) (hmax i0 hi0)
  have hl2i0 : l2 i0 = l1 j0 := by
    show l1 (Equiv.swap i0 j0 i0) = l1 j0
    rw [Equiv.swap_apply_left]
  have hmem_swap : ∀ k ∈ s, Equiv.swap i0 j0 k ∈ s := by
    intro k hk'
    by_cases hki : k = i0
    · subst hki; rw [Equiv.swap_apply_left]; exact hj0
    · by_cases hkj : k = j0
      · subst hkj; rw [Equiv.swap_apply_right]; exact hi0
      · rw [Equiv.swap_apply_of_ne_of_ne hki hkj]; exact hk'
  have hmax2 : ∀ k ∈ s, l2 k ≤ l1 j0 := fun k hk' => hmax _ (hmem_swap k hk')
  -- the other symbol of maximal length
  obtain ⟨j', hj', hj'0, hl2j'⟩ : ∃ j' ∈ s, j' ≠ i0 ∧ l2 j' = l1 j0 := by
    refine ⟨Equiv.swap i0 j0 j1, hmem_swap j1 hj1, ?_, ?_⟩
    · intro h
      have := congrArg (Equiv.swap i0 j0) h
      rw [Equiv.swap_apply_self, Equiv.swap_apply_left] at this
      exact hj01 this.symm
    · show l1 (Equiv.swap i0 j0 (Equiv.swap i0 j0 j1)) = l1 j0
      rw [Equiv.swap_apply_self, heq]
  -- second exchange: `i1` takes the length of `j'`
  let l3 : Nat → Nat := fun k => l2 (Equiv.swap i1 j' k)
  have k3 : Kraft D s l3 := kraft_swap D s l2 i1 j' hi1 hj' k2
  have c3 : ∑ k ∈ s, w k * l3 k ≤ ∑ k ∈ s, w k * l2 k :=
    cost_swap s w l2 i1 j' hi1 hj' (hw1 j' hj' hj'0) (by rw [hl2j']; exact hmax2 i1 hi1)
  have hl3i1 : l3 i1 = l1 j0 := by
    show l2 (Equiv.swap i1 j' i1) = l1 j0
    rw [Equiv.swap_apply_left, hl2j']
  have hl3i0 : l3 i0 = l1 j0 := by
    show l2 (Equiv.swap i1 j' i0) = l1 j0
    rw [Equiv.swap_apply_of_ne_of_ne h01 (fun h => hj'0 h.symm), hl2i0]
  exact ⟨l3, k3, le_trans c3 (le_trans c2 c1), by rw [hl3i1, hl3i0], by rw [hl3i0]; exact hpos⟩

theorem weight_loop_perm (l : List Nat) (x : Nat) : (weight_loop l x).Perm (x :: l) := by
  induction l with
  | nil => simp [weight_loop]
  | cons y ys ih =>
    simp only [weight_loop]
    split
    · exact (List.Perm.cons y ih).trans (List.Perm.swap x y ys)
    · exact List.Perm.refl _

theorem place_weight_perm (l : List Nat) (x : Nat) : (place_weight l x).Perm (x :: l) := by
  cases l with
  | nil => simp [place_weight]
  | cons y ys =>
    simp only [place_weight]
    split
    · exact List.Perm.refl _
    · exact (List.Perm.cons y (weight_loop_perm ys x)).trans (List.Perm.swap x y ys)

theorem weight_loop_sorted (l : List Nat) (x : Nat) (h : l.Sorted (· ≤ ·)) :
    (weight_loop l x).Sorted (· ≤ ·) := by
  induction l with
  | nil => simp [weight_loop]
  | cons y ys ih =>
    simp only [weight_loop]
    rw [List.sorted_cons] at h
    split
    · rename_i hyx
      rw [List.sorted_cons]
      refine ⟨?_, ih h.2⟩
      intro z hz
      rw [(weight_loop_perm ys x).mem_iff, List.mem_cons] at hz
      rcases hz with rfl | hz
      · exact hyx
      · exact h.1 z hz
    · rename_i hyx
      rw [List.sorted_cons, List.sorted_cons]
      refine ⟨?_, h⟩
      intro z hz
      rw [List.mem_cons] at hz
      rcases hz with rfl | hz
      · omega
      · have := h.1 z hz; omega

theorem place_weight_sorted (l : List Nat) (x : Nat) (h : l.Sorted (· ≤ ·)) :
    (place_weight l x).Sorted (· ≤ ·) := by
  cases l with
  | nil => simp [place_weight]
  | cons y ys =>
    simp only [place_weight]
    split
    · rename_i hxy
      rw [List.sorted_cons]
      refine ⟨?_, h⟩
      rw [List.sorted_cons] at h
      intro z hz
      rw [List.mem_cons] at hz
      rcases hz with rfl | hz
      · omega
      · have := h.1 z hz; omega
    · rename_i hxy
      rw [List.sorted_cons] at h ⊢
      refine ⟨?_, weight_loop_sorted ys x h.2⟩
      intro z hz
      rw [(weight_loop_perm ys x).mem_iff, List.mem_cons] at hz
      rcases hz with rfl | hz
      · omega
      · exact h.1 z hz

theorem place_weight_length (l : List Nat) (x : Nat) :
    (place_weight l x).length = l.length + 1 := by
  simpa using (place_weight_perm l x).length_eq

/-- The merging loop is optimal on weights: no assignment of code lengths
that satisfies the Kraft inequality costs less than the sum of the weights of
the merged nodes. -/
theorem merge_cost_le (D : Nat) :
    ∀ (fuel : Nat) (ws : List Nat), ws.Sorted (· ≤ ·) → ws.length ≤ fuel + 1 →
      ∀ (s : Finset Nat) (w len : Nat → Nat), s.val.map w = (ws : Multiset Nat) →
        Kraft D s len → merge_cost fuel ws ≤ ∑ k ∈ s, w k * len k := by
  intro fuel
  induction fuel with
  | zero => intro ws _ _ s w len _ _; simp [merge_cost]
  | succ fuel ih =>
    intro ws hsorted hlen s w len hms hk
    match ws, hsorted, hlen, hms with
    | [], _, _, _ => simp [merge_cost]
    | [a], _, _, _ => simp [merge_cost]
    | a :: b :: rest, hsorted, hlen, hms =>
      simp only [merge_cost]
      rw [List.sorted_cons, List.sorted_cons] at hsorted
      obtain ⟨ha_le, hb_le, hrest_sorted⟩ := hsorted
      -- the two lightest symbols
      have ha : a ∈ s.val.map w := by rw [hms]; simp
      obtain ⟨i0, hi0, hwi0⟩ := Multiset.mem_map.mp ha
      have hi0s : i0 ∈ s := hi0
      have hs1 : (s.erase i0).val.map w = ((b :: rest : List Nat) : Multiset Nat) := by
        rw [Finset.erase_val, Multiset.map_erase_of_mem w s.val hi0, hms, hwi0]
        simp
      have hb : b ∈ (s.erase i0).val.map w := by rw [hs1]; simp
      obtain ⟨i1, hi1, hwi1⟩ := Multiset.mem_map.mp hb
      have hi1e : i1 ∈ s.erase i0 := hi1
      have hi1s : i1 ∈ s := Finset.mem_of_mem_erase hi1e
      have h01 : i0 ≠ i1 := fun h => (Finset.mem_erase.mp hi1e).1 h.symm
      have hs2 : ((s.erase i0).erase i1).val.map w = ((rest : List Nat) : Multiset Nat) := by
        rw [Finset.erase_val, Multiset.map_erase_of_mem w (s.erase i0).val hi1, hs1, hwi1]
        simp
      have hw0 : ∀ k ∈ s, w i0 ≤ w k := by
        intro k hk'
        have : w k ∈ s.val.map w := Multiset.mem_map_of_mem w hk'
        rw [hms, Multiset.mem_coe, List.mem_cons] at this
        rw [hwi0]
        rcases this with h | h
        · omega
        · exact ha_le _ h
      have hw1 : ∀ k ∈ s, k ≠ i0 → w i1 ≤ w k := by
        intro k hk' hne
        have hke : k ∈ (s.erase i0).val := Finset.mem_erase.mpr ⟨hne, hk'⟩
        have : w k ∈ (s.erase i0).val.map w := Multiset.mem_map_of_mem w hke
        rw [hs1, Multiset.mem_coe, List.mem_cons] at this
        rw [hwi1]
        rcases this with h | h
        · omega
        · exact hb_le _ h
      -- both get the maximal length
      obtain ⟨l', hk', hcost, heq, hpos⟩ :=
        exists_two_max_at D s w len i0 i1 hi0s hi1s h01 hk hw0 hw1
      refine le_trans ?_ hcost
      -- the merged symbol
      have hi0e : i0 ∈ s.erase i1 := Finset.mem_erase.mpr ⟨h01, hi0s⟩
      have hcomm : (s.erase i1).erase i0 = (s.erase i0).erase i1 := Finset.erase_right_comm
      have hne_r : ∀ k ∈ (s.erase i1).erase i0, k ≠ i0 := fun k hk'' =>
        (Finset.mem_erase.mp hk'').1
      have hms' : (s.erase i1).val.map (Function.update w i0 (a + b))
          = ((place_weight rest (a + b) : List Nat) : Multiset Nat) := by
        have h1 : (s.erase i1).val = i0 ::ₘ ((s.erase i1).erase i0).val := by
          rw [Finset.erase_val (s.erase i1) i0]
          exact (Multiset.cons_erase (show i0 ∈ (s.erase i1).val from hi0e)).symm
        rw [h1, Multiset.map_cons, Function.update_same]
        have h2 : ((s.erase i1).erase i0).val.map (Function.update w i0 (a + b))
            = ((s.erase i1).erase i0).val.map w := by
          apply Multiset.map_congr rfl
          intro k hk''
          exact Function.update_noteq (hne_r k hk'') _ _
        rw [h2, hcomm, hs2, Multiset.cons_coe]
        exact (Multiset.coe_eq_coe.mpr (place_weight_perm rest (a + b))).symm
      have hL : l' i0 ≤ D := hk'.1 i0 hi0s
      have hkraft' : Kraft D (s.erase i1) (Function.update l' i0 (l' i0 - 1)) := by
        constructor
        · intro k hk''
          by_cases hki : k = i0
          · subst hki; rw [Function.update_same]; omega
          · rw [Function.update_noteq hki]
            exact hk'.1 k (Finset.mem_of_mem_erase hk'')
        · have h2 := hk'.2
          rw [← Finset.add_sum_erase s _ hi1s, ← Finset.add_sum_erase (s.erase i1) _ hi0e,
            heq] at h2
          rw [← Finset.add_sum_erase (s.erase i1) _ hi0e, Function.update_same]
          have h3 : ∑ k ∈ (s.erase i1).erase i0,
                2 ^ (D - Function.update l' i0 (l' i0 - 1) k)
              = ∑ k ∈ (s.erase i1).erase i0, 2 ^ (D - l' k) := by
            apply Finset.sum_congr rfl
            intro k hk''
            rw [Function.update_noteq (hne_r k hk'')]
          rw [h3]
          have h4 : 2 ^ (D - (l' i0 - 1)) = 2 ^ (D - l' i0) + 2 ^ (D - l' i0) := by
            rw [show D - (l' i0 - 1) = D - l' i0 + 1 by omega, pow_succ]
            ring
          rw [h4]
          omega
      have hih := ih (place_weight rest (a + b)) (place_weight_sorted rest (a + b) hrest_sorted)
        (by rw [place_weight_length]; simp at hlen; omega) (s.erase i1)
        (Function.update w i0 (a + b)) (Function.update l' i0 (l' i0 - 1)) hms' hkraft'
      refine le_trans (Nat.add_le_add_left hih _) ?_
      rw [← Finset.add_sum_erase (s.erase i1) _ hi0e, Function.update_same,
        Function.update_same, ← Finset.add_sum_erase s (fun k => w k * l' k) hi1s,
        ← Finset.add_sum_erase (s.erase i1) (fun k => w k * l' k) hi0e, heq, hwi0, hwi1]
      have h5 : ∑ k ∈ (s.erase i1).erase i0,
            Function.update w i0 (a + b) k * Function.update l' i0 (l' i0 - 1) k
          = ∑ k ∈ (s.erase i1).erase i0, w k * l' k := by
        apply Finset.sum_congr rfl
        intro k hk''
        rw [Function.update_noteq (hne_r k hk''), Function.update_noteq (hne_r k hk'')]
      rw [h5]
      obtain ⟨m, hm⟩ : ∃ m, l' i0 = m + 1 := ⟨l' i0 - 1, by omega⟩
      rw [hm, Nat.add_sub_cancel]
      nlinarith

/-- The Kraft inequality holds for every prefix-free assignment of bit strings. -/
theorem kraft_sum_of_prefix_free (D : Nat) :
    ∀ (s : Finset Nat) (code : Nat → List Bool), (∀ i ∈ s, (code i).length ≤ D) →
      (∀ i ∈ s, ∀ j ∈ s, i ≠ j → ¬ code i <+: code j) →
      ∑ i ∈ s, 2 ^ (D - (code i).length) ≤ 2 ^ D := by
  induction D with
  | zero =>
    intro s code hlen hpf
    have hnil : ∀ i ∈ s, code i = [] := fun i hi =>
      List.length_eq_zero.mp (Nat.le_zero.mp (hlen i hi))
    have hcard : s.card ≤ 1 := by
      by_contra h
      obtain ⟨i, hi, j, hj, hij⟩ := Finset.one_lt_card.mp (Nat.lt_of_not_le h)
      apply hpf i hi j hj hij
      rw [hnil i hi]
      exact List.nil_prefix
    rw [Finset.sum_congr rfl (fun i hi => by rw [hnil i hi])]
    simpa using hcard
  | succ D ih =>
    intro s code hlen hpf
    by_cases hex : ∃ i ∈ s, code i = []
    · obtain ⟨i, hi, hnil⟩ := hex
      have hs : s = {i} := by
        apply Finset.eq_singleton_iff_unique_mem.mpr
        refine ⟨hi, ?_⟩
        intro j hj
        by_contra hji
        apply hpf i hi j hj (fun h => hji h.symm)
        rw [hnil]
        exact List.nil_prefix
      rw [hs, Finset.sum_singleton, hnil]
      simp
    · have hne : ∀ i ∈ s, code i ≠ [] := fun i hi h => hex ⟨i, hi, h⟩
      -- the two halves, by first bit
      have hhalf : ∀ (bit : Bool) (t : Finset Nat), t ⊆ s →
          (∀ i ∈ t, (code i).head? = some bit) →
          ∑ i ∈ t, 2 ^ (D + 1 - (code i).length) ≤ 2 ^ D := by
        intro bit t hts hhead
        have hcons : ∀ i ∈ t, code i = bit :: (code i).tail := by
          intro i hi
          have h1 := hhead i hi
          cases hc : code i with
          | nil => exact absurd hc (hne i (hts hi))
          | cons x xs =>
            rw [hc] at h1
            simp only [List.head?_cons, Option.some.injEq] at h1
            rw [h1]; rfl
        have hlen' : ∀ i ∈ t, ((code i).tail).length ≤ D := by
          intro i hi
          have := hlen i (hts hi)
          rw [hcons i hi] at this
          simpa using this
        have hpf' : ∀ i ∈ t, ∀ j ∈ t, i ≠ j → ¬ (code i).tail <+: (code j).tail := by
          intro i hi j hj hij hpre
          apply hpf i (hts hi) j (hts hj) hij
          rw [hcons i hi, hcons j hj]
          exact (List.prefix_cons_inj bit).mpr hpre
        have := ih t (fun i => (code i).tail) hlen' hpf'
        refine le_trans (le_of_eq ?_) this
        apply Finset.sum_congr rfl
        intro i hi
        congr 1
        have := congrArg List.length (hcons i hi)
        rw [List.length_cons] at this
        show D + 1 - (code i).length = D - (code i).tail.length
        omega
      rw [← Finset.sum_filter_add_sum_filter_not s (fun i => (code i).head? = some true)]
      have h1 := hhalf true (s.filter (fun i => (code i).head? = some true))
        (Finset.filter_subset _ _) (fun i hi => (Finset.mem_filter.mp hi).2)
      have h2 := hhalf false (s.filter (fun i => ¬ (code i).head? = some true))
        (Finset.filter_subset _ _) (by
          intro i hi
          rw [Finset.mem_filter] at hi
          cases hc : code i with
          | nil => exact absurd hc (hne i hi.1)
          | cons x xs =>
            have h3 := hi.2
            rw [hc] at h3
            cases x with
            | true => simp at h3
            | false => rfl)
      rw [pow_succ]
      omega

theorem kraft_of_prefix_free (s : Finset Nat) (code : Nat → List Bool)
    (hpf : ∀ i ∈ s, ∀ j ∈ s, i ≠ j → ¬ code i <+: code j) :
    Kraft (∑ i ∈ s, (code i).length) s (fun i => (code i).length) := by
  have hlen : ∀ i ∈ s, (code i).length ≤ ∑ i ∈ s, (code i).length := fun i hi =>
    Finset.single_le_sum (f := fun i => (code i).length) (fun _ _ => Nat.zero_le _) hi
  exact ⟨hlen, kraft_sum_of_prefix_free _ s code hlen hpf⟩

/-! ## The weighted path length of the constructed tree -/

theorem place_loop_map_weight (l : List TreeNode) (x : TreeNode) :
    (place_loop l x).map TreeNode.weight = weight_loop (l.map TreeNode.weight) x.weight := by
  induction l with
  | nil => rfl
  | cons y ys ih =>
    simp only [place_loop, List.map_cons, weight_loop]
    split
    · rw [List.map_cons, ih]
    · rfl

theorem place_in_order_map_weight (l : List TreeNode) (x : TreeNode) :
    (place_in_order l x).map TreeNode.weight
      = place_weight (l.map TreeNode.weight) x.weight := by
  cases l with
  | nil => rfl
  | cons y ys =>
    simp only [place_in_order, List.map_cons, place_weight]
    split
    · rfl
    · rw [List.map_cons, place_loop_map_weight]

theorem path_cost_leaf (freq : List Nat) (c w : Nat) :
    path_cost freq (node c w NULL NULL) = 0 := by
  simp [path_cost, leaf_paths_leaf]

theorem leaf_sum_leaf (freq : List Nat) (c w : Nat) :
    leaf_sum freq (node c w NULL NULL) = freq.getD c 0 := by
  unfold leaf_sum
  rw [leaf_chars_leaf]
  simp

theorem leaf_sum_inner (freq : List Nat) (c w : Nat) (l r : TreeNode)
    (h : (node c w l r).is_leaf = false) :
    leaf_sum freq (node c w l r) = leaf_sum freq l + leaf_sum freq r := by
  unfold leaf_sum
  rw [leaf_chars_inner c w l r h, List.map_append, List.sum_append]

theorem sum_map_succ_length (freq : List Nat) (ch : Char) (ps : List (Nat × List Char)) :
    ((ps.map (fun p => (p.1, ch :: p.2))).map
        (fun p => freq.getD p.1 0 * p.2.length)).sum
      = (ps.map (fun p => freq.getD p.1 0 * p.2.length)).sum
        + ((ps.map Prod.fst).map (fun c => freq.getD c 0)).sum := by
  induction ps with
  | nil => rfl
  | cons p ps ih =>
    simp only [List.map_cons, List.sum_cons, List.length_cons] at ih ⊢
    rw [ih]
    ring

theorem path_cost_inner (freq : List Nat) (c w : Nat) (l r : TreeNode)
    (h : (node c w l r).is_leaf = false) :
    path_cost freq (node c w l r)
      = path_cost freq l + path_cost freq r + leaf_sum freq l + leaf_sum freq r := by
  unfold path_cost leaf_sum leaf_chars
  rw [leaf_paths_inner c w l r h, List.map_append, List.sum_append, sum_map_succ_length,
    sum_map_succ_length]
  ring

/-- Without a wrap, the weighted path length of the tree the merging loop
ends on is the sum of those of the items it starts from plus the weights of
the nodes it creates. -/
theorem merge_loop_cost (freq : List Nat) :
    ∀ (fuel : Nat) (l : List TreeNode),
      (∀ t ∈ l, Full t ∧ t.weight = leaf_sum freq t) →
      (l.map (leaf_sum freq)).sum < UINT_MOD → l.length ≤ fuel + 1 →
      ((merge_loop fuel l).map (path_cost freq)).sum
        = (l.map (path_cost freq)).sum + merge_cost fuel (l.map TreeNode.weight) := by
  intro fuel
  induction fuel with
  | zero =>
    intro l _ _ hlen
    match l, hlen with
    | [], _ => rfl
    | [a], _ => rfl
  | succ fuel ih =>
    intro l hinv hsum hlen
    match l, hinv, hsum, hlen with
    | [], _, _, _ => rfl
    | [a], _, _, _ => rfl
    | a :: b :: rest, hinv, hsum, hlen =>
      obtain ⟨hfa, hwa⟩ := hinv a (by simp)
      obtain ⟨hfb, hwb⟩ := hinv b (by simp)
      have hnl : (node 0 ((a.weight + b.weight) % UINT_MOD) a b).is_leaf = false :=
        hfa.is_leaf_inner _ _ b
      simp only [List.map_cons, List.sum_cons] at hsum
      have hmod : (a.weight + b.weight) % UINT_MOD = a.weight + b.weight := by
        apply Nat.mod_eq_of_lt
        rw [hwa, hwb]; omega
      have hmw : (merge_nodes a b).weight = a.weight + b.weight := by
        rw [merge_nodes_eq]
        exact hmod
      have hms : leaf_sum freq (merge_nodes a b) = leaf_sum freq a + leaf_sum freq b := by
        rw [merge_nodes_eq, leaf_sum_inner freq _ _ a b hnl]
      have hmc : path_cost freq (merge_nodes a b)
          = path_cost freq a + path_cost freq b + a.weight + b.weight := by
        rw [merge_nodes_eq, path_cost_inner freq _ _ a b hnl, hwa, hwb]
      have hperm := place_in_order_perm rest (merge_nodes a b)
      have hinv' : ∀ t ∈ place_in_order rest (merge_nodes a b),
          Full t ∧ t.weight = leaf_sum freq t := by
        intro t ht
        rw [mem_place_in_order] at ht
        rcases ht with rfl | ht
        · exact ⟨merge_nodes_full hfa hfb, by rw [hmw, hms, hwa, hwb]⟩
        · exact hinv t (by simp [ht])
      have hsum' : ((place_in_order rest (merge_nodes a b)).map (leaf_sum freq)).sum
          < UINT_MOD := by
        rw [(hperm.map (leaf_sum freq)).sum_eq, List.map_cons, List.sum_cons, hms]
        omega
      have hlen' : (place_in_order rest (merge_nodes a b)).length ≤ fuel + 1 := by
        rw [place_in_order_length]
        simp at hlen
        omega
      simp only [merge_loop, merge_cost, List.map_cons, List.sum_cons]
      rw [ih _ hinv' hsum' hlen', (hperm.map (path_cost freq)).sum_eq, List.map_cons,
        List.sum_cons, hmc, place_in_order_map_weight, hmw]
      ring

theorem leaf_fold_sorted (freq : List Nat) (idx : List Nat) (st : List TreeNode × Nat)
    (h : (st.1.map TreeNode.weight).Sorted (· ≤ ·)) :
    ((idx.foldl (leaf_step freq) st).1.map TreeNode.weight).Sorted (· ≤ ·) := by
  induction idx generalizing st with
  | nil => exact h
  | cons i rest ih =>
    rw [List.foldl_cons]
    apply ih
    by_cases hi : 0 < freq.getD i 0
    · rw [leaf_step_pos freq st i hi]
      simp only
      rw [place_in_order_map_weight]
      exact place_weight_sorted _ _ h
    · rw [leaf_step_zero freq st i hi]
      exact h

theorem leaf_list_sorted (freq : List Nat) :
    ((leaf_list freq).1.map TreeNode.weight).Sorted (· ≤ ·) :=
  leaf_fold_sorted freq (List.range 256) ([], 0) (by simp)

theorem present_toFinset (freq : List Nat) :
    (present freq).toFinset = (Finset.range 256).filter (fun b => 0 < freq.getD b 0) := by
  ext b
  rw [List.mem_toFinset, mem_present, Finset.mem_filter, Finset.mem_range]

/-- A sum over the byte values with a non-zero count is a sum over all byte
values when the other terms vanish. -/
theorem sum_present (freq : List Nat) (g : Nat → Nat)
    (hg : ∀ b, b < 256 → freq.getD b 0 = 0 → g b = 0) :
    ∑ b ∈ (present freq).toFinset, g b = ∑ b ∈ Finset.range 256, g b := by
  rw [present_toFinset]
  apply Finset.sum_filter_of_ne
  intro b hb hne
  rw [Finset.mem_range] at hb
  by_contra h0
  exact hne (hg b hb (by omega))

theorem sum_map_present (freq : List Nat) (g : Nat → Nat)
    (hg : ∀ b, b < 256 → freq.getD b 0 = 0 → g b = 0) :
    ((present freq).map g).sum = ∑ b ∈ Finset.range 256, g b := by
  rw [← sum_present freq g hg, List.sum_toFinset g (present_nodup freq)]

theorem getD_lt_of_sum_lt (freq : List Nat)
    (hsum : ∑ b ∈ Finset.range 256, freq.getD b 0 < UINT_MOD) (b : Nat) (hb : b < 256) :
    freq.getD b 0 < UINT_MOD := by
  have := Finset.single_le_sum (f := fun b => freq.getD b 0) (fun _ _ => Nat.zero_le _)
    (Finset.mem_range.mpr hb)
  simp only at this
  omega

/-- The table of the constructed tree costs the weighted path length of the tree. -/
theorem table_cost_eq (buf : List Char) (freq : List Nat) (hbuf : buf.length = 256) :
    table_cost freq (code_table buf freq)
      = path_cost freq (construct_huffman_tree freq) := by
  have hperm := leaf_chars_construct freq
  have hnd : ((leaf_paths (construct_huffman_tree freq)).map Prod.fst).Nodup :=
    hperm.nodup_iff.mpr (present_nodup freq)
  have hentry : ∀ x ∈ leaf_paths (construct_huffman_tree freq),
      (table_entry (code_table buf freq) x.1).sequence_length = x.2.length := by
    intro x hx
    have hx1 : x.1 ∈ present freq :=
      hperm.mem_iff.mp (List.mem_map_of_mem Prod.fst hx)
    obtain ⟨hlt, hpos⟩ := mem_present.mp hx1
    obtain ⟨p, hp, he⟩ := (table_entry_spec buf freq hbuf x.1 hlt).1 hpos
    have hxp : (x.1, p) = x := List.inj_on_of_nodup_map hnd hp hx rfl
    rw [he, ← hxp]
  unfold table_cost path_cost
  rw [← sum_map_present freq
    (fun b => freq.getD b 0 * (table_entry (code_table buf freq) b).sequence_length)
    (fun b _ hz => by simp only [hz, Nat.zero_mul])]
  rw [← (hperm.map _).sum_eq]
  unfold leaf_chars
  rw [List.map_map]
  congr 1
  apply List.map_congr_left
  intro x hx
  simp only [Function.comp_apply, hentry x hx]

/-- Among the prefix-free assignments of bit strings to the byte values with
a non-zero count, none costs less than the generated table. -/
theorem huffman_optimal (buf : List Char) (freq : List Nat) (hbuf : buf.length = 256)
    (hsum : ∑ b ∈ Finset.range 256, freq.getD b 0 < UINT_MOD)
    (h2 : 2 ≤ (present freq).length) (code : Nat → List Bool)
    (hpf : ∀ a ∈ present freq, ∀ b ∈ present freq, a ≠ b → ¬ code a <+: code b) :
    table_cost freq (code_table buf freq) ≤ code_cost freq code := by
  rw [table_cost_eq buf freq hbuf]
  rcases construct_cases freq with ⟨h1, _⟩ | ⟨b, h1, _⟩ | ⟨_, _, _, _, hloop⟩
  · rw [h1] at h2; simp at h2
  · rw [h1] at h2; simp at h2
  · -- the items of the initial list
    have hleaf : ∀ t ∈ (leaf_list freq).1, ∃ i, i ∈ present freq ∧
        t = node i (freq.getD i 0) NULL NULL := by
      intro t ht
      rw [(leaf_list_perm freq).mem_iff, List.mem_map] at ht
      obtain ⟨i, hi, rfl⟩ := ht
      refine ⟨i, hi, ?_⟩
      rw [leaf_of_eq freq i (mem_present.mp hi).1,
        Nat.mod_eq_of_lt (getD_lt_of_sum_lt freq hsum i (mem_present.mp hi).1)]
    have hinv : ∀ t ∈ (leaf_list freq).1, Full t ∧ t.weight = leaf_sum freq t := by
      intro t ht
      obtain ⟨i, _, rfl⟩ := hleaf t ht
      exact ⟨Full.leaf _ _, by rw [leaf_sum_leaf]; rfl⟩
    have hweights : (leaf_list freq).1.map TreeNode.weight
        = (leaf_list freq).1.map (leaf_sum freq) :=
      List.map_congr_left (fun t ht => (hinv t ht).2)
    have hwperm : ((leaf_list freq).1.map TreeNode.weight).Perm
        ((present freq).map (fun i => freq.getD i 0)) := by
      refine ((leaf_list_perm freq).map TreeNode.weight).trans ?_
      rw [List.map_map]
      apply List.Perm.of_eq
      apply List.map_congr_left
      intro i hi
      simp only [Function.comp_apply]
      rw [leaf_of_eq freq i (mem_present.mp hi).1,
        Nat.mod_eq_of_lt (getD_lt_of_sum_lt freq hsum i (mem_present.mp hi).1)]
      rfl
    have hlsum : ((leaf_list freq).1.map (leaf_sum freq)).sum < UINT_MOD := by
      rw [← hweights, hwperm.sum_eq,
        sum_map_present freq (fun i => freq.getD i 0) (fun _ _ h => h)]
      exact hsum
    have hzero : ((leaf_list freq).1.map (path_cost freq)).sum = 0 := by
      apply List.sum_eq_zero
      intro x hx
      rw [List.mem_map] at hx
      obtain ⟨t, ht, rfl⟩ := hx
      obtain ⟨i, _, rfl⟩ := hleaf t ht
      exact path_cost_leaf freq _ _
    have hcost := merge_loop_cost freq (leaf_list freq).1.length (leaf_list freq).1 hinv hlsum
      (by omega)
    rw [hloop, hzero, Nat.zero_add] at hcost
    simp only [List.map_cons, List.map_nil, List.sum_cons, List.sum_nil, Nat.add_zero] at hcost
    rw [hcost]
    -- the competing code
    have hms : (present freq).toFinset.val.map (fun i => freq.getD i 0)
        = (((leaf_list freq).1.map TreeNode.weight : List Nat) : Multiset Nat) := by
      rw [List.toFinset_val, (present_nodup freq).dedup, Multiset.map_coe]
      exact (Multiset.coe_eq_coe.mpr hwperm).symm
    have hkraft := kraft_of_prefix_free (present freq).toFinset code (by
      intro a ha b hb hab
      exact hpf a (List.mem_toFinset.mp ha) b (List.mem_toFinset.mp hb) hab)
    have hle := merge_cost_le _ (leaf_list freq).1.length
      ((leaf_list freq).1.map TreeNode.weight) (leaf_list_sorted freq)
      (by rw [List.length_map]; omega) (present freq).toFinset (fun i => freq.getD i 0)
      (fun i => (code i).length) hms hkraft
    refine le_trans hle (le_of_eq ?_)
    unfold code_cost
    exact sum_present freq (fun b => freq.getD b 0 * (code b).length)
      (fun b _ hz => by simp only [hz, Nat.zero_mul])

/-! ## Trees as prefix-free codes -/

theorem path_of_mem (l : List (Nat × List Char)) (hnd : (l.map Prod.fst).Nodup)
    (x : Nat × List Char) (hx : x ∈ l) : path_of l x.1 = x.2 := by
  induction l with
  | nil => simp at hx
  | cons y ys ih =>
    rw [List.map_cons, List.nodup_cons] at hnd
    rw [List.mem_cons] at hx
    simp only [path_of]
    rcases hx with rfl | hx
    · rw [if_pos rfl]
    · have hne : y.1 ≠ x.1 := by
        intro h
        exact hnd.1 (h ▸ List.mem_map_of_mem Prod.fst hx)
      rw [if_neg hne]
      exact ih hnd.2 hx

/-- On strings of the characters 0 and 1, the translation to bits keeps
strings that are not prefixes of one another apart. -/
theorem prefix_of_map_bits (p q : List Char) (hp : ∀ ch ∈ p, ch = '0' ∨ ch = '1')
    (hq : ∀ ch ∈ q, ch = '0' ∨ ch = '1')
    (h : p.map (fun ch => decide (ch = '1')) <+: q.map (fun ch => decide (ch = '1'))) :
    p <+: q := by
  induction p generalizing q with
  | nil => exact List.nil_prefix
  | cons x xs ih =>
    cases q with
    | nil => simp at h
    | cons y ys =>
      rw [List.map_cons, List.map_cons, List.cons_prefix_cons] at h
      have hxy : x = y := by
        have hx := hp x (by simp)
        have hy := hq y (by simp)
        have h1 := h.1
        rcases hx with rfl | rfl <;> rcases hy with rfl | rfl
        · rfl
        · simp at h1
        · simp at h1
        · rfl
      rw [hxy, List.cons_prefix_cons]
      exact ⟨rfl, ih ys (fun ch hch => hp ch (by simp [hch]))
        (fun ch hch => hq ch (by simp [hch])) h.2⟩

/-- The sum over the byte values of count times a length that agrees with
the leaf paths of a tree is the weighted path length of the tree. -/
theorem sum_eq_path_cost (freq : List Nat) (t : TreeNode)
    (hperm : (leaf_chars t).Perm (present freq)) (L : Nat → Nat)
    (hL : ∀ x ∈ leaf_paths t, L x.1 = x.2.length) :
    ∑ b ∈ Finset.range 256, freq.getD b 0 * L b = path_cost freq t := by
  unfold path_cost
  rw [← sum_map_present freq (fun b => freq.getD b 0 * L b)
    (fun b _ hz => by simp only [hz, Nat.zero_mul])]
  rw [← (hperm.map _).sum_eq]
  unfold leaf_chars
  rw [List.map_map]
  congr 1
  apply List.map_congr_left
  intro x hx
  simp only [Function.comp_apply, hL x hx]

/-- The bit strings a tree assigns to the byte values on its leaves are
prefix-free and cost the weighted path length of the tree. -/
theorem tree_code_spec (freq : List Nat) (t : TreeNode)
    (hperm : (leaf_chars t).Perm (present freq)) :
    (∀ a ∈ present freq, ∀ b ∈ present freq, a ≠ b →
      ¬ tree_code t a <+: tree_code t b) ∧
    code_cost freq (tree_code t) = path_cost freq t := by
  have hnd : ((leaf_paths t).map Prod.fst).Nodup := hperm.nodup_iff.mpr (present_nodup freq)
  have hmem : ∀ a ∈ present freq, (a, path_of (leaf_paths t) a) ∈ leaf_paths t := by
    intro a ha
    have := hperm.mem_iff.mpr ha
    unfold leaf_chars at this
    rw [List.mem_map] at this
    obtain ⟨x, hx, rfl⟩ := this
    rw [path_of_mem _ hnd x hx]
    exact hx
  constructor
  · intro a ha b hb hab hpre
    have hpw := leaf_paths_prefix_free t
    have hsymm : Symmetric (fun x y : Nat × List Char => ¬ x.2 <+: y.2 ∧ ¬ y.2 <+: x.2) :=
      fun x y h => ⟨h.2, h.1⟩
    have := hpw.forall hsymm (hmem a ha) (hmem b hb)
      (by intro h; exact hab (congrArg Prod.fst h))
    exact this.1 (prefix_of_map_bits _ _ (leaf_paths_chars t _ _ (hmem a ha))
      (leaf_paths_chars t _ _ (hmem b hb)) hpre)
  · unfold code_cost
    apply sum_eq_path_cost freq t hperm
    intro x hx
    unfold tree_code
    rw [List.length_map, path_of_mem _ hnd x hx]

/-! ## Heavier symbols have shorter codes -/

theorem cost_swap_lt (s : Finset Nat) (w len : Nat → Nat) (i j : Nat) (hi : i ∈ s)
    (hj : j ∈ s) (hw : w i < w j) (hl : len i < len j) :
    ∑ k ∈ s, w k * len (Equiv.swap i j k) < ∑ k ∈ s, w k * len k := by
  have hij : i ≠ j := fun h => by rw [h] at hw; omega
  have hj' : j ∈ s.erase i := Finset.mem_erase.mpr ⟨fun h => hij h.symm, hj⟩
  rw [← Finset.add_sum_erase s _ hi, ← Finset.add_sum_erase (s.erase i) _ hj',
    ← Finset.add_sum_erase s (fun k => w k * len k) hi,
    ← Finset.add_sum_erase (s.erase i) (fun k => w k * len k) hj']
  have hrest : ∑ k ∈ (s.erase i).erase j, w k * len (Equiv.swap i j k)
      = ∑ k ∈ (s.erase i).erase j, w k * len k := by
    apply Finset.sum_congr rfl
    intro k hk
    rw [Finset.mem_erase, Finset.mem_erase] at hk
    rw [Equiv.swap_apply_of_ne_of_ne hk.2.1 hk.1]
  rw [hrest, Equiv.swap_apply_left, Equiv.swap_apply_right]
  obtain ⟨x, hx⟩ := Nat.exists_eq_add_of_lt hw
  obtain ⟨y, hy⟩ := Nat.exists_eq_add_of_lt hl
  rw [hx, hy]
  nlinarith [Nat.zero_le (x * y), Nat.zero_le x, Nat.zero_le y]

theorem entry_code_length (buf : List Char) (freq : List Nat) (hbuf : buf.length = 256)
    (b : Nat) (hb : b < 256) :
    (entry_code (table_entry (code_table buf freq) b)).length
      = (table_entry (code_table buf freq) b).sequence_length := by
  obtain ⟨hpos, hzero⟩ := table_entry_spec buf freq hbuf b hb
  by_cases hf : freq.getD b 0 = 0
  · rw [hzero hf]; rfl
  · obtain ⟨p, _, he⟩ := hpos (Nat.pos_of_ne_zero hf)
    rw [he]
    simp [entry_code]

/-- The bit strings of the generated table are prefix-free on the byte
values with a non-zero count. -/
theorem entry_code_prefix_free (buf : List Char) (freq : List Nat) (hbuf : buf.length = 256)
    (a b : Nat) (ha : a ∈ present freq) (hb : b ∈ present freq) (hab : a ≠ b) :
    ¬ entry_code (table_entry (code_table buf freq) a)
      <+: entry_code (table_entry (code_table buf freq) b) := by
  obtain ⟨ha1, ha2⟩ := mem_present.mp ha
  obtain ⟨hb1, hb2⟩ := mem_present.mp hb
  obtain ⟨p, hp, hep⟩ := (table_entry_spec buf freq hbuf a ha1).1 ha2
  obtain ⟨q, hq, heq⟩ := (table_entry_spec buf freq hbuf b hb1).1 hb2
  rw [hep, heq]
  intro hpre
  have hpw := leaf_paths_prefix_free (construct_huffman_tree freq)
  have hsymm : Symmetric (fun x y : Nat × List Char => ¬ x.2 <+: y.2 ∧ ¬ y.2 <+: x.2) :=
    fun x y h => ⟨h.2, h.1⟩
  have := hpw.forall hsymm hp hq (by intro h; exact hab (congrArg Prod.fst h))
  exact this.1 (prefix_of_map_bits _ _ (leaf_paths_chars _ _ _ hp)
    (leaf_paths_chars _ _ _ hq) hpre)

/-- A byte value with a strictly larger count has a code that is not longer. -/
theorem heavier_not_longer (buf : List Char) (freq : List Nat) (hbuf : buf.length = 256)
    (hsum : ∑ b ∈ Finset.range 256, freq.getD b 0 < UINT_MOD) (a b : Nat) (ha : a < 256)
    (hb : b < 256) (hab : freq.getD b 0 < freq.getD a 0) (hb0 : 0 < freq.getD b 0) :
    (table_entry (code_table buf freq) a).sequence_length
      ≤ (table_entry (code_table buf freq) b).sequence_length := by
  by_contra hlt
  have hlt' : (table_entry (code_table buf freq) b).sequence_length
      < (table_entry (code_table buf freq) a).sequence_length := Nat.lt_of_not_le hlt
  have hne : a ≠ b := fun h => by rw [h] at hab; omega
  have hpa : a ∈ present freq := mem_present.mpr ⟨ha, by omega⟩
  have hpb : b ∈ present freq := mem_present.mpr ⟨hb, hb0⟩
  have h2 : 2 ≤ (present freq).length := by
    have hsub : [a, b].Subperm (present freq) := by
      apply List.subperm_of_subset (by simp [hne])
      intro x hx
      simp only [List.mem_cons, List.mem_singleton, List.not_mem_nil, or_false] at hx
      rcases hx with rfl | rfl
      · exact hpa
      · exact hpb
    simpa using hsub.length_le
  -- the table with the codes of `a` and `b` exchanged
  have hswap_mem : ∀ x ∈ present freq, Equiv.swap b a x ∈ present freq := by
    intro x hx
    by_cases hxb : x = b
    · subst hxb; rw [Equiv.swap_apply_left]; exact hpa
    · by_cases hxa : x = a
      · subst hxa; rw [Equiv.swap_apply_right]; exact hpb
      · rw [Equiv.swap_apply_of_ne_of_ne hxb hxa]; exact hx
  have hopt := huffman_optimal buf freq hbuf hsum h2
    (fun x => entry_code (table_entry (code_table buf freq) (Equiv.swap b a x))) (by
      intro x hx y hy hxy
      exact entry_code_prefix_free buf freq hbuf _ _ (hswap_mem x hx) (hswap_mem y hy)
        (fun h => hxy ((Equiv.swap b a).injective h)))
  have hcost : code_cost freq
        (fun x => entry_code (table_entry (code_table buf freq) (Equiv.swap b a x)))
      = ∑ k ∈ Finset.range 256, freq.getD k 0 *
          (table_entry (code_table buf freq) (Equiv.swap b a k)).sequence_length := by
    unfold code_cost
    apply Finset.sum_congr rfl
    intro k hk
    have hk' : Equiv.swap b a k < 256 := by
      rw [Finset.mem_range] at hk
      by_cases hkb : k = b
      · subst hkb; rw [Equiv.swap_apply_left]; exact ha
      · by_cases hka : k = a
        · subst hka; rw [Equiv.swap_apply_right]; exact hb
        · rw [Equiv.swap_apply_of_ne_of_ne hkb hka]; exact hk
    rw [entry_code_length buf freq hbuf _ hk']
  have hstrict : ∑ k ∈ Finset.range 256, freq.getD k 0 *
        (table_entry (code_table buf freq) (Equiv.swap b a k)).sequence_length
      < ∑ k ∈ Finset.range 256, freq.getD k 0 *
        (table_entry (code_table buf freq) k).sequence_length :=
    cost_swap_lt (Finset.range 256) (fun k => freq.getD k 0)
      (fun k => (table_entry (code_table buf freq) k).sequence_length) b a
      (Finset.mem_range.mpr hb) (Finset.mem_range.mpr ha) hab hlt'
  have hopt' : table_cost freq (code_table buf freq)
      ≤ ∑ k ∈ Finset.range 256, freq.getD k 0 *
        (table_entry (code_table buf freq) (Equiv.swap b a k)).sequence_length :=
    le_of_le_of_eq hopt hcost
  unfold table_cost at hopt'
  exact absurd (lt_of_le_of_lt hopt' hstrict) (lt_irrefl _)

theorem histogram_sum_eq (freq : List Nat) :
    histogram_sum freq = ∑ b ∈ Finset.range 256, freq.getD b 0 := by
  unfold histogram_sum
  rw [← List.sum_toFinset _ (List.nodup_range 256)]
  apply Finset.sum_congr _ (fun _ _ => rfl)
  ext b
  rw [List.mem_toFinset, List.mem_range, Finset.mem_range]

/-! ## Position of a new item in the ordered list -/

theorem place_loop_eq (l : List TreeNode) (x : TreeNode) :
    place_loop l x = l.takeWhile (fun t => decide (t.weight ≤ x.weight)) ++
      x :: l.dropWhile (fun t => decide (t.weight ≤ x.weight)) := by
  induction l with
  | nil => rfl
  | cons y ys ih =>
    simp only [place_loop]
    by_cases h : y.weight ≤ x.weight
    · rw [if_pos h, List.takeWhile_cons_of_pos (by simpa using h),
        List.dropWhile_cons_of_pos (by simpa using h), ih]
      rfl
    · rw [if_neg h, List.takeWhile_cons_of_neg (by simpa using h),
        List.dropWhile_cons_of_neg (by simpa using h)]
      rfl

theorem place_in_order_eq (l : List TreeNode) (x : TreeNode) :
    place_in_order l x = l.takeWhile (fun t => decide (t.weight ≤ x.weight)) ++
      x :: l.dropWhile (fun t => decide (t.weight ≤ x.weight)) := by
  cases l with
  | nil => rfl
  | cons y ys =>
    simp only [place_in_order]
    by_cases h : x.weight < y.weight
    · have h' : ¬ y.weight ≤ x.weight := by omega
      rw [if_pos h, List.takeWhile_cons_of_neg (by simpa using h'),
        List.dropWhile_cons_of_neg (by simpa using h')]
      rfl
    · have h' : y.weight ≤ x.weight := by omega
      rw [if_neg h, List.takeWhile_cons_of_pos (by simpa using h'),
        List.dropWhile_cons_of_pos (by simpa using h'), place_loop_eq]
      rfl

/-- In a list sorted by weight, the items after the first one heavier than
`x` are all heavier than `x`. -/
theorem dropWhile_heavier (l : List TreeNode) (x : TreeNode)
    (hs : l.Pairwise (fun a b => a.weight ≤ b.weight)) :
    ∀ t ∈ l.dropWhile (fun t => decide (t.weight ≤ x.weight)), x.weight < t.weight := by
  induction l with
  | nil => intro t ht; simp at ht
  | cons y ys ih =>
    rw [List.pairwise_cons] at hs
    by_cases h : y.weight ≤ x.weight
    · rw [List.dropWhile_cons_of_pos (by simpa using h)]
      exact ih hs.2
    · rw [List.dropWhile_cons_of_neg (by simpa using h)]
      intro t ht
      rw [List.mem_cons] at ht
      rcases ht with rfl | ht
      · omega
      · have := hs.1 t ht
        omega

theorem place_in_order_pairwise (l : List TreeNode) (x : TreeNode)
    (hs : l.Pairwise (fun a b => a.weight ≤ b.weight)) :
    (place_in_order l x).Pairwise (fun a b => a.weight ≤ b.weight) := by
  have h1 : (l.map TreeNode.weight).Sorted (· ≤ ·) := by
    unfold List.Sorted
    rw [List.pairwise_map]
    exact hs
  have h2 := place_weight_sorted (l.map TreeNode.weight) x.weight h1
  rw [← place_in_order_map_weight] at h2
  unfold List.Sorted at h2
  rw [List.pairwise_map] at h2
  exact h2

/-! ## The tree of a single byte value -/

theorem present_eq_singleton (freq : List Nat) (b : Nat) (hb : b < 256)
    (hpos : 0 < freq.getD b 0) (hothers : ∀ i, i < 256 → i ≠ b → freq.getD i 0 = 0) :
    present freq = [b] := by
  have hmem : ∀ x, x ∈ present freq ↔ x ∈ [b] := by
    intro x
    rw [mem_present, List.mem_singleton]
    constructor
    · rintro ⟨hx, hx0⟩
      by_contra hne
      have := hothers x hx hne
      omega
    · rintro rfl
      exact ⟨hb, hpos⟩
  have hperm : (present freq).Perm [b] :=
    (List.perm_ext_iff_of_nodup (present_nodup freq) (List.nodup_singleton b)).mpr hmem
  exact List.perm_singleton.mp hperm

theorem construct_single (freq : List Nat) (b : Nat) (hb : b < 256)
    (hpos : 0 < freq.getD b 0) (hlt : freq.getD b 0 < UINT_MOD)
    (hothers : ∀ i, i < 256 → i ≠ b → freq.getD i 0 = 0) :
    construct_huffman_tree freq
      = node 0 (freq.getD b 0) (node b (freq.getD b 0) NULL NULL) NULL := by
  have hp := present_eq_singleton freq b hb hpos hothers
  rcases construct_cases freq with ⟨h1, _⟩ | ⟨b', h1, h2⟩ | ⟨h1, _⟩
  · rw [hp] at h1; simp at h1
  · rw [hp, List.cons.injEq] at h1
    rw [h2, ← h1.1, Nat.mod_eq_of_lt hlt]
  · rw [hp] at h1; simp at h1

/-! ## The header written and read back -/

theorem count_fold_lt (S arr : List Nat) (harr : ∀ x ∈ arr, x < UINT_MOD) :
    ∀ x ∈ S.foldl count_step arr, x < UINT_MOD := by
  induction S generalizing arr with
  | nil => exact harr
  | cons c cs ih =>
    rw [List.foldl_cons]
    apply ih
    intro x hx
    unfold count_step at hx
    rcases List.mem_or_eq_of_mem_set hx with h | h
    · exact harr x h
    · rw [h]; exact Nat.mod_lt _ (by decide)

theorem compute_frequencies_lt (fs : InStream) (prior : List Nat) :
    ∀ x ∈ (compute_frequencies fs prior).2, x < UINT_MOD := by
  unfold compute_frequencies
  apply count_fold_lt
  intro x hx
  rw [List.mem_replicate] at hx
  rw [hx.2]; decide

theorem construct_ne_null_of_source (S : List Nat) (hbytes : ∀ x ∈ S, x < 256) (hne : S ≠ [])
    (hN : S.length < UINT_MOD) :
    construct_huffman_tree (compute_frequencies (fopen_rb S) []).2 ≠ NULL := by
  rw [Ne, construct_eq_null_iff]
  intro h
  obtain ⟨x, hx⟩ := List.exists_mem_of_ne_nil S hne
  have h1 := compute_frequencies_count S [] hbytes x (hbytes x hx)
    (count_lt_of_length_lt S _ x hN)
  have h2 := h x (hbytes x hx)
  have h3 : 0 < S.count x := List.count_pos_iff.mpr hx
  omega

/-- The counters `perform_decompression` reads from a file produced by
`perform_compression` are the histogram of the source. -/
theorem header_counters_compress (buf : List Char) (S : List Nat)
    (hT : construct_huffman_tree (compute_frequencies (fopen_rb S) []).2 ≠ NULL) :
    header_counters (perform_compression buf S).output_file
      = (compute_frequencies (fopen_rb S) []).2 := by
  rw [perform_compression_eq buf S hT]
  unfold header_counters fread_uint fopen_rb InStream.unread
  simp only [List.drop_zero]
  have := read_items_uint_bytes (compute_frequencies (fopen_rb S) []).2
    (write_bits (S.flatMap (fun x => entry_bits
      (table_entry (code_table buf (compute_frequencies (fopen_rb S) []).2)
        (x % 256))))).file_stream (compute_frequencies_lt _ _)
  rw [compute_frequencies_length] at this
  exact this

/-! ## The reading loop of `compute_frequencies` -/

theorem count_step_mod (arr : List Nat) (x : Nat) :
    count_step arr (x % 256) = count_step arr x := by
  unfold count_step
  rw [Nat.mod_mod]

/-- The reading loop counts every unread byte and leaves the stream at its end. -/
theorem count_loop_spec (fuel : Nat) (fs : InStream) (arr : List Nat)
    (hfuel : fs.unread.length ≤ fuel) :
    count_loop fuel fs arr
      = (⟨fs.data, fs.pos + fs.unread.length⟩, fs.unread.foldl count_step arr) := by
  induction fuel generalizing fs arr with
  | zero =>
    have hnil : fs.unread = [] := List.length_eq_zero.mp (Nat.le_zero.mp hfuel)
    rw [hnil]
    rfl
  | succ fuel ih =>
    cases hun : fs.unread with
    | nil =>
      simp only [count_loop, fgetc_of_unread_nil fs hun]
      rfl
    | cons x xs =>
      obtain ⟨h1, h2⟩ := fgetc_of_unread_cons fs x xs hun
      simp only [count_loop, h1]
      rw [ih ⟨fs.data, fs.pos + 1⟩ _ (by rw [h2]; rw [hun] at hfuel; simpa using hfuel), h2,
        count_step_mod, List.foldl_cons, List.length_cons]
      simp only [Nat.add_assoc, Nat.add_comm 1]

/-! ## The layout of the compressed file -/

theorem output_bit_bytes (st : BitWriter) (b : Nat) (h : ∀ x ∈ st.file_stream, x < 256) :
    ∀ x ∈ (output_bit st b).file_stream, x < 256 := by
  unfold output_bit
  simp only
  split
  · intro x hx
    simp only [fputc, List.mem_append, List.mem_singleton] at hx
    rcases hx with hx | hx
    · exact h x hx
    · rw [hx]; exact Nat.mod_lt _ (by decide)
  · exact h

theorem foldl_output_bit_bytes (bits : List Nat) (st : BitWriter)
    (h : ∀ x ∈ st.file_stream, x < 256) :
    ∀ x ∈ (bits.foldl output_bit st).file_stream, x < 256 := by
  induction bits generalizing st with
  | nil => exact h
  | cons b bs ih =>
    rw [List.foldl_cons]
    exact ih _ (output_bit_bytes st b h)

theorem write_bits_bytes (bits : List Nat) :
    ∀ x ∈ (write_bits bits).file_stream, x < 256 := by
  unfold write_bits empty_bit_buffer
  have h := foldl_output_bit_bytes bits ⟨[], 0, 0⟩ (by simp)
  split
  · intro x hx
    simp only [fputc, List.mem_append, List.mem_singleton] at hx
    rcases hx with hx | hx
    · exact h x hx
    · rw [hx]; exact Nat.mod_lt _ (by decide)
  · exact h

theorem entry_bits_length (buf : List Char) (freq : List Nat) (hbuf : buf.length = 256)
    (b : Nat) (hb : b < 256) :
    (entry_bits (table_entry (code_table buf freq) b)).length
      = (table_entry (code_table buf freq) b).sequence_length := by
  obtain ⟨hpos, hzero⟩ := table_entry_spec buf freq hbuf b hb
  by_cases hf : freq.getD b 0 = 0
  · rw [hzero hf]; rfl
  · obtain ⟨p, _, he⟩ := hpos (Nat.pos_of_ne_zero hf)
    rw [he]
    simp [entry_bits]

/-- A sum over the bytes of a source is a sum over the byte values, each
weighted by its number of occurrences. -/
theorem sum_map_eq_sum_count (S : List Nat) (g : Nat → Nat) (hS : ∀ x ∈ S, x < 256) :
    (S.map g).sum = ∑ b ∈ Finset.range 256, S.count b * g b := by
  induction S with
  | nil => simp
  | cons x xs ih =>
    have hx : x < 256 := hS x (by simp)
    rw [List.map_cons, List.sum_cons, ih (fun y hy => hS y (by simp [hy]))]
    have h1 : ∀ b, (x :: xs).count b * g b
        = xs.count b * g b + (if b = x then g b else 0) := by
      intro b
      rw [List.count_cons]
      by_cases h : x = b
      · subst h; simp [Nat.add_mul]
      · have h' : ¬ b = x := fun hh => h hh.symm
        simp [h, h']
    rw [Finset.sum_congr rfl (fun b _ => h1 b), Finset.sum_add_distrib,
      Finset.sum_ite_eq' (Finset.range 256) x g, if_pos (Finset.mem_range.mpr hx)]
    omega

/-! ## The symbol total -/

theorem header_total_eq (compressed : List Nat)
    (hlt : histogram_sum (header_counters compressed) < 2147483648) :
    header_total compressed = (histogram_sum (header_counters compressed) : Int) := by
  unfold header_total histogram_sum at *
  rw [foldl_total_step _ 0 (le_refl _) (by omega)]
  simp

/-! ## Bounds on the decoding loop -/

theorem input_bit_eof (rd : BitReader) :
    (input_bit rd).2.end_of_file = rd.end_of_file ∨ (input_bit rd).2.end_of_file = 1 := by
  unfold input_bit
  by_cases h : rd.bit_counter = 0
  · simp only [if_pos h]
    cases hg : fgetc rd.file_stream with
    | mk o fs =>
      cases o with
      | none => right; rfl
      | some v => left; rfl
  · simp only [if_neg h]
    left; trivial

/-- One execution of the body of the decoding loop, from a state in which no
end of file has been seen. -/
theorem decode_loop_succ (T : TreeNode) (total : Int) (fuel : Nat) (st : DecodeState)
    (h : st.reader.end_of_file = 0) (next : TreeNode)
    (hnext : next = if (input_bit st.reader).1 = 0 then st.current_position.child_left
      else st.current_position.child_right) :
    decode_loop T total (fuel + 1) st =
      if (input_bit st.reader).2.end_of_file ≠ 0 then
        decode_loop T total fuel
          ⟨(input_bit st.reader).2, st.current_position, st.decoded_symbols, st.output_stream⟩
      else if next.is_null then
        LoopResult.null_dereference
          ⟨(input_bit st.reader).2, next, st.decoded_symbols, st.output_stream⟩
      else if next.is_leaf then
        if st.decoded_symbols + 1 ≥ total then
          LoopResult.exited ⟨(input_bit st.reader).2, T, st.decoded_symbols + 1,
            fputc next.character st.output_stream⟩
        else
          decode_loop T total fuel ⟨(input_bit st.reader).2, T, st.decoded_symbols + 1,
            fputc next.character st.output_stream⟩
      else
        decode_loop T total fuel
          ⟨(input_bit st.reader).2, next, st.decoded_symbols, st.output_stream⟩ := by
  have he : ¬ st.reader.end_of_file ≠ 0 := by rw [h]; simp
  rw [decode_loop]
  simp only [if_neg he, ← hnext]

/-- The loop never emits more symbols than the total: it ends with as many
output bytes as symbols counted, at most the total; it has seen the end of
the file exactly when it ends below the total. -/
theorem decode_loop_bound (T : TreeNode) (total : Int) :
    ∀ (fuel : Nat) (st : DecodeState), st.decoded_symbols < total →
      (st.output_stream.length : Int) = st.decoded_symbols →
      (∀ st', decode_loop T total fuel st = LoopResult.exited st' →
        (st'.output_stream.length : Int) = st'.decoded_symbols ∧
        st'.decoded_symbols ≤ total ∧
        (st'.reader.end_of_file = 0 → st'.decoded_symbols = total) ∧
        (st'.reader.end_of_file ≠ 0 → st'.decoded_symbols < total)) ∧
      (∀ st', decode_loop T total fuel st = LoopResult.null_dereference st' →
        (st'.output_stream.length : Int) = st'.decoded_symbols ∧
        st'.decoded_symbols < total) := by
  intro fuel
  induction fuel with
  | zero =>
    intro st hlt hlen
    by_cases he : st.reader.end_of_file ≠ 0
    · rw [decode_loop_exit T total 0 st he]
      refine ⟨?_, ?_⟩
      · intro st' h
        rw [LoopResult.exited.injEq] at h
        subst h
        exact ⟨hlen, le_of_lt hlt, fun h0 => absurd h0 he, fun _ => hlt⟩
      · intro st' h; simp at h
    · rw [decode_loop]
      simp only [if_neg he]
      exact ⟨fun st' h => by simp at h, fun st' h => by simp at h⟩
  | succ fuel ih =>
    intro st hlt hlen
    by_cases he : st.reader.end_of_file ≠ 0
    · rw [decode_loop_exit T total _ st he]
      refine ⟨?_, ?_⟩
      · intro st' h
        rw [LoopResult.exited.injEq] at h
        subst h
        exact ⟨hlen, le_of_lt hlt, fun h0 => absurd h0 he, fun _ => hlt⟩
      · intro st' h; simp at h
    · have he0 : st.reader.end_of_file = 0 := by simpa using he
      obtain ⟨next, hnext⟩ : ∃ next, next = if (input_bit st.reader).1 = 0
          then st.current_position.child_left else st.current_position.child_right :=
        ⟨_, rfl⟩
      rw [decode_loop_succ T total fuel st he0 next hnext]
      by_cases h1 : (input_bit st.reader).2.end_of_file ≠ 0
      · rw [if_pos h1]
        exact ih _ hlt hlen
      · rw [if_neg h1]
        have h1' : (input_bit st.reader).2.end_of_file = 0 := by simpa using h1
        by_cases hnull : next.is_null = true
        · rw [if_pos hnull]
          refine ⟨fun st' h => by simp at h, ?_⟩
          intro st' h
          rw [LoopResult.null_dereference.injEq] at h
          subst h
          exact ⟨hlen, hlt⟩
        · rw [if_neg hnull]
          by_cases hleaf : next.is_leaf = true
          · rw [if_pos hleaf]
            have hlen' : ((fputc next.character st.output_stream).length : Int)
                = st.decoded_symbols + 1 := by
              unfold fputc
              rw [List.length_append, List.length_singleton]
              push_cast
              omega
            by_cases hge : st.decoded_symbols + 1 ≥ total
            · rw [if_pos hge]
              refine ⟨?_, fun st' h => by simp at h⟩
              intro st' h
              rw [LoopResult.exited.injEq] at h
              subst h
              refine ⟨hlen', by simp only; omega, fun _ => by simp only; omega, ?_⟩
              intro hne
              exact absurd h1' hne
            · rw [if_neg hge]
              exact ih _ (by simp only; omega) hlen'
          · rw [if_neg hleaf]
            exact ih _ hlt hlen

/-! ## The decoding loop on a file produced by `perform_compression` -/

/-- The function `perform_decompression` in terms of the run of its loop. -/
theorem perform_decompression_run (compressed : List Nat) :
    perform_decompression compressed =
      if (header_counters compressed).length ≠ 256 then
        ⟨DecompressionOutcome.invalid_format, [], 0, 0⟩
      else if (construct_huffman_tree (header_counters compressed)).is_null = true then
        ⟨DecompressionOutcome.tree_failure, [], 0, 0⟩
      else
        match decode_run compressed with
        | LoopResult.exited st =>
          ⟨DecompressionOutcome.completed, st.output_stream, st.decoded_symbols,
            header_total compressed⟩
        | LoopResult.null_dereference st =>
          ⟨DecompressionOutcome.null_dereference, st.output_stream, st.decoded_symbols,
            header_total compressed⟩
        | LoopResult.fuel_exhausted =>
          ⟨DecompressionOutcome.fuel_exhausted, [], 0, header_total compressed⟩ := rfl

/-- Decoding a run of symbols up to the symbol total leaves the bits that
follow them unread. -/
theorem decode_symbols_pending (T : TreeNode) (total : Int) (codes : Nat → List Char) :
    ∀ (syms : List Nat) (st : DecodeState) (pad : List Nat) (k : Nat), syms ≠ [] →
      (∀ x ∈ syms, (x, codes x) ∈ leaf_paths T ∧ x < 256) → T.is_leaf = false →
      ReaderOK st.reader → st.current_position = T →
      pending st.reader = syms.flatMap (fun x => (codes x).map char_bit) ++ pad →
      st.decoded_symbols + syms.length = total →
      ∃ rd, ReaderOK rd ∧ pending rd = pad ∧
        decode_loop T total
            ((syms.flatMap (fun x => (codes x).map char_bit)).length + k) st
          = LoopResult.exited ⟨rd, T, total, st.output_stream ++ syms⟩ := by
  intro syms
  induction syms with
  | nil => intro st pad k h; exact absurd rfl h
  | cons x xs ih =>
    intro st pad k _ hcodes hT hok hpos hpend htotal
    obtain ⟨hx, hx256⟩ := hcodes x (by simp)
    rw [List.flatMap_cons, List.append_assoc] at hpend
    obtain ⟨d1, d2, d3⟩ := decode_path T total x (codes x) T st _
      ((xs.flatMap (fun x => (codes x).map char_bit)).length + k) hT hx hok hpos hpend
    have hfuel : ((x :: xs).flatMap (fun x => (codes x).map char_bit)).length + k
        = (codes x).length + ((xs.flatMap (fun x => (codes x).map char_bit)).length + k) := by
      rw [List.flatMap_cons, List.length_append, List.length_map]; omega
    have hput : fputc x st.output_stream = st.output_stream ++ [x] := by
      unfold fputc; rw [Nat.mod_eq_of_lt hx256]
    rw [hfuel, d3, hput]
    rw [List.length_cons] at htotal
    by_cases hxs : xs = []
    · subst hxs
      have hdec : st.decoded_symbols + 1 = total := by
        simp at htotal; omega
      have hge : st.decoded_symbols + 1 ≥ total := by omega
      rw [if_pos hge]
      refine ⟨(read_bits (codes x).length st.reader).2, d1, ?_, by rw [hdec]⟩
      rw [d2]; rfl
    · have hpos' : 0 < xs.length := List.length_pos.mpr hxs
      have hge : ¬ st.decoded_symbols + 1 ≥ total := by
        push_cast at htotal; omega
      rw [if_neg hge]
      obtain ⟨rd, hrd1, hrd2, hrd⟩ := ih
        ⟨(read_bits (codes x).length st.reader).2, T, st.decoded_symbols + 1,
          st.output_stream ++ [x]⟩ pad k hxs
        (fun y hy => hcodes y (by simp [hy])) hT d1 rfl d2
        (by push_cast at htotal ⊢; omega)
      refine ⟨rd, hrd1, hrd2, ?_⟩
      rw [hrd]
      simp

/-- On the file `perform_compression` produced for a source, the decoding
loop leaves through its `break` with the source as output and only the
padding bits unread. -/
theorem decode_run_compress (buf : List Char) (S : List Nat) (hbuf : buf.length = 256)
    (hbytes : ∀ x ∈ S, x < 256) (hne : S ≠ []) (hlen : S.length < 2147483648) :
    ∃ rd, ReaderOK rd ∧
      pending rd = List.replicate ((8 - (payload_bits buf S).length % 8) % 8) 0 ∧
      decode_run (perform_compression buf S).output_file
        = LoopResult.exited ⟨rd,
            construct_huffman_tree (compute_frequencies (fopen_rb S) []).2, S.length, S⟩ := by
  unfold payload_bits
  have hN : S.length < UINT_MOD := by unfold UINT_MOD; omega
  have hT0 := construct_ne_null_of_source S hbytes hne hN
  have hhc := header_counters_compress buf S hT0
  have hflen := compute_frequencies_length S []
  have hcount : ∀ b, b < 256 → (compute_frequencies (fopen_rb S) []).2.getD b 0 = S.count b :=
    fun b hb => compute_frequencies_count S [] hbytes b hb (count_lt_of_length_lt S _ b hN)
  have hsum := compute_frequencies_sum S [] hbytes
    (fun b _ => count_lt_of_length_lt S _ b hN)
  have hcomp := perform_compression_eq buf S hT0
  generalize hfreq : (compute_frequencies (fopen_rb S) []).2 = freq at *
  have hpos : ∀ x ∈ S, 0 < freq.getD x 0 := by
    intro x hx
    rw [hcount x (hbytes x hx)]
    exact List.count_pos_iff.mpr hx
  obtain ⟨codes, hcodes⟩ : ∃ codes : Nat → List Char, ∀ x ∈ S,
      (x, codes x) ∈ leaf_paths (construct_huffman_tree freq) ∧
      entry_bits (table_entry (code_table buf freq) (x % 256)) = (codes x).map char_bit := by
    refine ⟨fun x => match (table_entry (code_table buf freq) x).binary_sequence with
      | some code => code
      | none => [], ?_⟩
    intro x hx
    obtain ⟨p, hp, he⟩ := (table_entry_spec buf freq hbuf x (hbytes x hx)).1 (hpos x hx)
    rw [Nat.mod_eq_of_lt (hbytes x hx)]
    simp only [he]
    exact ⟨hp, rfl⟩
  have hbits : S.flatMap (fun x => entry_bits (table_entry (code_table buf freq) (x % 256)))
      = S.flatMap (fun x => (codes x).map char_bit) := by
    apply List.flatMap_congr
    intro x hx
    exact (hcodes x hx).2
  rw [hbits] at hcomp
  have hbits2 : ∀ b ∈ S.flatMap (fun x => (codes x).map char_bit), b < 2 := by
    intro b hb
    rw [List.mem_flatMap] at hb
    obtain ⟨x, _, hx⟩ := hb
    rw [List.mem_map] at hx
    obtain ⟨ch, _, rfl⟩ := hx
    exact char_bit_lt ch
  obtain ⟨hw1, hw2⟩ := write_bits_spec _ hbits2
  have hhlen : (freq.flatMap uint_bytes).length = 1024 := by
    rw [uint_bytes_flatMap_length, hflen]
  have hhist : histogram_sum (header_counters (perform_compression buf S).output_file)
      = S.length := by
    unfold histogram_sum
    rw [hhc, ← hflen, ← list_eq_map_getD, hsum]
  have htot : header_total (perform_compression buf S).output_file = (S.length : Int) := by
    rw [header_total_eq _ (by rw [hhist]; exact hlen), hhist]
  have hstream : payload_stream (perform_compression buf S).output_file
      = ⟨(perform_compression buf S).output_file, 1024⟩ := by
    have hpos1 : 0 + min (4 * 256) (((perform_compression buf S).output_file).drop 0).length
        = 1024 := by
      rw [List.drop_zero, hcomp]
      simp only [List.length_append, hhlen]
      omega
    show (⟨(perform_compression buf S).output_file,
      0 + min (4 * 256) (((perform_compression buf S).output_file).drop 0).length⟩ : InStream)
        = ⟨(perform_compression buf S).output_file, 1024⟩
    rw [hpos1]
  have hunread : (⟨(perform_compression buf S).output_file, 1024⟩ : InStream).unread
      = (write_bits (S.flatMap (fun x => (codes x).map char_bit))).file_stream := by
    unfold InStream.unread
    rw [hcomp]
    simp only
    rw [← hhlen, List.drop_left]
  have hok : ReaderOK (⟨⟨(perform_compression buf S).output_file, 1024⟩, 0, 0, 0⟩ : BitReader) :=
    ⟨rfl, Nat.zero_lt_succ _, Nat.zero_le _⟩
  have hpend : pending (⟨⟨(perform_compression buf S).output_file, 1024⟩, 0, 0, 0⟩ : BitReader)
      = S.flatMap (fun x => (codes x).map char_bit) ++
        List.replicate
          ((8 - (S.flatMap (fun x => (codes x).map char_bit)).length % 8) % 8) 0 := by
    unfold pending
    simp only [List.take_zero, List.nil_append, hunread, hw1]
  have hfuel : 8 * (write_bits (S.flatMap (fun x => (codes x).map char_bit))).file_stream.length
        + 1
      = (S.flatMap (fun x => (codes x).map char_bit)).length +
        ((8 - (S.flatMap (fun x => (codes x).map char_bit)).length % 8) % 8 + 1) := by
    rw [hw2]; omega
  obtain ⟨rd, hrd1, hrd2, hrd⟩ := decode_symbols_pending (construct_huffman_tree freq)
    (S.length : Int) codes S
    ⟨⟨⟨(perform_compression buf S).output_file, 1024⟩, 0, 0, 0⟩,
      construct_huffman_tree freq, 0, []⟩
    (List.replicate ((8 - (S.flatMap (fun x => (codes x).map char_bit)).length % 8) % 8) 0)
    ((8 - (S.flatMap (fun x => (codes x).map char_bit)).length % 8) % 8 + 1) hne
    (fun x hx => ⟨(hcodes x hx).1, hbytes x hx⟩) (construct_not_leaf freq) hok rfl hpend
    (by simp)
  rw [hbits]
  refine ⟨rd, hrd1, hrd2, ?_⟩
  unfold decode_run
  rw [hhc, htot, hstream, hunread, hfuel, hrd]
  simp

/-- The fuel of a run longer than the bits the reader holds is never used up. -/
theorem decode_loop_fuel (T : TreeNode) (total : Int) :
    ∀ (fuel : Nat) (st : DecodeState), ReaderOK st.reader →
      (pending st.reader).length < fuel →
      decode_loop T total fuel st ≠ LoopResult.fuel_exhausted := by
  intro fuel
  induction fuel with
  | zero => intro st _ h; exact absurd h (Nat.not_lt_zero _)
  | succ fuel ih =>
    intro st hok hlen
    obtain ⟨next, hnext⟩ : ∃ next, next = if (input_bit st.reader).1 = 0
        then st.current_position.child_left else st.current_position.child_right := ⟨_, rfl⟩
    rw [decode_loop_succ T total fuel st hok.eof_zero next hnext]
    cases hp : pending st.reader with
    | nil =>
      have hin := input_bit_nil st.reader hok hp
      have he : (input_bit st.reader).2.end_of_file ≠ 0 := by
        rw [hin]; exact Nat.one_ne_zero
      rw [if_pos he, decode_loop_exit T total fuel _ he]
      exact fun h => LoopResult.noConfusion h
    | cons b rest =>
      obtain ⟨_, h2, h3, _⟩ := input_bit_cons st.reader hok b rest hp
      have he : ¬ (input_bit st.reader).2.end_of_file ≠ 0 := by rw [h2.eof_zero]; simp
      have hrest : rest.length < fuel := by
        rw [hp, List.length_cons] at hlen; omega
      rw [if_neg he]
      by_cases hn : next.is_null = true
      · rw [if_pos hn]; exact fun h => LoopResult.noConfusion h
      · rw [if_neg hn]
        by_cases hl : next.is_leaf = true
        · rw [if_pos hl]
          by_cases hge : st.decoded_symbols + 1 ≥ total
          · rw [if_pos hge]; exact fun h => LoopResult.noConfusion h
          · rw [if_neg hge]
            exact ih _ h2 (by rw [h3]; exact hrest)
        · rw [if_neg hl]
          exact ih _ h2 (by rw [h3]; exact hrest)

/-- The loop of `perform_decompression` ends on every file. -/
theorem decode_run_terminates (compressed : List Nat) :
    decode_run compressed ≠ LoopResult.fuel_exhausted := by
  unfold decode_run
  apply decode_loop_fuel
  · exact ⟨rfl, Nat.zero_lt_succ _, Nat.zero_le _⟩
  · unfold pending
    simp only [List.take_zero, List.nil_append]
    have : ∀ l : List Nat, (l.flatMap byte_bits).length = 8 * l.length := by
      intro l
      induction l with
      | nil => rfl
      | cons x xs ih => rw [List.flatMap_cons, List.length_append, ih, byte_bits_length,
          List.length_cons]; omega
    rw [this]; omega

/-- The content of the path buffer before the call has no effect on the
result of `perform_compression`. -/
theorem perform_compression_buffer (buf buf' : List Char) (S : List Nat)
    (hbuf : buf.length = 256) (hbuf' : buf'.length = 256) :
    perform_compression buf S = perform_compression buf' S := by
  have h : ∀ freq, code_table buf freq = code_table buf' freq := by
    intro freq
    rw [code_table_eq buf freq hbuf, code_table_eq buf' freq hbuf']
  unfold perform_compression
  unfold code_table zero_table at h
  simp only [h]

/-- The tree of a histogram whose counters do not sum to zero. -/
theorem construct_ne_null_of_sum (freq : List Nat) (h : 0 < histogram_sum freq) :
    (construct_huffman_tree freq).is_null = false := by
  cases hc : construct_huffman_tree freq with
  | node _ _ _ _ => rfl
  | NULL =>
    rw [construct_eq_null_iff] at hc
    exfalso
    unfold histogram_sum at h
    have hz : ((List.range 256).map (fun b => freq.getD b 0)).sum = 0 := by
      apply List.sum_eq_zero
      intro x hx
      rw [List.mem_map] at hx
      obtain ⟨i, hi, rfl⟩ := hx
      exact hc i (List.mem_range.mp hi)
    omega

theorem read_items_length (n : Nat) (l : List Nat) :
    (read_items n l).length = min n (l.length / 4) := by
  induction n generalizing l with
  | zero => simp [read_items]
  | succ n ih =>
    match l with
    | [] => simp [read_items]
    | [_] => simp [read_items]
    | [_, _] => simp [read_items]
    | [_, _, _] => simp [read_items]
    | b0 :: b1 :: b2 :: b3 :: rest =>
      simp only [read_items, List.length_cons, ih]
      omega

theorem read_items_zero (n : Nat) (p : List Nat) :
    read_items n (List.replicate (4 * n) 0 ++ p) = List.replicate n 0 := by
  induction n with
  | zero => simp [read_items]
  | succ n ih =>
    have : List.replicate (4 * (n + 1)) 0 = 0 :: 0 :: 0 :: 0 :: List.replicate (4 * n) 0 := by
      rw [show 4 * (n + 1) = 4 * n + 1 + 1 + 1 + 1 by ring]
      simp only [List.replicate_succ]
    rw [this]
    simp only [List.cons_append, read_items, List.replicate_succ]
    simp
    exact ih

theorem construct_zero : construct_huffman_tree (List.replicate 256 0) = NULL := by
  rw [construct_eq_null_iff]
  intro i _
  exact getD_replicate_zero 256 i

/-- C8. `perform_compression` on a zero-byte source reports the empty-source
outcome and leaves the result file without a single byte: neither the header
nor any payload byte is written. -/
theorem C8_empty_input (encoding_buffer : List Char) :
    perform_compression encoding_buffer [] = ⟨CompressionOutcome.source_empty, []⟩ := by
  have h : (compute_frequencies (fopen_rb []) []).2 = List.replicate 256 0 := rfl
  unfold perform_compression
  simp only [h, construct_zero, is_null_NULL, if_true]

/-- C9. `construct_huffman_tree` returns NULL exactly when each of the 256
counters is zero, and a root node as soon as one counter is non-zero. -/
theorem C9_null_iff_all_zero (frequency_array : List Nat) :
    (construct_huffman_tree frequency_array = NULL ↔
      ∀ i, i < 256 → frequency_array.getD i 0 = 0) ∧
    ((∃ i, i < 256 ∧ frequency_array.getD i 0 ≠ 0) →
      ∃ c w l r, construct_huffman_tree frequency_array = node c w l r) := by
  refine ⟨construct_eq_null_iff frequency_array, ?_⟩
  rintro ⟨i, hi, hne⟩
  have hnn : construct_huffman_tree frequency_array ≠ NULL := by
    rw [Ne, construct_eq_null_iff]
    intro h
    exact hne (h i hi)
  cases hc : construct_huffman_tree frequency_array with
  | NULL => exact absurd hc hnn
  | node c w l r => exact ⟨c, w, l, r, rfl⟩

/-- C10. `perform_decompression` reports a format error and writes no byte
when the compressed file has fewer than 1024 bytes (the header read is
short), and when the 1024 header bytes are all zero, whatever follows them
(no tree can be built). -/
theorem C10_format_error (compressed payload : List Nat) :
    (compressed.length < 1024 →
      perform_decompression compressed = ⟨DecompressionOutcome.invalid_format, [], 0, 0⟩) ∧
    perform_decompression (List.replicate 1024 0 ++ payload)
      = ⟨DecompressionOutcome.tree_failure, [], 0, 0⟩ ∧
    DecompressionOutcome.invalid_format.is_format_error = true ∧
    DecompressionOutcome.tree_failure.is_format_error = true := by
  refine ⟨?_, ?_, rfl, rfl⟩
  · intro hlen
    have h : (read_items 256 compressed).length ≠ 256 := by
      rw [read_items_length]; omega
    rw [perform_decompression_eq, if_pos h]
  · have h : read_items 256 (List.replicate 1024 0 ++ payload) = List.replicate 256 0 :=
      read_items_zero 256 payload
    rw [perform_decompression_eq, h, if_neg (by rw [List.length_replicate]; exact fun hh => hh rfl),
      construct_zero, is_null_NULL, if_pos rfl]

/-- Witness of C10 on the empty file and on an all-zero header followed by one byte. -/
theorem C10_format_error_witness :
    perform_decompression [] = ⟨DecompressionOutcome.invalid_format, [], 0, 0⟩ ∧
    perform_decompression (List.replicate 1024 0 ++ [7])
      = ⟨DecompressionOutcome.tree_failure, [], 0, 0⟩ :=
  ⟨(C10_format_error [] [7]).1 (by decide), (C10_format_error [] [7]).2.1⟩

/-- C7 (as amended). On a source in which no byte value occurs `2 ^ 32` times
or more (every source of fewer than `2 ^ 32` bytes is one), whatever the
array held before, `compute_frequencies` leaves 256 counters, counter `b` is
the number of occurrences of byte value `b`, the counters add up to the
length of the source, and on the empty source every counter is 0. -/
theorem C7_histogram_counts (S prior : List Nat) (hS : ∀ x ∈ S, x < 256)
    (hN : ∀ b, b < 256 → S.count b < 4294967296) :
    (compute_frequencies (fopen_rb S) prior).2.length = 256 ∧
    (∀ b, b < 256 → (compute_frequencies (fopen_rb S) prior).2.getD b 0 = S.count b) ∧
    (compute_frequencies (fopen_rb S) prior).2.sum = S.length ∧
    (S = [] → ∀ b, b < 256 → (compute_frequencies (fopen_rb S) prior).2.getD b 0 = 0) ∧
    (S.length < 4294967296 → ∀ b, b < 256 → S.count b < 4294967296) := by
  refine ⟨compute_frequencies_length S prior,
    fun b hb => compute_frequencies_count S prior hS b hb (hN b hb),
    compute_frequencies_sum S prior hS hN, ?_,
    fun h b _ => count_lt_of_length_lt S _ b h⟩
  intro hnil b hb
  rw [compute_frequencies_count S prior hS b hb (hN b hb), hnil]
  rfl

/-- Witness of C7 on the source "ABA". -/
theorem C7_histogram_counts_witness :
    (compute_frequencies (fopen_rb [65, 66, 65]) []).2.length = 256 ∧
    (∀ b, b < 256 →
      (compute_frequencies (fopen_rb [65, 66, 65]) []).2.getD b 0 = [65, 66, 65].count b) ∧
    (compute_frequencies (fopen_rb [65, 66, 65]) []).2.sum = [65, 66, 65].length ∧
    (([65, 66, 65] : List Nat) = [] → ∀ b, b < 256 →
      (compute_frequencies (fopen_rb [65, 66, 65]) []).2.getD b 0 = 0) ∧
    (([65, 66, 65] : List Nat).length < 4294967296 →
      ∀ b, b < 256 → ([65, 66, 65] : List Nat).count b < 4294967296) :=
  C7_histogram_counts [65, 66, 65] [] (by decide)
    (fun b _ => count_lt_of_length_lt [65, 66, 65] _ b (by decide))

/-- C7 fails as stated: on a source of `2 ^ 32` bytes, all of value 65, the
counter of 65 has wrapped to 0 although the byte occurs `2 ^ 32` times. -/
theorem C7_counter_wraps :
    (compute_frequencies (fopen_rb (List.replicate 4294967296 65)) []).2.getD 65 0 = 0 ∧
    (List.replicate 4294967296 65).count 65 = 4294967296 ∧
    (List.replicate 4294967296 65).length = 4294967296 := by
  refine ⟨?_, List.count_replicate_self 65 4294967296, List.length_replicate 4294967296 65⟩
  rw [compute_frequencies_getD _ _ 65 (by decide), List.countP_replicate]
  rfl

/-- C6. Writing `N` bits with `output_bit` from a fresh state and flushing
with `empty_bit_buffer` emits `ceil(N / 8)` bytes.  Reading them back with
`input_bit` from a fresh reader state returns the `N` bits in order as the
first `N` bits; all `8 * ceil(N / 8)` bits are readable without an end of
file, they are the `N` bits followed by zeros only, and the next call
reports the end of the file; for `N` a multiple of 8 that is `N` bits. -/
theorem C6_bit_stream_symmetry (bits : List Nat) (hbits : ∀ b ∈ bits, b < 2) :
    (write_bits bits).file_stream.length = (bits.length + 7) / 8 ∧
    (read_bits bits.length (fresh_reader (write_bits bits).file_stream)).1 = bits ∧
    (read_bits (8 * (write_bits bits).file_stream.length)
        (fresh_reader (write_bits bits).file_stream)).1
      = bits ++ List.replicate (8 * (write_bits bits).file_stream.length - bits.length) 0 ∧
    (read_bits (8 * (write_bits bits).file_stream.length)
        (fresh_reader (write_bits bits).file_stream)).2.end_of_file = 0 ∧
    (input_bit (read_bits (8 * (write_bits bits).file_stream.length)
        (fresh_reader (write_bits bits).file_stream)).2).2.end_of_file = 1 ∧
    (bits.length % 8 = 0 → 8 * (write_bits bits).file_stream.length = bits.length) := by
  obtain ⟨hflat, hlen⟩ := write_bits_spec bits hbits
  have hpend : pending (fresh_reader (write_bits bits).file_stream)
      = bits ++ List.replicate ((8 - bits.length % 8) % 8) 0 := by
    rw [pending_fresh, hflat]
  have hplen : (pending (fresh_reader (write_bits bits).file_stream)).length
      = 8 * (write_bits bits).file_stream.length := by
    rw [hpend, List.length_append, List.length_replicate, hlen]; omega
  have hpad : 8 * (write_bits bits).file_stream.length - bits.length
      = (8 - bits.length % 8) % 8 := by
    rw [hlen]; omega
  obtain ⟨a1, _, _⟩ := read_bits_take bits.length _ (fresh_reader_ok _)
    (by rw [hplen, hlen]; omega)
  obtain ⟨b1, b2, b3⟩ := read_bits_take (8 * (write_bits bits).file_stream.length) _
    (fresh_reader_ok (write_bits bits).file_stream) (by rw [hplen])
  refine ⟨hlen, ?_, ?_, b2.eof_zero, ?_, ?_⟩
  · rw [a1, hpend, List.take_left']
    rfl
  · rw [b1, List.take_of_length_le (by rw [hplen]), hpend, hpad]
  · rw [List.drop_eq_nil_of_le (by rw [hplen])] at b3
    rw [input_bit_nil _ b2 b3]
  · intro h8
    rw [hlen]; omega

/-- Witness of C6 on the ten bits 1011001110. -/
theorem C6_bit_stream_symmetry_witness :
    (write_bits [1, 0, 1, 1, 0, 0, 1, 1, 1, 0]).file_stream = [179, 128] ∧
    (read_bits 16 (fresh_reader (write_bits [1, 0, 1, 1, 0, 0, 1, 1, 1, 0]).file_stream)).1
      = [1, 0, 1, 1, 0, 0, 1, 1, 1, 0] ++ List.replicate 6 0 :=
  ⟨by decide, (C6_bit_stream_symmetry [1, 0, 1, 1, 0, 0, 1, 1, 1, 0] (by decide)).2.2.1⟩

/-- C2. In the code table that `create_encodings` fills from the tree of a
histogram, the entry of a byte value is populated exactly when its count is
non-zero; a populated entry carries that byte value and the length of its
string, and walking its bits from the root (0 to the left child, 1 to the
right child) ends on a leaf holding that byte value. -/
theorem C2_code_table_complete (encoding_buffer : List Char) (frequency_array : List Nat)
    (hbuf : encoding_buffer.length = 256) (b : Nat) (hb : b < 256) :
    ((table_entry (code_table encoding_buffer frequency_array) b).binary_sequence ≠ none ↔
      frequency_array.getD b 0 ≠ 0) ∧
    ∀ code, (table_entry (code_table encoding_buffer frequency_array) b).binary_sequence
        = some code →
      (table_entry (code_table encoding_buffer frequency_array) b).character = b ∧
      (table_entry (code_table encoding_buffer frequency_array) b).sequence_length
        = code.length ∧
      ∃ w, walk (construct_huffman_tree frequency_array) (code.map char_bit)
        = node b w NULL NULL := by
  obtain ⟨hpos, hzero⟩ := table_entry_spec encoding_buffer frequency_array hbuf b hb
  by_cases hf : frequency_array.getD b 0 = 0
  · rw [hzero hf]
    refine ⟨⟨fun h => absurd rfl h, fun h => absurd hf h⟩, ?_⟩
    intro code hcode
    simp [EncodingRecord.zero] at hcode
  · obtain ⟨p, hp, he⟩ := hpos (Nat.pos_of_ne_zero hf)
    rw [he]
    refine ⟨⟨fun _ => hf, fun _ => Option.some_ne_none p⟩, ?_⟩
    intro code hcode
    simp only [Option.some.injEq] at hcode
    subst hcode
    exact ⟨rfl, rfl, walk_leaf_path _ b p hp⟩

/-- Witness of C2 on the histogram A:5, B:2, C:1 and the byte value B. -/
theorem C2_code_table_complete_witness :
    (table_entry (code_table (List.replicate 256 'x')
        (List.replicate 65 0 ++ [5, 2, 1] ++ List.replicate 188 0)) 66).binary_sequence
      = some ['0', '1'] ∧
    ∃ w, walk (construct_huffman_tree
        (List.replicate 65 0 ++ [5, 2, 1] ++ List.replicate 188 0)) [0, 1]
      = node 66 w NULL NULL :=
  ⟨by decide!,
   ((C2_code_table_complete (List.replicate 256 'x')
      (List.replicate 65 0 ++ [5, 2, 1] ++ List.replicate 188 0)
      (List.length_replicate 256 'x') 66 (by decide)).2 ['0', '1'] (by decide!)).2.2⟩

/-- C3. For any histogram, the strings of two different byte values that both
have a populated entry in the generated code table are different and neither
is a prefix of the other. -/
theorem C3_prefix_free (encoding_buffer : List Char) (frequency_array : List Nat)
    (hbuf : encoding_buffer.length = 256) (a b : Nat) (ha : a < 256) (hb : b < 256)
    (hab : a ≠ b) (code_a code_b : List Char)
    (hca : (table_entry (code_table encoding_buffer frequency_array) a).binary_sequence
      = some code_a)
    (hcb : (table_entry (code_table encoding_buffer frequency_array) b).binary_sequence
      = some code_b) :
    ¬ code_a <+: code_b ∧ ¬ code_b <+: code_a ∧ code_a ≠ code_b := by
  have key : ∀ x, x < 256 → ∀ cx,
      (table_entry (code_table encoding_buffer frequency_array) x).binary_sequence = some cx →
      (x, cx) ∈ leaf_paths (construct_huffman_tree frequency_array) := by
    intro x hx cx hcx
    obtain ⟨hpos, hzero⟩ := table_entry_spec encoding_buffer frequency_array hbuf x hx
    by_cases hf : frequency_array.getD x 0 = 0
    · rw [hzero hf] at hcx
      simp [EncodingRecord.zero] at hcx
    · obtain ⟨p, hp, he⟩ := hpos (Nat.pos_of_ne_zero hf)
      rw [he] at hcx
      simp only [Option.some.injEq] at hcx
      subst hcx
      exact hp
  have hpw := leaf_paths_prefix_free (construct_huffman_tree frequency_array)
  have hsymm : Symmetric (fun x y : Nat × List Char => ¬ x.2 <+: y.2 ∧ ¬ y.2 <+: x.2) :=
    fun x y h => ⟨h.2, h.1⟩
  have := hpw.forall hsymm (key a ha code_a hca) (key b hb code_b hcb)
    (by intro h; exact hab (congrArg Prod.fst h))
  refine ⟨this.1, this.2, ?_⟩
  intro h
  exact this.1 (h ▸ List.prefix_refl _)

/-- Witness of C3 on the histogram A:5, B:2, C:1 and the byte values A and B. -/
theorem C3_prefix_free_witness :
    ¬ ['1'] <+: ['0', '1'] ∧ ¬ ['0', '1'] <+: ['1'] ∧ ['1'] ≠ ['0', '1'] :=
  C3_prefix_free (List.replicate 256 'x')
    (List.replicate 65 0 ++ [5, 2, 1] ++ List.replicate 188 0)
    (List.length_replicate 256 'x') 65 66
    (by decide) (by decide) (by decide) ['1'] ['0', '1'] (by decide!) (by decide!)

/-- C1. For every source of at least one byte and fewer than `2 ^ 31` bytes
(sources with a single distinct byte value included), `perform_compression`
completes, and `perform_decompression` run on the file it produced completes
and writes exactly the bytes of the source, in the same number and order. -/
theorem C1_round_trip (encoding_buffer : List Char) (S : List Nat)
    (hbuf : encoding_buffer.length = 256) (hbytes : ∀ x ∈ S, x < 256) (hne : S ≠ [])
    (hlen : S.length < 2147483648) :
    (perform_compression encoding_buffer S).outcome = CompressionOutcome.completed ∧
    perform_decompression (perform_compression encoding_buffer S).output_file
      = ⟨DecompressionOutcome.completed, S, S.length, S.length⟩ :=
  round_trip encoding_buffer S hbuf hbytes hne hlen

/-- Witness of C1 on the source "ABA" and on the source "AAAA" of a single
distinct byte value. -/
theorem C1_round_trip_witness :
    perform_decompression (perform_compression (List.replicate 256 'x') [65, 66, 65]).output_file
      = ⟨DecompressionOutcome.completed, [65, 66, 65], 3, 3⟩ ∧
    perform_decompression
        (perform_compression (List.replicate 256 'x') [65, 65, 65, 65]).output_file
      = ⟨DecompressionOutcome.completed, [65, 65, 65, 65], 4, 4⟩ :=
  ⟨(C1_round_trip (List.replicate 256 'x') [65, 66, 65] (List.length_replicate 256 'x')
      (by decide) (by decide) (by decide)).2,
   (C1_round_trip (List.replicate 256 'x') [65, 65, 65, 65] (List.length_replicate 256 'x')
      (by decide) (by decide) (by decide)).2⟩

/-- C4. For every histogram with at least two non-zero counters whose sum is
below `2 ^ 32`, the generated code table attains the least total encoded
length (the sum over the byte values of count times code length) among the
prefix-free binary codes on the byte values with a non-zero count: its own
bit strings are such a code, of that cost, no such code costs less, and no
tree whose leaves are those byte values has a smaller weighted path length
than the constructed tree. -/
theorem C4_optimal (encoding_buffer : List Char) (frequency_array : List Nat)
    (hbuf : encoding_buffer.length = 256)
    (hsum : histogram_sum frequency_array < 4294967296)
    (h2 : 2 ≤ (present frequency_array).length) :
    (∀ code : Nat → List Bool,
      (∀ a ∈ present frequency_array, ∀ b ∈ present frequency_array, a ≠ b →
        ¬ code a <+: code b) →
      table_cost frequency_array (code_table encoding_buffer frequency_array)
        ≤ code_cost frequency_array code) ∧
    (∀ a ∈ present frequency_array, ∀ b ∈ present frequency_array, a ≠ b →
      ¬ entry_code (table_entry (code_table encoding_buffer frequency_array) a)
        <+: entry_code (table_entry (code_table encoding_buffer frequency_array) b)) ∧
    code_cost frequency_array
        (fun b => entry_code (table_entry (code_table encoding_buffer frequency_array) b))
      = table_cost frequency_array (code_table encoding_buffer frequency_array) ∧
    table_cost frequency_array (code_table encoding_buffer frequency_array)
      = path_cost frequency_array (construct_huffman_tree frequency_array) ∧
    (∀ t : TreeNode, (leaf_chars t).Perm (present frequency_array) →
      path_cost frequency_array (construct_huffman_tree frequency_array)
        ≤ path_cost frequency_array t) := by
  have hsum' : ∑ b ∈ Finset.range 256, frequency_array.getD b 0 < UINT_MOD := by
    rw [← histogram_sum_eq]; exact hsum
  have hopt := huffman_optimal encoding_buffer frequency_array hbuf hsum' h2
  refine ⟨hopt, ?_, ?_, table_cost_eq encoding_buffer frequency_array hbuf, ?_⟩
  · intro a ha b hb hab
    exact entry_code_prefix_free encoding_buffer frequency_array hbuf a b ha hb hab
  · unfold code_cost table_cost
    apply Finset.sum_congr rfl
    intro b hb
    rw [entry_code_length encoding_buffer frequency_array hbuf b (Finset.mem_range.mp hb)]
  · intro t ht
    obtain ⟨hpf, hcost⟩ := tree_code_spec frequency_array t ht
    rw [← table_cost_eq encoding_buffer frequency_array hbuf, ← hcost]
    exact hopt (tree_code t) hpf

/-- Witness of C4 on the histogram A:5, B:2, C:1 against the code that gives
two bits to each of the three byte values. -/
theorem C4_optimal_witness :
    table_cost (List.replicate 65 0 ++ [5, 2, 1] ++ List.replicate 188 0)
        (code_table (List.replicate 256 'x')
          (List.replicate 65 0 ++ [5, 2, 1] ++ List.replicate 188 0))
      ≤ code_cost (List.replicate 65 0 ++ [5, 2, 1] ++ List.replicate 188 0)
        (fun b => if b = 65 then [false, false] else if b = 66 then [false, true]
          else [true, false]) :=
  (C4_optimal (List.replicate 256 'x')
    (List.replicate 65 0 ++ [5, 2, 1] ++ List.replicate 188 0)
    (List.length_replicate 256 'x') (by decide!) (by decide!)).1 _ (by decide!)

/-- C5. For every histogram whose counters sum to less than `2 ^ 32` and any
two byte values `a` and `b` with `count a > count b > 0`, the code length of
`a` in the generated table is at most the code length of `b`. -/
theorem C5_heavier_not_longer (encoding_buffer : List Char) (frequency_array : List Nat)
    (hbuf : encoding_buffer.length = 256)
    (hsum : histogram_sum frequency_array < 4294967296) (a b : Nat) (ha : a < 256)
    (hb : b < 256) (hab : frequency_array.getD b 0 < frequency_array.getD a 0)
    (hb0 : 0 < frequency_array.getD b 0) :
    (table_entry (code_table encoding_buffer frequency_array) a).sequence_length
      ≤ (table_entry (code_table encoding_buffer frequency_array) b).sequence_length :=
  heavier_not_longer encoding_buffer frequency_array hbuf
    (by rw [← histogram_sum_eq]; exact hsum) a b ha hb hab hb0

/-- Witness of C5 on the histogram A:5, B:2, C:1:
`length A ≤ length B ≤ length C`. -/
theorem C5_heavier_not_longer_witness :
    (table_entry (code_table (List.replicate 256 'x')
        (List.replicate 65 0 ++ [5, 2, 1] ++ List.replicate 188 0)) 65).sequence_length
      ≤ (table_entry (code_table (List.replicate 256 'x')
        (List.replicate 65 0 ++ [5, 2, 1] ++ List.replicate 188 0)) 66).sequence_length ∧
    (table_entry (code_table (List.replicate 256 'x')
        (List.replicate 65 0 ++ [5, 2, 1] ++ List.replicate 188 0)) 66).sequence_length
      ≤ (table_entry (code_table (List.replicate 256 'x')
        (List.replicate 65 0 ++ [5, 2, 1] ++ List.replicate 188 0)) 67).sequence_length :=
  ⟨C5_heavier_not_longer (List.replicate 256 'x')
      (List.replicate 65 0 ++ [5, 2, 1] ++ List.replicate 188 0)
      (List.length_replicate 256 'x') (by decide!) 65 66 (by decide) (by decide)
      (by decide!) (by decide!),
   C5_heavier_not_longer (List.replicate 256 'x')
      (List.replicate 65 0 ++ [5, 2, 1] ++ List.replicate 188 0)
      (List.length_replicate 256 'x') (by decide!) 66 67 (by decide) (by decide)
      (by decide!) (by decide!)⟩

/-- C20. If the list is sorted ascending by node weight, `place_in_order`
splits it into the items before and the items after the new one without
reordering them: every item before the new one has a weight at most that of the
new item, every item after it a greater weight, and the list is sorted again. -/
theorem C20_sorted_stable (list_head : List TreeNode) (new_item : TreeNode)
    (hsorted : list_head.Pairwise (fun a b => a.weight ≤ b.weight)) :
    ∃ before after, list_head = before ++ after ∧
      place_in_order list_head new_item = before ++ new_item :: after ∧
      (∀ t ∈ before, t.weight ≤ new_item.weight) ∧
      (∀ t ∈ after, new_item.weight < t.weight) ∧
      (place_in_order list_head new_item).Pairwise (fun a b => a.weight ≤ b.weight) := by
  refine ⟨list_head.takeWhile (fun t => decide (t.weight ≤ new_item.weight)),
    list_head.dropWhile (fun t => decide (t.weight ≤ new_item.weight)),
    (List.takeWhile_append_dropWhile _ _).symm, place_in_order_eq list_head new_item, ?_,
    dropWhile_heavier list_head new_item hsorted,
    place_in_order_pairwise list_head new_item hsorted⟩
  intro t ht
  have := List.mem_takeWhile_imp ht
  simpa using this

/-- Witness of C20: a node of weight 2 placed into the list of the leaves
C:1, B:2, A:5 goes after B and before A. -/
theorem C20_sorted_stable_witness :
    [node 67 1 NULL NULL, node 66 2 NULL NULL, node 65 5 NULL NULL].Pairwise
        (fun a b => a.weight ≤ b.weight) ∧
    place_in_order [node 67 1 NULL NULL, node 66 2 NULL NULL, node 65 5 NULL NULL]
        (node 0 2 NULL NULL)
      = [node 67 1 NULL NULL, node 66 2 NULL NULL, node 0 2 NULL NULL, node 65 5 NULL NULL] ∧
    ∃ before after,
      [node 67 1 NULL NULL, node 66 2 NULL NULL, node 65 5 NULL NULL] = before ++ after ∧
      place_in_order [node 67 1 NULL NULL, node 66 2 NULL NULL, node 65 5 NULL NULL]
          (node 0 2 NULL NULL) = before ++ node 0 2 NULL NULL :: after ∧
      (∀ t ∈ before, t.weight ≤ (node 0 2 NULL NULL).weight) ∧
      (∀ t ∈ after, (node 0 2 NULL NULL).weight < t.weight) ∧
      (place_in_order [node 67 1 NULL NULL, node 66 2 NULL NULL, node 65 5 NULL NULL]
          (node 0 2 NULL NULL)).Pairwise (fun a b => a.weight ≤ b.weight) :=
  ⟨by decide, by decide,
    C20_sorted_stable [node 67 1 NULL NULL, node 66 2 NULL NULL, node 65 5 NULL NULL]
      (node 0 2 NULL NULL) (by decide)⟩

/-- C18. The function `compute_frequencies` is its counting loop, which leaves
the read position at the end of the file, followed by `rewind`: whatever the
position and the array were before the call, the position after it is 0 and the
bytes of the file are the same, so every byte of the file is still to be read,
in the order of the file; on a freshly opened source these are the bytes the
counting loop has read. -/
theorem C18_rewind (file_stream : InStream) (frequency_array : List Nat) :
    compute_frequencies file_stream frequency_array
      = (rewind (count_loop file_stream.unread.length file_stream (List.replicate 256 0)).1,
         (count_loop file_stream.unread.length file_stream (List.replicate 256 0)).2) ∧
    (count_loop file_stream.unread.length file_stream (List.replicate 256 0)).1.pos
      = file_stream.pos + file_stream.unread.length ∧
    (compute_frequencies file_stream frequency_array).1.pos = 0 ∧
    (compute_frequencies file_stream frequency_array).1.data = file_stream.data ∧
    (compute_frequencies file_stream frequency_array).1.unread = file_stream.data ∧
    ∀ source : List Nat,
      (compute_frequencies (fopen_rb source) frequency_array).1.unread
        = (fopen_rb source).unread := by
  rw [count_loop_spec _ file_stream _ (le_refl _)]
  refine ⟨rfl, rfl, rfl, rfl, ?_, ?_⟩
  · unfold compute_frequencies rewind InStream.unread
    exact List.drop_zero _
  · intro source
    rfl

/-- C19. When the source path cannot be opened for reading,
`perform_compression` and `perform_decompression` return after the error
message without opening the destination: the file system is the one before the
call, at the destination path as everywhere else. -/
theorem C19_io_error (fs : FileSystem) (encoding_buffer : List Char)
    (source_filename result_filename : String)
    (hfail : fs.opens_rb source_filename = false) :
    perform_compression_at fs encoding_buffer source_filename result_filename
      = (fs, Report.source_not_opened) ∧
    perform_decompression_at fs source_filename result_filename
      = (fs, Report.source_not_opened) := by
  unfold perform_compression_at perform_decompression_at
  rw [if_pos hfail, if_pos hfail]
  exact ⟨rfl, rfl⟩

/-- Witness of C19: a file system in which only the destination exists; its
three bytes are still there after both calls. -/
theorem C19_io_error_witness :
    FileSystem.opens_rb
        ⟨fun p => if p = "out" then some [1, 2, 3] else none, fun _ => true, fun _ => true⟩
        "in" = false ∧
    ((perform_compression_at
        ⟨fun p => if p = "out" then some [1, 2, 3] else none, fun _ => true, fun _ => true⟩
        (List.replicate 256 'x') "in" "out").1.content "out" = some [1, 2, 3] ∧
     (perform_decompression_at
        ⟨fun p => if p = "out" then some [1, 2, 3] else none, fun _ => true, fun _ => true⟩
        "in" "out").1.content "out" = some [1, 2, 3]) :=
  ⟨by decide,
    by
      have h := C19_io_error
        ⟨fun p => if p = "out" then some [1, 2, 3] else none, fun _ => true, fun _ => true⟩
        (List.replicate 256 'x') "in" "out" (by decide)
      rw [h.1, h.2]
      exact ⟨by decide, by decide⟩⟩

/-- C15. For the histogram A (65) = 5, B (66) = 2, C (67) = 1, all other
counters zero, `construct_huffman_tree` forms the list C, B, A; the first
merge makes the node of weight 3 with C as left and B as right child and
places it before A; the second merge makes the root of weight 8 with that node
as left and A as right child, which is the tree returned. -/
theorem C15_scenario_C :
    leaf_list (List.replicate 65 0 ++ [5, 2, 1] ++ List.replicate 188 0)
      = ([node 67 1 NULL NULL, node 66 2 NULL NULL, node 65 5 NULL NULL], 3) ∧
    merge_loop 1 [node 67 1 NULL NULL, node 66 2 NULL NULL, node 65 5 NULL NULL]
      = [node 0 3 (node 67 1 NULL NULL) (node 66 2 NULL NULL), node 65 5 NULL NULL] ∧
    merge_loop 1 [node 0 3 (node 67 1 NULL NULL) (node 66 2 NULL NULL), node 65 5 NULL NULL]
      = [node 0 8 (node 0 3 (node 67 1 NULL NULL) (node 66 2 NULL NULL))
          (node 65 5 NULL NULL)] ∧
    construct_huffman_tree (List.replicate 65 0 ++ [5, 2, 1] ++ List.replicate 188 0)
      = node 0 8 (node 0 3 (node 67 1 NULL NULL) (node 66 2 NULL NULL))
          (node 65 5 NULL NULL) :=
  ⟨by decide!, by decide!, by decide!, by decide!⟩

/-- C13. For a histogram whose only non-zero counter is the one of byte value
`b`, with count `c`, `construct_huffman_tree` returns an internal root of
weight `c` whose left child is the leaf of `b` with weight `c` and whose right
child is NULL; in the code table the entry of `b` holds the string "0" of
length 1 and every other entry is left without a string. -/
theorem C13_single_symbol (encoding_buffer : List Char) (frequency_array : List Nat)
    (b c : Nat) (hbuf : encoding_buffer.length = 256) (hb : b < 256)
    (hc : frequency_array.getD b 0 = c) (hpos : 0 < c) (hlt : c < 4294967296)
    (hothers : ∀ i, i < 256 → i ≠ b → frequency_array.getD i 0 = 0) :
    construct_huffman_tree frequency_array = node 0 c (node b c NULL NULL) NULL ∧
    table_entry (code_table encoding_buffer frequency_array) b = ⟨b, some ['0'], 1⟩ ∧
    ∀ i, i < 256 → i ≠ b →
      table_entry (code_table encoding_buffer frequency_array) i = EncodingRecord.zero ∧
      (table_entry (code_table encoding_buffer frequency_array) i).binary_sequence = none := by
  have hT := construct_single frequency_array b hb (by rw [hc]; exact hpos)
    (by rw [hc]; exact hlt) hothers
  rw [hc] at hT
  refine ⟨hT, ?_, ?_⟩
  · obtain ⟨p, hp, he⟩ := (table_entry_spec encoding_buffer frequency_array hbuf b hb).1
      (by rw [hc]; exact hpos)
    rw [hT, leaf_paths_inner 0 c (node b c NULL NULL) NULL rfl, leaf_paths_leaf] at hp
    simp [leaf_paths] at hp
    rw [he, hp]
    rfl
  · intro i hi hne
    have hz := (table_entry_spec encoding_buffer frequency_array hbuf i hi).2 (hothers i hi hne)
    rw [hz]
    exact ⟨rfl, rfl⟩

/-- Witness of C13 on the histogram whose only non-zero counter is A (65) = 4. -/
theorem C13_single_symbol_witness :
    construct_huffman_tree (List.replicate 65 0 ++ [4] ++ List.replicate 190 0)
      = node 0 4 (node 65 4 NULL NULL) NULL ∧
    table_entry (code_table (List.replicate 256 'x')
      (List.replicate 65 0 ++ [4] ++ List.replicate 190 0)) 65 = ⟨65, some ['0'], 1⟩ ∧
    ∀ i, i < 256 → i ≠ 65 →
      table_entry (code_table (List.replicate 256 'x')
        (List.replicate 65 0 ++ [4] ++ List.replicate 190 0)) i = EncodingRecord.zero ∧
      (table_entry (code_table (List.replicate 256 'x')
        (List.replicate 65 0 ++ [4] ++ List.replicate 190 0)) i).binary_sequence = none :=
  C13_single_symbol (List.replicate 256 'x')
    (List.replicate 65 0 ++ [4] ++ List.replicate 190 0) 65 4
    (List.length_replicate 256 'x') (by decide) (by decide!) (by decide) (by decide)
    (by decide!)

/-- C16. For every source of at least one byte and fewer than `2 ^ 32` bytes,
the 256 counters `perform_decompression` reads from the head of the file
`perform_compression` wrote are the histogram `compute_frequencies` produced
for the source; so `construct_huffman_tree` returns the same tree in both
calls, with the same leaves on the same paths, and the code table filled from
it is the same, whatever the path buffers held. -/
theorem C16_same_tree (encoding_buffer other_buffer : List Char) (S : List Nat)
    (hbuf : encoding_buffer.length = 256) (hother : other_buffer.length = 256)
    (hbytes : ∀ x ∈ S, x < 256) (hne : S ≠ []) (hlen : S.length < 4294967296) :
    header_counters (perform_compression encoding_buffer S).output_file
      = (compute_frequencies (fopen_rb S) []).2 ∧
    (header_counters (perform_compression encoding_buffer S).output_file).length = 256 ∧
    construct_huffman_tree (header_counters (perform_compression encoding_buffer S).output_file)
      = construct_huffman_tree (compute_frequencies (fopen_rb S) []).2 ∧
    leaf_paths (construct_huffman_tree
        (header_counters (perform_compression encoding_buffer S).output_file))
      = leaf_paths (construct_huffman_tree (compute_frequencies (fopen_rb S) []).2) ∧
    code_table other_buffer (header_counters (perform_compression encoding_buffer S).output_file)
      = code_table encoding_buffer (compute_frequencies (fopen_rb S) []).2 := by
  have h := header_counters_compress encoding_buffer S
    (construct_ne_null_of_source S hbytes hne hlen)
  rw [h]
  refine ⟨rfl, compute_frequencies_length S [], rfl, rfl, ?_⟩
  rw [code_table_eq other_buffer _ hother, code_table_eq encoding_buffer _ hbuf]

/-- Witness of C16 on the source "ABAC". -/
theorem C16_same_tree_witness :
    header_counters (perform_compression (List.replicate 256 'x') [65, 66, 65, 67]).output_file
      = (compute_frequencies (fopen_rb [65, 66, 65, 67]) []).2 ∧
    code_table (List.replicate 256 'y')
        (header_counters
          (perform_compression (List.replicate 256 'x') [65, 66, 65, 67]).output_file)
      = code_table (List.replicate 256 'x')
        (compute_frequencies (fopen_rb [65, 66, 65, 67]) []).2 :=
  have h := C16_same_tree (List.replicate 256 'x') (List.replicate 256 'y') [65, 66, 65, 67]
    (List.length_replicate 256 'x') (List.length_replicate 256 'y') (by decide) (by decide)
    (by decide)
  ⟨h.1, h.2.2.2.2⟩

/-- C12. For every source `S` of at least one byte and fewer than `2 ^ 32`
bytes, the file `perform_compression` writes is the header of 1024 bytes, the
four bytes of the count of each byte value in the order 0..255, followed by
the payload; the bits of the payload bytes, most significant first, are the
table codes of the bytes of `S` in input order followed by the zero bits that
fill the last byte; the number `L` of code bits is the sum over the byte
values of count times code length, and the file has `1024 + ⌈L / 8⌉` bytes. -/
theorem C12_on_disk_format (encoding_buffer : List Char) (S : List Nat)
    (hbuf : encoding_buffer.length = 256) (hbytes : ∀ x ∈ S, x < 256) (hne : S ≠ [])
    (hlen : S.length < 4294967296) :
    (perform_compression encoding_buffer S).outcome = CompressionOutcome.completed ∧
    ∃ payload,
      (perform_compression encoding_buffer S).output_file
        = (List.range 256).flatMap (fun b => uint_bytes (S.count b)) ++ payload ∧
      ((List.range 256).flatMap (fun b => uint_bytes (S.count b))).length = 1024 ∧
      (∀ x ∈ payload, x < 256) ∧
      payload.flatMap byte_bits = payload_bits encoding_buffer S ++
        List.replicate ((8 - (payload_bits encoding_buffer S).length % 8) % 8) 0 ∧
      (payload_bits encoding_buffer S).length
        = ∑ b ∈ Finset.range 256, S.count b *
            (table_entry (code_table encoding_buffer
              (compute_frequencies (fopen_rb S) []).2) b).sequence_length ∧
      payload.length = ((payload_bits encoding_buffer S).length + 7) / 8 ∧
      (perform_compression encoding_buffer S).output_file.length
        = 1024 + ((payload_bits encoding_buffer S).length + 7) / 8 := by
  have hN : S.length < UINT_MOD := hlen
  have hT0 := construct_ne_null_of_source S hbytes hne hN
  have hcomp := perform_compression_eq encoding_buffer S hT0
  have hflen := compute_frequencies_length S []
  have hfreq : (compute_frequencies (fopen_rb S) []).2 = (List.range 256).map (fun b => S.count b) := by
    rw [list_eq_map_getD (compute_frequencies (fopen_rb S) []).2, hflen]
    apply List.map_congr_left
    intro b hb
    exact compute_frequencies_count S [] hbytes b (List.mem_range.mp hb)
      (count_lt_of_length_lt S _ b hN)
  have hflat : ∀ (l : List Nat) (f : Nat → Nat),
      (l.map f).flatMap uint_bytes = l.flatMap (fun b => uint_bytes (f b)) := by
    intro l f
    induction l with
    | nil => rfl
    | cons x xs ih => rw [List.map_cons, List.flatMap_cons, List.flatMap_cons, ih]
  have hhead : (compute_frequencies (fopen_rb S) []).2.flatMap uint_bytes
      = (List.range 256).flatMap (fun b => uint_bytes (S.count b)) := by
    rw [hfreq, hflat]
  have hhlen : ((List.range 256).flatMap (fun b => uint_bytes (S.count b))).length = 1024 := by
    rw [← hhead, uint_bytes_flatMap_length, hflen]
  have hbits2 : ∀ b ∈ payload_bits encoding_buffer S, b < 2 := by
    intro b hb
    unfold payload_bits at hb
    rw [List.mem_flatMap] at hb
    obtain ⟨x, _, hx⟩ := hb
    exact entry_bits_lt _ b hx
  obtain ⟨hw1, hw2⟩ := write_bits_spec _ hbits2
  have hout : (perform_compression encoding_buffer S).output_file
      = (List.range 256).flatMap (fun b => uint_bytes (S.count b)) ++
        (write_bits (payload_bits encoding_buffer S)).file_stream := by
    rw [hcomp, ← hhead]
    rfl
  refine ⟨by rw [hcomp], (write_bits (payload_bits encoding_buffer S)).file_stream, hout, hhlen,
    write_bits_bytes _, hw1, ?_, hw2, ?_⟩
  · have hlenf : ∀ (l : List Nat) (f : Nat → List Nat),
        (l.flatMap f).length = (l.map (fun x => (f x).length)).sum := by
      intro l f
      induction l with
      | nil => rfl
      | cons x xs ih => rw [List.flatMap_cons, List.length_append, ih, List.map_cons,
          List.sum_cons]
    unfold payload_bits
    rw [hlenf, sum_map_eq_sum_count S _ hbytes]
    apply Finset.sum_congr rfl
    intro b hb
    have hb256 : b < 256 := Finset.mem_range.mp hb
    show S.count b * _ = _
    rw [Nat.mod_eq_of_lt hb256, entry_bits_length encoding_buffer _ hbuf b hb256]
  · rw [hout, List.length_append, hhlen, hw2]

/-- Witness of C12 on the source "ABAC". -/
theorem C12_on_disk_format_witness :
    (perform_compression (List.replicate 256 'x') [65, 66, 65, 67]).outcome
      = CompressionOutcome.completed ∧
    ∃ payload,
      (perform_compression (List.replicate 256 'x') [65, 66, 65, 67]).output_file
        = (List.range 256).flatMap (fun b => uint_bytes ([65, 66, 65, 67].count b)) ++ payload ∧
      ((List.range 256).flatMap (fun b => uint_bytes ([65, 66, 65, 67].count b))).length
        = 1024 ∧
      (∀ x ∈ payload, x < 256) ∧
      payload.flatMap byte_bits = payload_bits (List.replicate 256 'x') [65, 66, 65, 67] ++
        List.replicate
          ((8 - (payload_bits (List.replicate 256 'x') [65, 66, 65, 67]).length % 8) % 8) 0 ∧
      (payload_bits (List.replicate 256 'x') [65, 66, 65, 67]).length
        = ∑ b ∈ Finset.range 256, [65, 66, 65, 67].count b *
            (table_entry (code_table (List.replicate 256 'x')
              (compute_frequencies (fopen_rb [65, 66, 65, 67]) []).2) b).sequence_length ∧
      payload.length = ((payload_bits (List.replicate 256 'x') [65, 66, 65, 67]).length + 7) / 8 ∧
      (perform_compression (List.replicate 256 'x') [65, 66, 65, 67]).output_file.length
        = 1024 + ((payload_bits (List.replicate 256 'x') [65, 66, 65, 67]).length + 7) / 8 :=
  C12_on_disk_format (List.replicate 256 'x') [65, 66, 65, 67]
    (List.length_replicate 256 'x') (by decide) (by decide) (by decide)

/-- C14. On the source "AAAA" `perform_compression` writes a file of 1025
bytes: the header in which the counter of byte value 65 is 4 and every other
counter is 0, then the single payload byte 0, the four code bits 0 with four
padding bits; `perform_decompression` on that file writes "AAAA". -/
theorem C14_scenario_A (encoding_buffer : List Char) (hbuf : encoding_buffer.length = 256) :
    perform_compression encoding_buffer [65, 65, 65, 65]
      = ⟨CompressionOutcome.completed,
          List.replicate 260 0 ++ [4, 0, 0, 0] ++ List.replicate 760 0 ++ [0]⟩ ∧
    (List.replicate 260 0 ++ [4, 0, 0, 0] ++ List.replicate 760 0 ++ [0]).length = 1025 ∧
    header_counters (List.replicate 260 0 ++ [4, 0, 0, 0] ++ List.replicate 760 0 ++ [0])
      = List.replicate 65 0 ++ [4] ++ List.replicate 190 0 ∧
    payload_bits encoding_buffer [65, 65, 65, 65] = [0, 0, 0, 0] ∧
    perform_decompression (List.replicate 260 0 ++ [4, 0, 0, 0] ++ List.replicate 760 0 ++ [0])
      = ⟨DecompressionOutcome.completed, [65, 65, 65, 65], 4, 4⟩ := by
  refine ⟨?_, by decide!, by decide!, ?_, by decide!⟩
  · rw [perform_compression_buffer encoding_buffer (List.replicate 256 '0') _ hbuf
      (List.length_replicate 256 '0')]
    decide!
  · unfold payload_bits
    rw [code_table_eq encoding_buffer _ hbuf,
      ← code_table_eq (List.replicate 256 '0') _ (List.length_replicate 256 '0')]
    decide!

/-- Witness of C14 with a path buffer full of the character x. -/
theorem C14_scenario_A_witness :
    (List.replicate 256 'x').length = 256 ∧
    perform_compression (List.replicate 256 'x') [65, 65, 65, 65]
      = ⟨CompressionOutcome.completed,
          List.replicate 260 0 ++ [4, 0, 0, 0] ++ List.replicate 760 0 ++ [0]⟩ :=
  ⟨List.length_replicate 256 'x',
    (C14_scenario_A (List.replicate 256 'x') (List.length_replicate 256 'x')).1⟩

/-- The symbol total of a header whose tree is NULL is zero. -/
theorem header_total_of_null (compressed : List Nat)
    (h : construct_huffman_tree (header_counters compressed) = NULL) :
    header_total compressed = 0 := by
  rw [construct_eq_null_iff] at h
  unfold header_total
  have hz : (List.range 256).map (fun i => (header_counters compressed).getD i 0)
      = (List.range 256).map (fun _ => 0) := by
    apply List.map_congr_left
    intro i hi
    exact h i (List.mem_range.mp hi)
  rw [hz]
  decide!

/-- C11 fails as stated: on a file whose header announces twelve times the
byte A and whose payload is one byte, the loop ends at the end of the file
after eight symbols, and `perform_decompression` reports the completion it
reports on the whole file, with the two counts 8 and 12. -/
theorem C11_truncated_reports_completion :
    decode_run (List.replicate 260 0 ++ [12, 0, 0, 0] ++ List.replicate 760 0 ++ [0])
      = LoopResult.exited
          ⟨⟨⟨List.replicate 260 0 ++ [12, 0, 0, 0] ++ List.replicate 760 0 ++ [0], 1025⟩,
              0, 0, 1⟩,
            node 0 12 (node 65 12 NULL NULL) NULL, 8, List.replicate 8 65⟩ ∧
    perform_decompression (List.replicate 260 0 ++ [12, 0, 0, 0] ++ List.replicate 760 0 ++ [0])
      = ⟨DecompressionOutcome.completed, List.replicate 8 65, 8, 12⟩ ∧
    perform_decompression
        (List.replicate 260 0 ++ [12, 0, 0, 0] ++ List.replicate 760 0 ++ [0, 0])
      = ⟨DecompressionOutcome.completed, List.replicate 12 65, 12, 12⟩ := by
  decide!

/-- C11 (as amended). When the loop of `perform_decompression` ends at the end
of the payload on a file with 256 counters and a positive symbol total, the
function reports completion, as on a whole file, together with the number of
symbols decoded and the total; the number decoded is less than the total and
the output holds exactly that many bytes. -/
theorem C11_truncated_payload (compressed : List Nat) (st : DecodeState)
    (hheader : (header_counters compressed).length = 256)
    (hpos : 0 < header_total compressed)
    (hrun : decode_run compressed = LoopResult.exited st)
    (heof : st.reader.end_of_file ≠ 0) :
    perform_decompression compressed
      = ⟨DecompressionOutcome.completed, st.output_stream, st.decoded_symbols,
          header_total compressed⟩ ∧
    st.decoded_symbols < header_total compressed ∧
    (st.output_stream.length : Int) = st.decoded_symbols := by
  have hnull : (construct_huffman_tree (header_counters compressed)).is_null = false := by
    cases hc : construct_huffman_tree (header_counters compressed) with
    | node _ _ _ _ => rfl
    | NULL =>
      have := header_total_of_null compressed hc
      omega
  have hb := (decode_loop_bound (construct_huffman_tree (header_counters compressed))
    (header_total compressed) (8 * (payload_stream compressed).unread.length + 1)
    ⟨⟨payload_stream compressed, 0, 0, 0⟩,
      construct_huffman_tree (header_counters compressed), 0, []⟩ hpos rfl).1 st hrun
  refine ⟨?_, hb.2.2.2 heof, hb.1⟩
  rw [perform_decompression_run, if_neg (fun h => h hheader), hnull, hrun]
  rfl

/-- Witness of C11 on the file whose header announces twelve times the byte A
and whose payload is one byte. -/
theorem C11_truncated_payload_witness :
    perform_decompression (List.replicate 260 0 ++ [12, 0, 0, 0] ++ List.replicate 760 0 ++ [0])
      = ⟨DecompressionOutcome.completed, List.replicate 8 65, 8,
          header_total (List.replicate 260 0 ++ [12, 0, 0, 0] ++ List.replicate 760 0 ++ [0])⟩ ∧
    (8 : Int) < header_total
      (List.replicate 260 0 ++ [12, 0, 0, 0] ++ List.replicate 760 0 ++ [0]) ∧
    ((List.replicate 8 65).length : Int) = 8 :=
  C11_truncated_payload (List.replicate 260 0 ++ [12, 0, 0, 0] ++ List.replicate 760 0 ++ [0])
    ⟨⟨⟨List.replicate 260 0 ++ [12, 0, 0, 0] ++ List.replicate 760 0 ++ [0], 1025⟩, 0, 0, 1⟩,
      node 0 12 (node 65 12 NULL NULL) NULL, 8, List.replicate 8 65⟩
    (by decide!) (by decide!) (by decide!) (by decide)

/-- C17. On a file with 256 counters whose sum `T` satisfies `0 < T < 2 ^ 31`
the loop of `perform_decompression` ends; when it ends without reading a child
of NULL, the output has as many bytes as symbols were counted, at most `T`, and
exactly `T` unless the end of the file was met; the iteration that emits the
symbol which brings the count to the total leaves the loop with the reader
as the bit of that symbol left it.  On the file `perform_compression` wrote for
a source of `T` bytes the loop ends with the padding bits of the last byte
unread and the output is the `T` bytes of the source. -/
theorem C17_no_extra_symbol (compressed : List Nat) (st : DecodeState)
    (encoding_buffer : List Char) (S : List Nat)
    (hheader : (header_counters compressed).length = 256)
    (hpos : 0 < histogram_sum (header_counters compressed))
    (hlt : histogram_sum (header_counters compressed) < 2147483648)
    (hrun : decode_run compressed = LoopResult.exited st)
    (hbuf : encoding_buffer.length = 256) (hbytes : ∀ x ∈ S, x < 256) (hne : S ≠ [])
    (hlen : S.length < 2147483648) :
    (header_total compressed = (histogram_sum (header_counters compressed) : Int) ∧
     decode_run compressed ≠ LoopResult.fuel_exhausted ∧
     perform_decompression compressed
       = ⟨DecompressionOutcome.completed, st.output_stream, st.decoded_symbols,
           header_total compressed⟩ ∧
     (st.output_stream.length : Int) = st.decoded_symbols ∧
     st.output_stream.length ≤ histogram_sum (header_counters compressed) ∧
     (st.output_stream.length = histogram_sum (header_counters compressed)
       ↔ st.reader.end_of_file = 0)) ∧
    (∀ (fuel : Nat) (s : DecodeState) (next : TreeNode), s.reader.end_of_file = 0 →
      (input_bit s.reader).2.end_of_file = 0 →
      next = (if (input_bit s.reader).1 = 0 then s.current_position.child_left
        else s.current_position.child_right) →
      next.is_leaf = true → s.decoded_symbols + 1 ≥ header_total compressed →
      decode_loop (construct_huffman_tree (header_counters compressed))
          (header_total compressed) (fuel + 1) s
        = LoopResult.exited ⟨(input_bit s.reader).2,
            construct_huffman_tree (header_counters compressed), s.decoded_symbols + 1,
            fputc next.character s.output_stream⟩) ∧
    (∃ rd, ReaderOK rd ∧
      pending rd
        = List.replicate ((8 - (payload_bits encoding_buffer S).length % 8) % 8) 0 ∧
      decode_run (perform_compression encoding_buffer S).output_file
        = LoopResult.exited ⟨rd,
            construct_huffman_tree (compute_frequencies (fopen_rb S) []).2, S.length, S⟩ ∧
      perform_decompression (perform_compression encoding_buffer S).output_file
        = ⟨DecompressionOutcome.completed, S, S.length, S.length⟩) := by
  have htot := header_total_eq compressed hlt
  have hnull := construct_ne_null_of_sum (header_counters compressed) hpos
  have hpos' : 0 < header_total compressed := by rw [htot]; exact_mod_cast hpos
  have hb := (decode_loop_bound (construct_huffman_tree (header_counters compressed))
    (header_total compressed) (8 * (payload_stream compressed).unread.length + 1)
    ⟨⟨payload_stream compressed, 0, 0, 0⟩,
      construct_huffman_tree (header_counters compressed), 0, []⟩ hpos' rfl).1 st hrun
  obtain ⟨hb1, hb2, hb3, hb4⟩ := hb
  refine ⟨⟨htot, decode_run_terminates compressed, ?_, hb1, ?_, ?_⟩, ?_, ?_⟩
  · rw [perform_decompression_run, if_neg (fun h => h hheader), hnull, hrun]
    rfl
  · rw [htot] at hb2
    omega
  · rw [htot] at hb3 hb4
    constructor
    · intro h
      by_contra he
      have := hb4 he
      omega
    · intro h
      have := hb3 h
      omega
  · intro fuel s next he0 he1 hnext hleaf hge
    have hnn : next.is_null = false := by
      cases next with
      | NULL => exact absurd hleaf (by decide)
      | node _ _ _ _ => rfl
    rw [decode_loop_succ _ _ fuel s he0 next hnext, if_neg (fun h => h he1), hnn, hleaf]
    simp only [Bool.false_eq_true, if_false, if_true]
    rw [if_pos hge]
  · obtain ⟨rd, h1, h2, h3⟩ := decode_run_compress encoding_buffer S hbuf hbytes hne hlen
    exact ⟨rd, h1, h2, h3, (round_trip encoding_buffer S hbuf hbytes hne hlen).2⟩

/-- Witness of C17 on the file of the source "AAAA": the loop ends after the
fourth symbol with four bits of the payload byte unread. -/
theorem C17_no_extra_symbol_witness :
    decode_run (List.replicate 260 0 ++ [4, 0, 0, 0] ++ List.replicate 760 0 ++ [0])
      = LoopResult.exited
          ⟨⟨⟨List.replicate 260 0 ++ [4, 0, 0, 0] ++ List.replicate 760 0 ++ [0], 1025⟩,
              0, 4, 0⟩,
            node 0 4 (node 65 4 NULL NULL) NULL, 4, [65, 65, 65, 65]⟩ ∧
    perform_decompression (List.replicate 260 0 ++ [4, 0, 0, 0] ++ List.replicate 760 0 ++ [0])
      = ⟨DecompressionOutcome.completed, [65, 65, 65, 65], 4,
          header_total (List.replicate 260 0 ++ [4, 0, 0, 0] ++ List.replicate 760 0 ++ [0])⟩ ∧
    perform_decompression (perform_compression (List.replicate 256 'x') [65, 65, 65, 65]).output_file
      = ⟨DecompressionOutcome.completed, [65, 65, 65, 65], 4, 4⟩ :=
  have h := C17_no_extra_symbol
    (List.replicate 260 0 ++ [4, 0, 0, 0] ++ List.replicate 760 0 ++ [0])
    ⟨⟨⟨List.replicate 260 0 ++ [4, 0, 0, 0] ++ List.replicate 760 0 ++ [0], 1025⟩, 0, 4, 0⟩,
      node 0 4 (node 65 4 NULL NULL) NULL, 4, [65, 65, 65, 65]⟩
    (List.replicate 256 'x') [65, 65, 65, 65]
    (by decide!) (by decide!) (by decide!) (by decide!)
    (List.length_replicate 256 'x') (by decide) (by decide) (by decide)
  ⟨by decide!, h.1.2.2.1, by
    obtain ⟨_, _, _, _, h4⟩ := h.2.2
    exact h4⟩

/-! ## The nodes of a tree -/

theorem subtrees_leaf (c w : Nat) : subtrees (node c w NULL NULL) = [node c w NULL NULL] := rfl

theorem mem_subtrees_node (c w : Nat) (l r n : TreeNode) :
    n ∈ subtrees (node c w l r) ↔ n = node c w l r ∨ n ∈ subtrees l ∨ n ∈ subtrees r := by
  simp [subtrees]

theorem subtrees_ne_null (t n : TreeNode) (h : n ∈ subtrees t) : n ≠ NULL := by
  induction t with
  | NULL => simp [subtrees] at h
  | node c w l r ihl ihr =>
    rw [mem_subtrees_node] at h
    rcases h with h | h | h
    · rw [h]; exact fun h => TreeNode.noConfusion h
    · exact ihl h
    · exact ihr h

theorem mem_subtrees_merge (a b n : TreeNode) :
    n ∈ subtrees (merge_nodes a b) ↔
      n = merge_nodes a b ∨ n ∈ subtrees a ∨ n ∈ subtrees b := by
  rw [merge_nodes_eq]
  exact mem_subtrees_node _ _ _ _ _

/-- The only node of the leaf made for a byte value. -/
theorem forall_subtrees_leaf_of (freq : List Nat) (i : Nat) (hi : i < 256) (n : TreeNode)
    (h : n ∈ subtrees (leaf_of freq i)) : n = node i (freq.getD i 0 % UINT_MOD) NULL NULL := by
  rw [leaf_of_eq freq i hi, subtrees_leaf] at h
  simpa using h

theorem mem_leaf_list (freq : List Nat) (t : TreeNode) (h : t ∈ (leaf_list freq).1) :
    ∃ i, i < 256 ∧ 0 < freq.getD i 0 ∧ t = node i (freq.getD i 0 % UINT_MOD) NULL NULL := by
  have := (leaf_list_perm freq).mem_iff.mp h
  rw [List.mem_map] at this
  obtain ⟨i, hi, rfl⟩ := this
  obtain ⟨h1, h2⟩ := mem_present.mp hi
  exact ⟨i, h1, h2, leaf_of_eq freq i h1⟩

/-! ## Leaves and internal nodes -/

theorem leaf_nodes_leaf (c w : Nat) :
    leaf_nodes (node c w NULL NULL) = [node c w NULL NULL] := rfl

theorem leaf_nodes_inner (c w : Nat) (l r : TreeNode) (h : (node c w l r).is_leaf = false) :
    leaf_nodes (node c w l r) = leaf_nodes l ++ leaf_nodes r := by
  unfold leaf_nodes
  rw [subtrees, List.filter_cons, h, List.filter_append]
  rfl

theorem internal_nodes_leaf (c w : Nat) : internal_nodes (node c w NULL NULL) = [] := rfl

theorem internal_nodes_inner (c w : Nat) (l r : TreeNode)
    (h : (node c w l r).is_leaf = false) :
    internal_nodes (node c w l r) = node c w l r :: (internal_nodes l ++ internal_nodes r) := by
  unfold internal_nodes
  rw [subtrees, List.filter_cons, h, List.filter_append]
  rfl

/-- The byte values on the leaves of a tree are those `leaf_paths` lists. -/
theorem leaf_nodes_character (t : TreeNode) :
    (leaf_nodes t).map TreeNode.character = leaf_chars t := by
  induction t with
  | NULL => rfl
  | node c w l r ihl ihr =>
    by_cases h : (node c w l r).is_leaf = true
    · obtain ⟨rfl, rfl⟩ := (is_leaf_iff c w l r).mp h
      rw [leaf_nodes_leaf, leaf_chars_leaf]
      rfl
    · have h' : (node c w l r).is_leaf = false := by simpa using h
      rw [leaf_nodes_inner c w l r h', leaf_chars_inner c w l r h', List.map_append, ihl, ihr]

/-- A strict binary tree has one internal node fewer than leaves. -/
theorem Full.internal_count {t : TreeNode} (h : Full t) :
    (internal_nodes t).length + 1 = (leaf_nodes t).length := by
  induction h with
  | leaf c w => rfl
  | inner c w l r hl hr ihl ihr =>
    have h' := Full.is_leaf_inner c w r hl
    rw [internal_nodes_inner c w l r h', leaf_nodes_inner c w l r h', List.length_cons,
      List.length_append, List.length_append]
    omega

/-- In a strict binary tree every node is a leaf or has both children. -/
theorem Full.subtrees_strict {t : TreeNode} (h : Full t) :
    ∀ n ∈ subtrees t, n.is_leaf = true ∨ (n.child_left ≠ NULL ∧ n.child_right ≠ NULL) := by
  induction h with
  | leaf c w =>
    intro n hn
    rw [subtrees_leaf] at hn
    left
    rw [List.mem_singleton.mp hn]
    rfl
  | inner c w l r hl hr ihl ihr =>
    intro n hn
    rw [mem_subtrees_node] at hn
    rcases hn with hn | hn | hn
    · right
      rw [hn]
      exact ⟨hl.ne_null, hr.ne_null⟩
    · exact ihl n hn
    · exact ihr n hn

/-! ## Weights -/

/-- The weights in the list of the merging loop, when the counters sum to less
than `2 ^ 32`: every item is a strict binary tree whose weight is the sum of
the counts on its leaves, every leaf weighs the count of its byte value, every
internal node the sum of its children, and the weights of the items sum to the
sum of the counters. -/
theorem weights_merge_loop (freq : List Nat) (hsum : histogram_sum freq < UINT_MOD)
    (fuel : Nat) :
    (∀ t ∈ merge_loop fuel (leaf_list freq).1,
      Full t ∧ t.weight = leaf_sum freq t ∧
      ∀ n ∈ subtrees t,
        (n.is_leaf = true → n.weight = freq.getD n.character 0) ∧
        (n.is_leaf = false → n.weight = n.child_left.weight + n.child_right.weight)) ∧
    ((merge_loop fuel (leaf_list freq).1).map (leaf_sum freq)).sum = histogram_sum freq := by
  apply merge_loop_invariant (fun l =>
    (∀ t ∈ l, Full t ∧ t.weight = leaf_sum freq t ∧
      ∀ n ∈ subtrees t,
        (n.is_leaf = true → n.weight = freq.getD n.character 0) ∧
        (n.is_leaf = false → n.weight = n.child_left.weight + n.child_right.weight)) ∧
    (l.map (leaf_sum freq)).sum = histogram_sum freq)
  · intro a b rest ⟨hall, hs⟩
    obtain ⟨hfa, hwa, hna⟩ := hall a (by simp)
    obtain ⟨hfb, hwb, hnb⟩ := hall b (by simp)
    have hleaf : (node 0 ((a.weight + b.weight) % UINT_MOD) a b).is_leaf = false :=
      Full.is_leaf_inner _ _ _ hfa
    have hle : a.weight + b.weight < UINT_MOD := by
      rw [hwa, hwb]
      simp only [List.map_cons, List.sum_cons] at hs
      omega
    have hw : (merge_nodes a b).weight = a.weight + b.weight := by
      rw [merge_nodes_eq]
      exact Nat.mod_eq_of_lt hle
    have hls : leaf_sum freq (merge_nodes a b) = leaf_sum freq a + leaf_sum freq b := by
      rw [merge_nodes_eq, leaf_sum_inner freq _ _ _ _ hleaf]
    constructor
    · intro t ht
      rcases mem_place_in_order.mp ht with rfl | ht
      · refine ⟨merge_nodes_full hfa hfb, by rw [hw, hls, hwa, hwb], ?_⟩
        intro n hn
        rcases (mem_subtrees_merge a b n).mp hn with rfl | hn | hn
        · constructor
          · intro h
            rw [merge_nodes_eq, hleaf] at h
            exact absurd h (by decide)
          · intro _
            rw [hw, merge_nodes_eq]
            rfl
        · exact hna n hn
        · exact hnb n hn
      · exact hall t (by simp [ht])
    · rw [((place_in_order_perm rest (merge_nodes a b)).map (leaf_sum freq)).sum_eq,
        List.map_cons, List.sum_cons, hls, ← hs]
      simp only [List.map_cons, List.sum_cons]
      omega
  · constructor
    · intro t ht
      obtain ⟨i, hi, _, rfl⟩ := mem_leaf_list freq t ht
      have hlt : freq.getD i 0 < UINT_MOD :=
        getD_lt_of_sum_lt freq (by rw [← histogram_sum_eq]; exact hsum) i hi
      rw [Nat.mod_eq_of_lt hlt]
      refine ⟨Full.leaf _ _, (leaf_sum_leaf freq i _).symm, ?_⟩
      intro n hn
      rw [subtrees_leaf] at hn
      rw [List.mem_singleton.mp hn]
      exact ⟨fun _ => rfl, fun h => Bool.noConfusion h⟩
    · rw [((leaf_list_perm freq).map (leaf_sum freq)).sum_eq, List.map_map,
        histogram_sum_eq, ← sum_map_present freq (fun b => freq.getD b 0) (fun _ _ h => h)]
      congr 1
      apply List.map_congr_left
      intro i hi
      show leaf_sum freq (leaf_of freq i) = _
      rw [leaf_of_eq freq i (mem_present.mp hi).1, leaf_sum_leaf]

/-! ## Lighter child on the left -/

/-- The list of the merging loop stays sorted by weight and in each of its
trees the left child of a node with two children is not heavier than the
right child. -/
theorem lighter_merge_loop (freq : List Nat) (fuel : Nat) :
    (∀ t ∈ merge_loop fuel (leaf_list freq).1, ∀ n ∈ subtrees t,
      n.child_left ≠ NULL → n.child_right ≠ NULL →
        n.child_left.weight ≤ n.child_right.weight) ∧
    (merge_loop fuel (leaf_list freq).1).Pairwise (fun a b => a.weight ≤ b.weight) := by
  apply merge_loop_invariant (fun l =>
    (∀ t ∈ l, ∀ n ∈ subtrees t, n.child_left ≠ NULL → n.child_right ≠ NULL →
        n.child_left.weight ≤ n.child_right.weight) ∧
    l.Pairwise (fun a b => a.weight ≤ b.weight))
  · intro a b rest ⟨hall, hs⟩
    rw [List.pairwise_cons] at hs
    obtain ⟨hab, hs⟩ := hs
    rw [List.pairwise_cons] at hs
    constructor
    · intro t ht
      rcases mem_place_in_order.mp ht with rfl | ht
      · intro n hn _ _
        rcases (mem_subtrees_merge a b n).mp hn with rfl | hn | hn
        · rw [merge_nodes_eq]
          exact hab b (by simp)
        · exact hall a (by simp) n hn ‹_› ‹_›
        · exact hall b (by simp) n hn ‹_› ‹_›
      · exact hall t (by simp [ht])
    · exact place_in_order_pairwise rest (merge_nodes a b) hs.2
  · constructor
    · intro t ht n hn hl
      obtain ⟨i, _, _, rfl⟩ := mem_leaf_list freq t ht
      rw [subtrees_leaf] at hn
      rw [List.mem_singleton.mp hn] at hl
      exact absurd rfl hl
    · have := leaf_list_sorted freq
      exact List.pairwise_map.mp this

/-- In the tree of any histogram the left child of a node with two children
is not heavier than the right child. -/
theorem lighter_construct (freq : List Nat) :
    ∀ n ∈ subtrees (construct_huffman_tree freq),
      n.child_left ≠ NULL → n.child_right ≠ NULL →
        n.child_left.weight ≤ n.child_right.weight := by
  rcases construct_cases freq with ⟨_, h⟩ | ⟨b, _, h⟩ | ⟨_, _, _, _, h⟩
  · rw [h]; intro n hn; simp [subtrees] at hn
  · rw [h]
    intro n hn hl hr
    rw [mem_subtrees_node, subtrees_leaf] at hn
    rcases hn with rfl | hn | hn
    · exact absurd rfl hr
    · rw [List.mem_singleton.mp hn] at hl; exact absurd rfl hl
    · simp [subtrees] at hn
  · have := (lighter_merge_loop freq (leaf_list freq).1.length).1
    rw [h] at this
    exact this _ (by simp)

/-! ## The guard of `create_encodings` -/

/-- The logged function computes what `create_encodings` computes. -/
theorem create_encodings_logged_fst (t : TreeNode) :
    ∀ (st : List Char × List EncodingRecord) (d : Nat),
      (create_encodings_logged t st d).1 = create_encodings t st d := by
  induction t with
  | NULL => intro st d; rfl
  | node c w l r ihl ihr =>
    intro st d
    rw [create_encodings_logged, create_encodings]
    by_cases hleaf : (node c w l r).is_leaf = true
    · rw [if_pos hleaf, if_pos hleaf]
    · rw [if_neg hleaf, if_neg hleaf]
      by_cases hd : d < 256
      · simp only [if_pos hd, ihl, ihr]
      · simp only [if_neg hd]

/-- Below a node at depth `d` whose height leaves the depth under 256, every
test of the guard is made at a depth below 256 and is true. -/
theorem logged_guards (t : TreeNode) :
    ∀ (st : List Char × List EncodingRecord) (d : Nat), d + height t ≤ 256 →
      ∀ e ∈ (create_encodings_logged t st d).2, e.1 < 256 ∧ e.2 = true := by
  induction t with
  | NULL => intro st d _ e he; simp [create_encodings_logged] at he
  | node c w l r ihl ihr =>
    intro st d hd e he
    rw [create_encodings_logged] at he
    by_cases hleaf : (node c w l r).is_leaf = true
    · rw [if_pos hleaf] at he; simp at he
    · have hleaf' : (node c w l r).is_leaf = false := by simpa using hleaf
      rw [height_inner c w l r hleaf'] at hd
      have hd256 : d < 256 := by omega
      rw [if_neg hleaf] at he
      simp only [if_pos hd256, List.mem_cons, List.mem_append] at he
      rcases he with rfl | he | he
      · exact ⟨hd256, by simpa using hd256⟩
      · exact ihl _ (d + 1) (by omega) e he
      · exact ihr _ (d + 1) (by omega) e he

/-- No subtree is skipped: the guard is tested once at every internal node. -/
theorem logged_length (t : TreeNode) :
    ∀ (st : List Char × List EncodingRecord) (d : Nat), d + height t ≤ 256 →
      (create_encodings_logged t st d).2.length = (internal_nodes t).length := by
  induction t with
  | NULL => intro st d _; rfl
  | node c w l r ihl ihr =>
    intro st d hd
    rw [create_encodings_logged]
    by_cases hleaf : (node c w l r).is_leaf = true
    · obtain ⟨rfl, rfl⟩ := (is_leaf_iff c w l r).mp hleaf
      rw [if_pos hleaf]
      rfl
    · have hleaf' : (node c w l r).is_leaf = false := by simpa using hleaf
      rw [height_inner c w l r hleaf'] at hd
      have hd256 : d < 256 := by omega
      rw [if_neg hleaf, internal_nodes_inner c w l r hleaf']
      simp only [if_pos hd256, List.length_cons, List.length_append]
      rw [ihl _ (d + 1) (by omega), ihr _ (d + 1) (by omega)]

/-! ## Lengths of the codes -/

/-- A path to a leaf is no longer than the height of the tree. -/
theorem leaf_paths_length_le (t : TreeNode) :
    ∀ (b : Nat) (p : List Char), (b, p) ∈ leaf_paths t → p.length ≤ height t := by
  induction t with
  | NULL => intro b p hp; simp [leaf_paths] at hp
  | node c w l r ihl ihr =>
    intro b p hp
    by_cases hleaf : (node c w l r).is_leaf = true
    · obtain ⟨rfl, rfl⟩ := (is_leaf_iff c w l r).mp hleaf
      rw [leaf_paths_leaf] at hp
      simp at hp
      rw [hp.2]
      exact Nat.zero_le _
    · have hleaf' : (node c w l r).is_leaf = false := by simpa using hleaf
      obtain ⟨ch, q, rfl, hq⟩ := leaf_paths_step c w l r hleaf' b p hp
      rw [height_inner c w l r hleaf', List.length_cons]
      rcases hq with ⟨_, hq⟩ | ⟨_, hq⟩
      · have := ihl b q hq; omega
      · have := ihr b q hq; omega

/-- A path to a leaf of a tree whose root is not a leaf has at least one
character. -/
theorem leaf_paths_length_pos (t : TreeNode) (ht : t.is_leaf = false) (b : Nat)
    (p : List Char) (hp : (b, p) ∈ leaf_paths t) : 1 ≤ p.length := by
  cases t with
  | NULL => simp [leaf_paths] at hp
  | node c w l r =>
    obtain ⟨ch, q, rfl, _⟩ := leaf_paths_step c w l r ht b p hp
    simp

/-- The height of the tree of a histogram with `k ≥ 2` non-zero counters is at
most `k - 1`. -/
theorem height_construct_le (freq : List Nat) (h2 : 2 ≤ (present freq).length) :
    height (construct_huffman_tree freq) + 1 ≤ (present freq).length := by
  rcases construct_cases freq with ⟨h, _⟩ | ⟨b, h, _⟩ | ⟨_, hfull, _, hperm, _⟩
  · rw [h] at h2; simp at h2
  · rw [h] at h2; simp at h2
  · rw [← hperm.length_eq]
    exact hfull.height_lt

/-- The height of the tree of a histogram with one non-zero counter is 1. -/
theorem height_construct_single (freq : List Nat) (h1 : (present freq).length = 1) :
    height (construct_huffman_tree freq) = 1 := by
  rcases construct_cases freq with ⟨h, _⟩ | ⟨b, _, h⟩ | ⟨h, _⟩
  · rw [h] at h1; simp at h1
  · rw [h, height_inner 0 _ (node b (freq.getD b 0 % UINT_MOD) NULL NULL) NULL rfl, height_leaf]
    rfl
  · omega

/-- A populated entry of the code table is the entry of a byte value with a
non-zero count and holds the path to its leaf. -/
theorem table_entry_populated (buf : List Char) (freq : List Nat) (hbuf : buf.length = 256)
    (b : Nat) (hb : b < 256)
    (hpop : (table_entry (code_table buf freq) b).binary_sequence ≠ none) :
    0 < freq.getD b 0 ∧ ∃ p, (b, p) ∈ leaf_paths (construct_huffman_tree freq) ∧
      table_entry (code_table buf freq) b = ⟨b, some p, p.length⟩ := by
  obtain ⟨h1, h2⟩ := table_entry_spec buf freq hbuf b hb
  by_cases hz : freq.getD b 0 = 0
  · rw [h2 hz] at hpop
    exact absurd rfl hpop
  · exact ⟨Nat.pos_of_ne_zero hz, h1 (Nat.pos_of_ne_zero hz)⟩

/-! ## The bytes the writer emits -/

/-- A byte is the sum of its eight bits, the first with weight 128. -/
theorem byte_eq_sum_bits : ∀ x, x < 256 →
    x = ((List.range 8).map (fun j => (byte_bits x).getD j 0 * 2 ^ (7 - j))).sum := by
  decide!

theorem byte_bits_zero_getD (j : Nat) : (byte_bits 0).getD j 0 = 0 := by
  have h : byte_bits 0 = List.replicate 8 0 := by decide
  rw [h, List.getD_eq_getElem?_getD, List.getElem?_replicate]
  split <;> rfl

/-- Bit `8 * k + j` of the bits of a byte sequence is bit `j` of byte `k`. -/
theorem flatMap_byte_bits_getD (l : List Nat) :
    ∀ (k j : Nat), j < 8 →
      (l.flatMap byte_bits).getD (8 * k + j) 0 = (byte_bits (l.getD k 0)).getD j 0 := by
  induction l with
  | nil =>
    intro k j _
    rw [List.flatMap_nil, List.getD_nil, List.getD_nil, byte_bits_zero_getD]
  | cons x xs ih =>
    intro k j hj
    rw [List.flatMap_cons]
    cases k with
    | zero =>
      rw [List.getD_cons_zero, Nat.mul_zero, Nat.zero_add,
        List.getD_append _ _ _ _ (by rw [byte_bits_length]; exact hj)]
    | succ k =>
      rw [List.getD_cons_succ,
        List.getD_append_right _ _ _ _ (by rw [byte_bits_length]; omega), byte_bits_length,
        ← ih k j hj]
      congr 1
      omega

theorem getD_append_replicate_zero (l : List Nat) (n i : Nat) :
    (l ++ List.replicate n 0).getD i 0 = l.getD i 0 := by
  by_cases h : i < l.length
  · rw [List.getD_append _ _ _ _ h]
  · rw [List.getD_append_right _ _ _ _ (by omega),
      List.getD_eq_default l 0 (by omega), List.getD_eq_getElem?_getD,
      List.getElem?_replicate]
    split <;> rfl

/-- The bytes `write_bits` emits are the packed bytes of the bit sequence. -/
theorem write_bits_packed (bits : List Nat) (hbits : ∀ b ∈ bits, b < 2) :
    (write_bits bits).file_stream
      = (List.range ((bits.length + 7) / 8)).map (packed_byte bits) := by
  obtain ⟨h1, h2⟩ := write_bits_spec bits hbits
  have hb := write_bits_bytes bits
  rw [list_eq_map_getD (write_bits bits).file_stream, h2]
  apply List.map_congr_left
  intro k hk
  have hk' : k < (write_bits bits).file_stream.length := by
    rw [h2]; exact List.mem_range.mp hk
  have hlt : (write_bits bits).file_stream.getD k 0 < 256 := by
    rw [List.getD_eq_getElem _ _ hk']
    exact hb _ (List.getElem_mem _)
  rw [byte_eq_sum_bits _ hlt]
  unfold packed_byte
  congr 1
  apply List.map_congr_left
  intro j hj
  rw [← flatMap_byte_bits_getD _ k j (List.mem_range.mp hj), h1, getD_append_replicate_zero]

/-- After a whole number of bytes the writer holds no bit and
`empty_bit_buffer` leaves the state as it is. -/
theorem flush_of_whole_bytes (bits : List Nat) (hbits : ∀ b ∈ bits, b < 2)
    (h8 : bits.length % 8 = 0) :
    empty_bit_buffer (bits.foldl output_bit ⟨[], 0, 0⟩) = bits.foldl output_bit ⟨[], 0, 0⟩ := by
  have h := writerInv_foldl bits hbits ⟨[], 0, 0⟩ [] writerInv_init
  rw [List.nil_append] at h
  have hc : (bits.foldl output_bit ⟨[], 0, 0⟩).bit_counter = 0 := by
    have h1 := h.counter_lt
    have h2 := h.length_eq
    omega
  unfold empty_bit_buffer
  rw [if_neg (by rw [hc]; exact Nat.lt_irrefl 0)]

/-! ## The bit counters -/

theorem output_bit_counter (st : BitWriter) (bit_value : Nat) (h : st.bit_counter ≤ 7) :
    (output_bit st bit_value).bit_counter ≤ 7 ∧
    ((output_bit st bit_value).bit_counter = 0 →
      (output_bit st bit_value).bit_collector = 0) ∧
    (st.bit_counter = 7 → (output_bit st bit_value).bit_counter = 0) := by
  unfold output_bit
  by_cases h8 : st.bit_counter + 1 = 8
  · rw [if_pos h8]
    exact ⟨Nat.zero_le _, fun _ => rfl, fun _ => rfl⟩
  · rw [if_neg h8]
    exact ⟨by show st.bit_counter + 1 ≤ 7; omega, fun h0 => absurd h0 (Nat.succ_ne_zero _),
      fun h7 => absurd (by omega) h8⟩

theorem foldl_output_bit_counter (bits : List Nat) :
    ∀ st : BitWriter, st.bit_counter ≤ 7 → (st.bit_counter = 0 → st.bit_collector = 0) →
      (bits.foldl output_bit st).bit_counter ≤ 7 ∧
      ((bits.foldl output_bit st).bit_counter = 0 →
        (bits.foldl output_bit st).bit_collector = 0) := by
  induction bits with
  | nil => intro st h h0; exact ⟨h, h0⟩
  | cons b bs ih =>
    intro st h _
    rw [List.foldl_cons]
    obtain ⟨h1, h2, _⟩ := output_bit_counter st b h
    exact ih _ h1 h2

theorem foldl_output_bit_counter_le (bits : List Nat) :
    ∀ st : BitWriter, st.bit_counter ≤ 7 → (bits.foldl output_bit st).bit_counter ≤ 7 := by
  induction bits with
  | nil => intro st h; exact h
  | cons b bs ih =>
    intro st h
    rw [List.foldl_cons]
    exact ih _ (output_bit_counter st b h).1

theorem empty_bit_buffer_counter (st : BitWriter) :
    (empty_bit_buffer st).bit_counter = 0 ∧
    ((st.bit_counter = 0 → st.bit_collector = 0) → (empty_bit_buffer st).bit_collector = 0) ∧
    (st.bit_counter = 0 → empty_bit_buffer st = st) := by
  unfold empty_bit_buffer
  by_cases h : st.bit_counter > 0
  · rw [if_pos h]
    exact ⟨rfl, fun _ => rfl, fun h0 => absurd h0 (by omega)⟩
  · rw [if_neg h]
    have h0 : st.bit_counter = 0 := by omega
    exact ⟨h0, fun hc => hc h0, fun _ => rfl⟩

theorem input_bit_counter (rd : BitReader) (h : rd.bit_counter ≤ 7) :
    (input_bit rd).2.bit_counter ≤ 7 := by
  by_cases hc : rd.bit_counter = 0
  · cases hu : rd.file_stream.unread with
    | nil => rw [input_bit_of_eof rd hc hu]; exact h
    | cons x xs => rw [input_bit_of_refill rd hc x xs hu]
  · rw [input_bit_of_counter_pos rd hc]
    show rd.bit_counter - 1 ≤ 7
    omega

/-! ## The decoding loop on an arbitrary payload -/

/-- The children of a node of a strict binary tree that is not a leaf. -/
theorem Full.children {t : TreeNode} (h : Full t) (hl : t.is_leaf = false) :
    Full t.child_left ∧ Full t.child_right ∧
    leaf_chars t = leaf_chars t.child_left ++ leaf_chars t.child_right := by
  cases h with
  | leaf c w => exact Bool.noConfusion hl
  | inner c w l r h1 h2 => exact ⟨h1, h2, leaf_chars_inner c w l r hl⟩

/-- With a strict binary tree whose root is not a leaf the cursor never
reaches NULL and every byte written is the byte value of a leaf. -/
theorem decode_loop_safe (T : TreeNode) (total : Int) (hT : Full T) (hTl : T.is_leaf = false)
    (hchars : ∀ c ∈ leaf_chars T, c < 256) :
    ∀ (fuel : Nat) (st : DecodeState), Full st.current_position →
      st.current_position.is_leaf = false →
      (∀ c ∈ leaf_chars st.current_position, c ∈ leaf_chars T) →
      (∀ x ∈ st.output_stream, x ∈ leaf_chars T) →
      (∀ st', decode_loop T total fuel st ≠ LoopResult.null_dereference st') ∧
      (∀ st', decode_loop T total fuel st = LoopResult.exited st' →
        ∀ x ∈ st'.output_stream, x ∈ leaf_chars T) := by
  intro fuel
  induction fuel with
  | zero =>
    intro st _ _ _ hout
    rw [decode_loop]
    by_cases he : st.reader.end_of_file ≠ 0
    · rw [if_pos he]
      exact ⟨fun st' h => LoopResult.noConfusion h,
        fun st' h => by rw [← LoopResult.exited.inj h]; exact hout⟩
    · rw [if_neg he]
      exact ⟨fun st' h => LoopResult.noConfusion h, fun st' h => LoopResult.noConfusion h⟩
  | succ fuel ih =>
    intro st hfull hleaf hsub hout
    by_cases he : st.reader.end_of_file ≠ 0
    · rw [decode_loop_exit T total _ st he]
      exact ⟨fun st' h => LoopResult.noConfusion h,
        fun st' h => by rw [← LoopResult.exited.inj h]; exact hout⟩
    · have he0 : st.reader.end_of_file = 0 := by simpa using he
      obtain ⟨next, hnext⟩ : ∃ next, next = if (input_bit st.reader).1 = 0
          then st.current_position.child_left else st.current_position.child_right :=
        ⟨_, rfl⟩
      rw [decode_loop_succ T total fuel st he0 next hnext]
      by_cases he1 : (input_bit st.reader).2.end_of_file ≠ 0
      · rw [if_pos he1]
        exact ih _ hfull hleaf hsub hout
      · rw [if_neg he1]
        -- the cursor has two children, both strict binary trees
        have hnx : Full next ∧ ∀ c ∈ leaf_chars next, c ∈ leaf_chars T := by
          obtain ⟨hl, hr, hlc⟩ := Full.children hfull hleaf
          by_cases hb : (input_bit st.reader).1 = 0
          · rw [if_pos hb] at hnext
            rw [hnext]
            exact ⟨hl, fun x hx => hsub x (by rw [hlc]; exact List.mem_append_left _ hx)⟩
          · rw [if_neg hb] at hnext
            rw [hnext]
            exact ⟨hr, fun x hx => hsub x (by rw [hlc]; exact List.mem_append_right _ hx)⟩
        obtain ⟨hnf, hns⟩ := hnx
        have hnn : next.is_null = false := by
          cases hnf <;> rfl
        rw [hnn]
        simp only [Bool.false_eq_true, if_false]
        by_cases hl : next.is_leaf = true
        · rw [if_pos hl]
          have hch : next.character ∈ leaf_chars T := by
            apply hns
            cases next with
            | NULL => exact absurd hl (by decide)
            | node c w l r =>
              obtain ⟨rfl, rfl⟩ := (is_leaf_iff c w l r).mp hl
              rw [leaf_chars_leaf]
              simp [TreeNode.character]
          have hput : ∀ x ∈ fputc next.character st.output_stream, x ∈ leaf_chars T := by
            intro x hx
            unfold fputc at hx
            rw [Nat.mod_eq_of_lt (hchars _ hch)] at hx
            rcases List.mem_append.mp hx with hx | hx
            · exact hout x hx
            · rw [List.mem_singleton.mp hx]; exact hch
          by_cases hge : st.decoded_symbols + 1 ≥ total
          · rw [if_pos hge]
            exact ⟨fun st' h => LoopResult.noConfusion h,
              fun st' h => by rw [← LoopResult.exited.inj h]; exact hput⟩
          · rw [if_neg hge]
            exact ih _ hT hTl (fun c hc => hc) hput
        · rw [if_neg hl]
          exact ih _ hnf (by simpa using hl) hns hout

/-- Fuel beyond what a run needs does not change its result. -/
theorem decode_loop_mono (T : TreeNode) (total : Int) :
    ∀ (fuel : Nat) (st : DecodeState),
      decode_loop T total fuel st ≠ LoopResult.fuel_exhausted →
      ∀ k, decode_loop T total (fuel + k) st = decode_loop T total fuel st := by
  intro fuel
  induction fuel with
  | zero =>
    intro st h k
    by_cases he : st.reader.end_of_file ≠ 0
    · rw [decode_loop_exit T total _ st he, decode_loop_exit T total _ st he]
    · exfalso
      apply h
      rw [decode_loop, if_neg he]
  | succ fuel ih =>
    intro st h k
    by_cases he : st.reader.end_of_file ≠ 0
    · rw [decode_loop_exit T total _ st he, decode_loop_exit T total _ st he]
    · have he0 : st.reader.end_of_file = 0 := by simpa using he
      obtain ⟨next, hnext⟩ : ∃ next, next = if (input_bit st.reader).1 = 0
          then st.current_position.child_left else st.current_position.child_right :=
        ⟨_, rfl⟩
      rw [Nat.succ_add, decode_loop_succ T total (fuel + k) st he0 next hnext]
      rw [decode_loop_succ T total fuel st he0 next hnext] at h ⊢
      by_cases he1 : (input_bit st.reader).2.end_of_file ≠ 0
      · simp only [if_pos he1] at h ⊢
        exact ih _ h k
      · simp only [if_neg he1] at h ⊢
        by_cases hn : next.is_null = true
        · simp only [if_pos hn]
        · simp only [if_neg hn] at h ⊢
          by_cases hl : next.is_leaf = true
          · simp only [if_pos hl] at h ⊢
            by_cases hge : st.decoded_symbols + 1 ≥ total
            · simp only [if_pos hge]
            · simp only [if_neg hge] at h ⊢
              exact ih _ h k
          · simp only [if_neg hl] at h ⊢
            exact ih _ h k

/-- One call of `input_bit` on a reader that has not seen the end of the file
takes the next bit of the payload, or finds none and sets the flag. -/
theorem input_bit_progress (rd : BitReader) (hok : ReaderOK rd) :
    (pending rd = [] ∧ (input_bit rd).2.end_of_file = 1 ∧
      pending (input_bit rd).2 = []) ∨
    (∃ b rest, pending rd = b :: rest ∧ (input_bit rd).1 = b ∧
      pending (input_bit rd).2 = rest ∧ (input_bit rd).2.end_of_file = 0) := by
  cases hp : pending rd with
  | nil =>
    left
    rw [input_bit_nil rd hok hp]
    exact ⟨rfl, rfl, hp⟩
  | cons b rest =>
    right
    obtain ⟨h1, h2, h3, _⟩ := input_bit_cons rd hok b rest hp
    exact ⟨b, rest, rfl, h1, h3, h2.eof_zero⟩

/-! ## The tree of two byte values -/

theorem present_sorted (freq : List Nat) : (present freq).Sorted (· < ·) :=
  List.Pairwise.filter _ (List.sorted_lt_range 256)

theorem present_eq_pair (freq : List Nat) (a b : Nat) (hab : a < b) (hb : b < 256)
    (ha0 : 0 < freq.getD a 0) (hb0 : 0 < freq.getD b 0)
    (hothers : ∀ i, i < 256 → i ≠ a → i ≠ b → freq.getD i 0 = 0) :
    present freq = [a, b] := by
  have hmem : ∀ x, x ∈ present freq ↔ x ∈ [a, b] := by
    intro x
    rw [mem_present]
    simp only [List.mem_cons, List.mem_singleton, List.not_mem_nil, or_false]
    constructor
    · rintro ⟨hx, hx0⟩
      by_contra hne
      push_neg at hne
      have := hothers x hx hne.1 hne.2
      omega
    · rintro (rfl | rfl)
      · exact ⟨by omega, ha0⟩
      · exact ⟨hb, hb0⟩
  have hnd : [a, b].Nodup := by
    simp only [List.nodup_cons, List.mem_singleton, List.not_mem_nil, not_false_eq_true,
      List.nodup_nil, and_true]
    omega
  have hperm : (present freq).Perm [a, b] :=
    (List.perm_ext_iff_of_nodup (present_nodup freq) hnd).mpr hmem
  have hs : [a, b].Sorted (· < ·) := by
    simp only [List.sorted_cons, List.mem_singleton, forall_eq, List.not_mem_nil,
      false_implies, implies_true, List.sorted_nil, and_true]
    exact hab
  exact List.eq_of_perm_of_sorted hperm (present_sorted freq) hs

/-- The first loop of `construct_huffman_tree` places one leaf for every index
with a non-zero counter, in the order of the indices. -/
theorem leaf_fold_eq (freq : List Nat) (idx : List Nat) :
    ∀ st : List TreeNode × Nat,
      idx.foldl (leaf_step freq) st
        = ((idx.filter (fun i => decide (0 < freq.getD i 0))).foldl
            (fun l i => place_in_order l (leaf_of freq i)) st.1,
           st.2 + (idx.filter (fun i => decide (0 < freq.getD i 0))).length) := by
  induction idx with
  | nil => intro st; rfl
  | cons i is ih =>
    intro st
    rw [List.foldl_cons, ih]
    by_cases hi : 0 < freq.getD i 0
    · rw [leaf_step_pos freq st i hi, List.filter_cons_of_pos (by simpa using hi)]
      simp only [List.foldl_cons, List.length_cons]
      congr 1
      omega
    · rw [leaf_step_zero freq st i hi, List.filter_cons_of_neg (by simpa using hi)]

theorem leaf_list_eq (freq : List Nat) :
    leaf_list freq
      = ((present freq).foldl (fun l i => place_in_order l (leaf_of freq i)) [],
         (present freq).length) := by
  unfold leaf_list present
  rw [leaf_fold_eq]
  simp

/-- The tree of a histogram with two non-zero counters, at `a < b`: the leaf
of `a` is on the left unless its count is greater than that of `b`. -/
theorem construct_pair (freq : List Nat) (a b : Nat) (hab : a < b) (hb : b < 256)
    (ha0 : 0 < freq.getD a 0) (hb0 : 0 < freq.getD b 0)
    (halt : freq.getD a 0 < UINT_MOD) (hblt : freq.getD b 0 < UINT_MOD)
    (hothers : ∀ i, i < 256 → i ≠ a → i ≠ b → freq.getD i 0 = 0) :
    construct_huffman_tree freq
      = if freq.getD a 0 ≤ freq.getD b 0 then
          node 0 ((freq.getD a 0 + freq.getD b 0) % UINT_MOD)
            (node a (freq.getD a 0) NULL NULL) (node b (freq.getD b 0) NULL NULL)
        else
          node 0 ((freq.getD b 0 + freq.getD a 0) % UINT_MOD)
            (node b (freq.getD b 0) NULL NULL) (node a (freq.getD a 0) NULL NULL) := by
  have hp := present_eq_pair freq a b hab hb ha0 hb0 hothers
  have hl := leaf_list_eq freq
  rw [hp] at hl
  simp only [List.foldl_cons, List.foldl_nil, List.length_cons, List.length_nil] at hl
  rw [leaf_of_eq freq a (by omega), leaf_of_eq freq b hb, Nat.mod_eq_of_lt halt,
    Nat.mod_eq_of_lt hblt] at hl
  have hlist : place_in_order (place_in_order [] (node a (freq.getD a 0) NULL NULL))
      (node b (freq.getD b 0) NULL NULL)
      = if freq.getD b 0 < freq.getD a 0 then
          [node b (freq.getD b 0) NULL NULL, node a (freq.getD a 0) NULL NULL]
        else [node a (freq.getD a 0) NULL NULL, node b (freq.getD b 0) NULL NULL] := rfl
  rw [hlist] at hl
  have hmerge : ∀ x y : TreeNode, head_node (merge_loop 2 [x, y]) = merge_nodes x y :=
    fun _ _ => rfl
  unfold construct_huffman_tree
  rw [hl]
  by_cases hle : freq.getD a 0 ≤ freq.getD b 0
  · rw [if_pos hle]
    simp only [if_neg (Nat.not_lt.mpr hle)]
    rw [if_neg (by decide), if_neg (by decide)]
    show head_node (merge_loop 2 _) = _
    rw [hmerge, merge_nodes_eq]
    rfl
  · rw [if_neg hle]
    simp only [if_pos (Nat.lt_of_not_le hle)]
    rw [if_neg (by decide), if_neg (by decide)]
    show head_node (merge_loop 2 _) = _
    rw [hmerge, merge_nodes_eq]
    rfl

/-- C21. In the tree `construct_huffman_tree` returns for a histogram with at
least two non-zero counters whose sum is below `2 ^ 32`, the weight of every
internal node is the sum of the weights of its two children, the weight of
every leaf is the counter of its byte value, and the weight of the root is
the sum of the 256 counters. -/
theorem C21_weight_invariant (frequency_array : List Nat)
    (h2 : 2 ≤ (present frequency_array).length)
    (hsum : histogram_sum frequency_array < 4294967296) :
    (∀ n ∈ subtrees (construct_huffman_tree frequency_array),
      (n.is_leaf = false → n.weight = n.child_left.weight + n.child_right.weight) ∧
      (n.is_leaf = true → n.weight = frequency_array.getD n.character 0)) ∧
    (construct_huffman_tree frequency_array).weight = histogram_sum frequency_array := by
  rcases construct_cases frequency_array with ⟨h, _⟩ | ⟨b, h, _⟩ | ⟨_, _, _, _, h⟩
  · rw [h] at h2; simp at h2
  · rw [h] at h2; simp at h2
  · obtain ⟨hall, hs⟩ := weights_merge_loop frequency_array hsum
      (leaf_list frequency_array).1.length
    rw [h] at hall hs
    obtain ⟨_, hw, hn⟩ := hall _ (List.mem_singleton.mpr rfl)
    constructor
    · intro n hmem
      exact ⟨(hn n hmem).2, (hn n hmem).1⟩
    · rw [hw, ← hs]
      simp

/-- Witness of C21 on the histogram A:5, B:2, C:1: the root weighs 8. -/
theorem C21_weight_invariant_witness :
    (∀ n ∈ subtrees (construct_huffman_tree
        (List.replicate 65 0 ++ [5, 2, 1] ++ List.replicate 188 0)),
      (n.is_leaf = false → n.weight = n.child_left.weight + n.child_right.weight) ∧
      (n.is_leaf = true → n.weight
        = (List.replicate 65 0 ++ [5, 2, 1] ++ List.replicate 188 0).getD n.character 0)) ∧
    (construct_huffman_tree (List.replicate 65 0 ++ [5, 2, 1] ++ List.replicate 188 0)).weight
      = histogram_sum (List.replicate 65 0 ++ [5, 2, 1] ++ List.replicate 188 0) :=
  C21_weight_invariant (List.replicate 65 0 ++ [5, 2, 1] ++ List.replicate 188 0)
    (by decide!) (by decide!)

/-- C22. For a histogram with `k ≥ 2` non-zero counters the tree
`construct_huffman_tree` returns is a strict binary tree: every node is a
leaf or has both children; it has `k` leaves and `k - 1` internal nodes, and
the byte values on its leaves are the byte values with a non-zero counter,
each on one leaf. -/
theorem C22_tree_shape (frequency_array : List Nat)
    (h2 : 2 ≤ (present frequency_array).length) :
    Full (construct_huffman_tree frequency_array) ∧
    (∀ n ∈ subtrees (construct_huffman_tree frequency_array),
      n.is_leaf = true ∨ (n.child_left ≠ NULL ∧ n.child_right ≠ NULL)) ∧
    (leaf_nodes (construct_huffman_tree frequency_array)).length
      = (present frequency_array).length ∧
    (internal_nodes (construct_huffman_tree frequency_array)).length
      = (present frequency_array).length - 1 ∧
    ((leaf_nodes (construct_huffman_tree frequency_array)).map TreeNode.character).Perm
      (present frequency_array) ∧
    ((leaf_nodes (construct_huffman_tree frequency_array)).map TreeNode.character).Nodup ∧
    ∀ b, b ∈ (leaf_nodes (construct_huffman_tree frequency_array)).map TreeNode.character
      ↔ b < 256 ∧ 0 < frequency_array.getD b 0 := by
  rcases construct_cases frequency_array with ⟨h, _⟩ | ⟨b, h, _⟩ | ⟨_, hfull, _, hperm, _⟩
  · rw [h] at h2; simp at h2
  · rw [h] at h2; simp at h2
  · have hlen : (leaf_nodes (construct_huffman_tree frequency_array)).length
        = (present frequency_array).length := by
      rw [← hperm.length_eq, ← leaf_nodes_character, List.length_map]
    have hint := hfull.internal_count
    rw [leaf_nodes_character]
    refine ⟨hfull, hfull.subtrees_strict, hlen, by omega, hperm,
      hperm.nodup_iff.mpr (present_nodup frequency_array), ?_⟩
    intro b
    rw [hperm.mem_iff, mem_present]

/-- Witness of C22 on the histogram A:5, B:2, C:1: three leaves, two internal
nodes. -/
theorem C22_tree_shape_witness :
    (leaf_nodes (construct_huffman_tree
        (List.replicate 65 0 ++ [5, 2, 1] ++ List.replicate 188 0))).length
      = (present (List.replicate 65 0 ++ [5, 2, 1] ++ List.replicate 188 0)).length ∧
    (internal_nodes (construct_huffman_tree
        (List.replicate 65 0 ++ [5, 2, 1] ++ List.replicate 188 0))).length
      = (present (List.replicate 65 0 ++ [5, 2, 1] ++ List.replicate 188 0)).length - 1 :=
  have h := C22_tree_shape (List.replicate 65 0 ++ [5, 2, 1] ++ List.replicate 188 0)
    (by decide!)
  ⟨h.2.2.1, h.2.2.2.1⟩

/-- C29. In the tree `construct_huffman_tree` returns for any histogram, the
left child of every node that has both children weighs at most as much as the
right child. -/
theorem C29_lighter_left (frequency_array : List Nat) (n : TreeNode)
    (hn : n ∈ subtrees (construct_huffman_tree frequency_array))
    (hleft : n.child_left ≠ NULL) (hright : n.child_right ≠ NULL) :
    n.child_left.weight ≤ n.child_right.weight :=
  lighter_construct frequency_array n hn hleft hright

/-- Witness of C29 at the root of the tree of the histogram A:5, B:2, C:1:
the node of weight 3 is on the left of the leaf of weight 5. -/
theorem C29_lighter_left_witness :
    (node 0 3 (node 67 1 NULL NULL) (node 66 2 NULL NULL)).weight
      ≤ (node 65 5 NULL NULL).weight :=
  C29_lighter_left (List.replicate 65 0 ++ [5, 2, 1] ++ List.replicate 188 0)
    (node 0 8 (node 0 3 (node 67 1 NULL NULL) (node 66 2 NULL NULL)) (node 65 5 NULL NULL))
    (by decide!) (by decide) (by decide)

/-- C30. For a histogram with two non-zero counters, at byte values `a < b`,
the tree has the leaf of `a` on the left and the code table maps `a` to "0"
and `b` to "1" when the count of `a` is at most the count of `b`; when the
count of `a` is greater the leaf of `b` is on the left and the table maps `b`
to "0" and `a` to "1". -/
theorem C30_two_symbol (encoding_buffer : List Char) (frequency_array : List Nat)
    (a b : Nat) (hbuf : encoding_buffer.length = 256) (hab : a < b) (hb : b < 256)
    (ha0 : 0 < frequency_array.getD a 0) (hb0 : 0 < frequency_array.getD b 0)
    (halt : frequency_array.getD a 0 < 4294967296)
    (hblt : frequency_array.getD b 0 < 4294967296)
    (hothers : ∀ i, i < 256 → i ≠ a → i ≠ b → frequency_array.getD i 0 = 0) :
    (frequency_array.getD a 0 ≤ frequency_array.getD b 0 →
      (construct_huffman_tree frequency_array).child_left
        = node a (frequency_array.getD a 0) NULL NULL ∧
      (construct_huffman_tree frequency_array).child_right
        = node b (frequency_array.getD b 0) NULL NULL ∧
      table_entry (code_table encoding_buffer frequency_array) a = ⟨a, some ['0'], 1⟩ ∧
      table_entry (code_table encoding_buffer frequency_array) b = ⟨b, some ['1'], 1⟩) ∧
    (frequency_array.getD b 0 < frequency_array.getD a 0 →
      (construct_huffman_tree frequency_array).child_left
        = node b (frequency_array.getD b 0) NULL NULL ∧
      (construct_huffman_tree frequency_array).child_right
        = node a (frequency_array.getD a 0) NULL NULL ∧
      table_entry (code_table encoding_buffer frequency_array) b = ⟨b, some ['0'], 1⟩ ∧
      table_entry (code_table encoding_buffer frequency_array) a = ⟨a, some ['1'], 1⟩) := by
  have hT := construct_pair frequency_array a b hab hb ha0 hb0 halt hblt hothers
  have ha : a < 256 := by omega
  obtain ⟨pa, hpa, hea⟩ := (table_entry_spec encoding_buffer frequency_array hbuf a ha).1 ha0
  obtain ⟨pb, hpb, heb⟩ := (table_entry_spec encoding_buffer frequency_array hbuf b hb).1 hb0
  have hne : a ≠ b := by omega
  constructor
  · intro hle
    rw [if_pos hle] at hT
    rw [hT] at hpa hpb
    rw [leaf_paths_inner 0 _ (node a (frequency_array.getD a 0) NULL NULL)
      (node b (frequency_array.getD b 0) NULL NULL) rfl, leaf_paths_leaf, leaf_paths_leaf]
      at hpa hpb
    simp only [List.map_cons, List.map_nil, List.singleton_append, List.mem_cons,
      Prod.mk.injEq, List.mem_singleton, List.not_mem_nil, or_false] at hpa hpb
    rcases hpa with ⟨_, rfl⟩ | ⟨h, _⟩
    · rcases hpb with ⟨h, _⟩ | ⟨_, rfl⟩
      · exact absurd h.symm hne
      · rw [hT]
        exact ⟨rfl, rfl, hea, heb⟩
    · exact absurd h hne
  · intro hlt
    rw [if_neg (Nat.not_le.mpr hlt)] at hT
    rw [hT] at hpa hpb
    rw [leaf_paths_inner 0 _ (node b (frequency_array.getD b 0) NULL NULL)
      (node a (frequency_array.getD a 0) NULL NULL) rfl, leaf_paths_leaf, leaf_paths_leaf]
      at hpa hpb
    simp only [List.map_cons, List.map_nil, List.singleton_append, List.mem_cons,
      Prod.mk.injEq, List.mem_singleton, List.not_mem_nil, or_false] at hpa hpb
    rcases hpb with ⟨_, rfl⟩ | ⟨h, _⟩
    · rcases hpa with ⟨h, _⟩ | ⟨_, rfl⟩
      · exact absurd h hne
      · rw [hT]
        exact ⟨rfl, rfl, heb, hea⟩
    · exact absurd h.symm hne

/-- Witness of C30 on the histogram A:3, B:3: with equal counts the byte value
65 gets "0" and 66 gets "1". -/
theorem C30_two_symbol_witness :
    table_entry (code_table (List.replicate 256 'x')
      (List.replicate 65 0 ++ [3, 3] ++ List.replicate 189 0)) 65 = ⟨65, some ['0'], 1⟩ ∧
    table_entry (code_table (List.replicate 256 'x')
      (List.replicate 65 0 ++ [3, 3] ++ List.replicate 189 0)) 66 = ⟨66, some ['1'], 1⟩ :=
  have h := (C30_two_symbol (List.replicate 256 'x')
    (List.replicate 65 0 ++ [3, 3] ++ List.replicate 189 0) 65 66
    (List.length_replicate 256 'x') (by decide) (by decide) (by decide!) (by decide!)
    (by decide!) (by decide!) (by decide!)).1 (by decide!)
  ⟨h.2.2.1, h.2.2.2⟩

/-- C23. The tree `construct_huffman_tree` returns has height at most 255, at
most `k - 1` for a histogram with `k ≥ 2` non-zero counters and exactly 1
with one; so in `create_encodings` called on it at depth 0 every test
`current_depth < 256` is made at a depth below 256, the index at which the
path buffer is then written, and is true; the test is made at every internal
node of the tree, every leaf gets its path recorded, and no code has more than
255 characters. -/
theorem C23_bounded_depth (encoding_buffer : List Char) (frequency_array : List Nat)
    (hbuf : encoding_buffer.length = 256) :
    height (construct_huffman_tree frequency_array) ≤ 255 ∧
    (2 ≤ (present frequency_array).length →
      height (construct_huffman_tree frequency_array) ≤ (present frequency_array).length - 1) ∧
    ((present frequency_array).length = 1 →
      height (construct_huffman_tree frequency_array) = 1) ∧
    (create_encodings_logged (construct_huffman_tree frequency_array)
        (encoding_buffer, zero_table) 0).1
      = create_encodings (construct_huffman_tree frequency_array)
        (encoding_buffer, zero_table) 0 ∧
    (∀ e ∈ (create_encodings_logged (construct_huffman_tree frequency_array)
        (encoding_buffer, zero_table) 0).2, e.1 < 256 ∧ e.2 = true) ∧
    (create_encodings_logged (construct_huffman_tree frequency_array)
        (encoding_buffer, zero_table) 0).2.length
      = (internal_nodes (construct_huffman_tree frequency_array)).length ∧
    (∀ b p, (b, p) ∈ leaf_paths (construct_huffman_tree frequency_array) →
      table_entry (code_table encoding_buffer frequency_array) b = ⟨b, some p, p.length⟩) ∧
    (∀ b, b < 256 →
      (table_entry (code_table encoding_buffer frequency_array) b).sequence_length ≤ 255) := by
  have hh := height_construct frequency_array
  have hperm := leaf_chars_construct frequency_array
  refine ⟨hh, ?_, height_construct_single frequency_array, create_encodings_logged_fst _ _ _,
    logged_guards _ _ 0 (by omega), logged_length _ _ 0 (by omega), ?_, ?_⟩
  · intro h2
    have := height_construct_le frequency_array h2
    omega
  · intro b p hp
    have hmem : b ∈ present frequency_array := by
      apply hperm.mem_iff.mp
      unfold leaf_chars
      exact List.mem_map.mpr ⟨(b, p), hp, rfl⟩
    obtain ⟨hb, hb0⟩ := mem_present.mp hmem
    obtain ⟨q, hq, he⟩ := (table_entry_spec encoding_buffer frequency_array hbuf b hb).1 hb0
    have hnd : ((leaf_paths (construct_huffman_tree frequency_array)).map Prod.fst).Nodup :=
      hperm.nodup_iff.mpr (present_nodup frequency_array)
    have h1 := path_of_mem _ hnd (b, p) hp
    have h2 := path_of_mem _ hnd (b, q) hq
    have hpq : q = p := by
      simp only at h1 h2
      rw [← h1, ← h2]
    rw [he, hpq]
  · intro b hb
    obtain ⟨h1, h2⟩ := table_entry_spec encoding_buffer frequency_array hbuf b hb
    by_cases hz : frequency_array.getD b 0 = 0
    · rw [h2 hz]
      exact Nat.zero_le _
    · obtain ⟨p, hp, he⟩ := h1 (Nat.pos_of_ne_zero hz)
      rw [he]
      have := leaf_paths_length_le _ b p hp
      show p.length ≤ 255
      omega

/-- Witness of C23 on the histogram A:5, B:2, C:1 with a path buffer full of
the character x: two tests of the guard, at depths 0 and 1. -/
theorem C23_bounded_depth_witness :
    (List.replicate 256 'x').length = 256 ∧
    (create_encodings_logged
        (construct_huffman_tree (List.replicate 65 0 ++ [5, 2, 1] ++ List.replicate 188 0))
        (List.replicate 256 'x', zero_table) 0).2 = [(0, true), (1, true)] ∧
    height (construct_huffman_tree (List.replicate 65 0 ++ [5, 2, 1] ++ List.replicate 188 0))
      ≤ 255 :=
  ⟨List.length_replicate 256 'x', by decide!,
    (C23_bounded_depth (List.replicate 256 'x')
      (List.replicate 65 0 ++ [5, 2, 1] ++ List.replicate 188 0)
      (List.length_replicate 256 'x')).1⟩

/-- C24. The root `construct_huffman_tree` returns is never a leaf, so every
populated entry of the code table has `sequence_length` at least 1, the entry
of every byte value with a non-zero counter holds at least one bit, and the
payload of a source has at least as many bits as the source has bytes. -/
theorem C24_no_zero_length_code (encoding_buffer : List Char) (frequency_array : List Nat)
    (hbuf : encoding_buffer.length = 256) :
    (construct_huffman_tree frequency_array).is_leaf = false ∧
    (∀ b, b < 256 →
      (table_entry (code_table encoding_buffer frequency_array) b).binary_sequence ≠ none →
      1 ≤ (table_entry (code_table encoding_buffer frequency_array) b).sequence_length) ∧
    (∀ b, b < 256 → 0 < frequency_array.getD b 0 →
      (table_entry (code_table encoding_buffer frequency_array) b).binary_sequence ≠ none ∧
      1 ≤ (entry_bits (table_entry (code_table encoding_buffer frequency_array) b)).length) ∧
    (∀ S : List Nat, (∀ x ∈ S, x < 256) → S.length < 4294967296 →
      S.length ≤ (payload_bits encoding_buffer S).length) := by
  have hleaf := construct_not_leaf frequency_array
  have hpos : ∀ (freq : List Nat) (b : Nat), b < 256 → 0 < freq.getD b 0 →
      (table_entry (code_table encoding_buffer freq) b).binary_sequence ≠ none ∧
      1 ≤ (entry_bits (table_entry (code_table encoding_buffer freq) b)).length := by
    intro freq b hb hb0
    obtain ⟨p, hp, he⟩ := (table_entry_spec encoding_buffer freq hbuf b hb).1 hb0
    have hlen := leaf_paths_length_pos _ (construct_not_leaf freq) b p hp
    rw [he]
    refine ⟨fun h => Option.noConfusion h, ?_⟩
    show 1 ≤ (p.map char_bit).length
    rw [List.length_map]
    exact hlen
  refine ⟨hleaf, ?_, hpos frequency_array, ?_⟩
  · intro b hb hpop
    obtain ⟨_, p, hp, he⟩ := table_entry_populated encoding_buffer frequency_array hbuf b hb hpop
    rw [he]
    exact leaf_paths_length_pos _ hleaf b p hp
  · intro S hbytes hlen
    have hN : S.length < UINT_MOD := hlen
    have hlenf : ∀ (l : List Nat) (f : Nat → List Nat), (∀ x ∈ l, 1 ≤ (f x).length) →
        l.length ≤ (l.flatMap f).length := by
      intro l f
      induction l with
      | nil => intro _; exact Nat.le_refl _
      | cons x xs ih =>
        intro h
        rw [List.flatMap_cons, List.length_append, List.length_cons]
        have h1 := h x (by simp)
        have h2 := ih (fun y hy => h y (by simp [hy]))
        omega
    unfold payload_bits
    apply hlenf
    intro x hx
    rw [Nat.mod_eq_of_lt (hbytes x hx)]
    apply (hpos _ x (hbytes x hx) _).2
    rw [compute_frequencies_count S [] hbytes x (hbytes x hx) (count_lt_of_length_lt S _ x hN)]
    exact List.count_pos_iff.mpr hx

/-- Witness of C24 on the source "AAAA" with a path buffer full of the
character x: four bytes, four bits. -/
theorem C24_no_zero_length_code_witness :
    (List.replicate 256 'x').length = 256 ∧
    [65, 65, 65, 65].length ≤ (payload_bits (List.replicate 256 'x') [65, 65, 65, 65]).length :=
  ⟨List.length_replicate 256 'x',
    (C24_no_zero_length_code (List.replicate 256 'x')
      (List.replicate 65 0 ++ [4] ++ List.replicate 190 0)
      (List.length_replicate 256 'x')).2.2.2 [65, 65, 65, 65] (by decide) (by decide)⟩

/-- C25 fails as stated: from the state with bit counter 0 and accumulator 5
`empty_bit_buffer` writes nothing and leaves the accumulator at 5. -/
theorem C25_flush_keeps_accumulator :
    (⟨[], 5, 0⟩ : BitWriter).bit_counter ≤ 7 ∧
    empty_bit_buffer ⟨[], 5, 0⟩ = ⟨[], 5, 0⟩ ∧
    (empty_bit_buffer ⟨[], 5, 0⟩).bit_collector ≠ 0 := by
  decide

/-- C25 (as amended). From a writer state whose bit counter is in 0..7 the
counter is in 0..7 after `output_bit`, and after any number of calls; the call
made at counter 7 emits one byte and resets counter and accumulator to 0, any
other call emits nothing and adds 1 to the counter.  After `empty_bit_buffer`
the counter is 0, and the accumulator is 0 when it was 0 whenever the counter
was 0, as it is in every state reached from the fresh state.  From a reader
state whose counter is in 0..7 the counter is in 0..7 after `input_bit`,
whether it returns a bit or reports the end of the stream. -/
theorem C25_bit_counter (st : BitWriter) (rd : BitReader) (bit_value : Nat) (bits : List Nat)
    (hst : st.bit_counter ≤ 7) (hrd : rd.bit_counter ≤ 7) :
    (output_bit st bit_value).bit_counter ≤ 7 ∧
    (st.bit_counter = 7 →
      (output_bit st bit_value).bit_counter = 0 ∧
      (output_bit st bit_value).bit_collector = 0 ∧
      (output_bit st bit_value).file_stream.length = st.file_stream.length + 1) ∧
    (st.bit_counter < 7 →
      (output_bit st bit_value).bit_counter = st.bit_counter + 1 ∧
      (output_bit st bit_value).file_stream = st.file_stream) ∧
    (bits.foldl output_bit st).bit_counter ≤ 7 ∧
    (empty_bit_buffer st).bit_counter = 0 ∧
    ((st.bit_counter = 0 → st.bit_collector = 0) →
      (empty_bit_buffer st).bit_collector = 0 ∧
      (empty_bit_buffer (bits.foldl output_bit st)).bit_counter = 0 ∧
      (empty_bit_buffer (bits.foldl output_bit st)).bit_collector = 0) ∧
    ((empty_bit_buffer (bits.foldl output_bit ⟨[], 0, 0⟩)).bit_counter = 0 ∧
      (empty_bit_buffer (bits.foldl output_bit ⟨[], 0, 0⟩)).bit_collector = 0) ∧
    (input_bit rd).2.bit_counter ≤ 7 ∧
    ((input_bit rd).2.end_of_file = rd.end_of_file ∨ (input_bit rd).2.end_of_file = 1) := by
  have h1 := output_bit_counter st bit_value hst
  have hfresh := foldl_output_bit_counter bits ⟨[], 0, 0⟩ (Nat.zero_le _) (fun _ => rfl)
  refine ⟨h1.1, ?_, ?_, foldl_output_bit_counter_le bits st hst,
    (empty_bit_buffer_counter st).1, ?_,
    ⟨(empty_bit_buffer_counter _).1, (empty_bit_buffer_counter _).2.1 hfresh.2⟩,
    input_bit_counter rd hrd, input_bit_eof rd⟩
  · intro h7
    refine ⟨h1.2.2 h7, h1.2.1 (h1.2.2 h7), ?_⟩
    unfold output_bit
    rw [if_pos (by omega)]
    simp [fputc]
  · intro hlt
    unfold output_bit
    rw [if_neg (by omega)]
    exact ⟨rfl, rfl⟩
  · intro hc
    have h2 := foldl_output_bit_counter bits st hst hc
    exact ⟨(empty_bit_buffer_counter st).2.1 hc, (empty_bit_buffer_counter _).1,
      (empty_bit_buffer_counter _).2.1 h2.2⟩

/-- Witness of C25 on a writer holding seven bits and a reader holding one. -/
theorem C25_bit_counter_witness :
    (⟨[], 127, 7⟩ : BitWriter).bit_counter ≤ 7 ∧
    (⟨⟨[200], 1⟩, 128, 1, 0⟩ : BitReader).bit_counter ≤ 7 ∧
    (output_bit ⟨[], 127, 7⟩ 1).bit_counter ≤ 7 ∧
    (empty_bit_buffer ⟨[], 127, 7⟩).bit_counter = 0 ∧
    (input_bit ⟨⟨[200], 1⟩, 128, 1, 0⟩).2.bit_counter ≤ 7 :=
  have h := C25_bit_counter ⟨[], 127, 7⟩ ⟨⟨[200], 1⟩, 128, 1, 0⟩ 1 [1, 0, 1]
    (by decide) (by decide)
  ⟨by decide, by decide, h.1, h.2.2.2.2.1, h.2.2.2.2.2.2.2.1⟩

/-- C26. Writing `N` bits with `output_bit` from the fresh state and calling
`empty_bit_buffer` emits `⌈N / 8⌉` bytes; byte `k` is the sum over `j` in 0..7
of bit `8 * k + j` times `2 ^ (7 - j)`, a bit past the end counting as 0; when
`N` is a multiple of 8 `empty_bit_buffer` leaves the state as it is and emits
nothing. -/
theorem C26_writer_packing (bits : List Nat) (hbits : ∀ b ∈ bits, b < 2) :
    (write_bits bits).file_stream
      = (List.range ((bits.length + 7) / 8)).map (packed_byte bits) ∧
    (write_bits bits).file_stream.length = (bits.length + 7) / 8 ∧
    write_bits bits = empty_bit_buffer (bits.foldl output_bit ⟨[], 0, 0⟩) ∧
    (bits.length % 8 = 0 →
      empty_bit_buffer (bits.foldl output_bit ⟨[], 0, 0⟩)
        = bits.foldl output_bit ⟨[], 0, 0⟩) :=
  ⟨write_bits_packed bits hbits, (write_bits_spec bits hbits).2, rfl,
    flush_of_whole_bytes bits hbits⟩

/-- Witness of C26 on the ten bits 1011 0010 11: the bytes 178 and 192. -/
theorem C26_writer_packing_witness :
    (write_bits [1, 0, 1, 1, 0, 0, 1, 0, 1, 1]).file_stream = [178, 192] ∧
    (write_bits [1, 0, 1, 1, 0, 0, 1, 0, 1, 1]).file_stream
      = (List.range (([1, 0, 1, 1, 0, 0, 1, 0, 1, 1].length + 7) / 8)).map
          (packed_byte [1, 0, 1, 1, 0, 0, 1, 0, 1, 1]) :=
  ⟨by decide,
    (C26_writer_packing [1, 0, 1, 1, 0, 0, 1, 0, 1, 1] (by decide)).1⟩

/-- C27. On a file whose header has 256 counters, at least two of them
non-zero, with any payload, the loop of `perform_decompression` never moves
the cursor to a NULL child, the function runs to its end, and every byte it
writes is a byte value whose counter in the header is not zero. -/
theorem C27_walk_safe (compressed : List Nat)
    (hheader : (header_counters compressed).length = 256)
    (h2 : 2 ≤ (present (header_counters compressed)).length) :
    (∀ st, decode_run compressed ≠ LoopResult.null_dereference st) ∧
    (perform_decompression compressed).outcome = DecompressionOutcome.completed ∧
    ∀ x ∈ (perform_decompression compressed).output_file,
      x < 256 ∧ 0 < (header_counters compressed).getD x 0 := by
  rcases construct_cases (header_counters compressed) with
    ⟨h, _⟩ | ⟨b, h, _⟩ | ⟨_, hfull, hleaf, hperm, _⟩
  · rw [h] at h2; simp at h2
  · rw [h] at h2; simp at h2
  · have hchars : ∀ c ∈ leaf_chars (construct_huffman_tree (header_counters compressed)),
        c < 256 := fun c hc => (mem_present.mp (hperm.mem_iff.mp hc)).1
    have hsafe := decode_loop_safe (construct_huffman_tree (header_counters compressed))
      (header_total compressed) hfull hleaf hchars
      (8 * (payload_stream compressed).unread.length + 1)
      ⟨⟨payload_stream compressed, 0, 0, 0⟩,
        construct_huffman_tree (header_counters compressed), 0, []⟩
      hfull hleaf (fun c hc => hc) (fun x hx => absurd hx (List.not_mem_nil x))
    have hnull : (construct_huffman_tree (header_counters compressed)).is_null = false := by
      cases hc : construct_huffman_tree (header_counters compressed) with
      | NULL => exact absurd hc hfull.ne_null
      | node _ _ _ _ => rfl
    have hrun := perform_decompression_run compressed
    rw [if_neg (fun h => h hheader), hnull] at hrun
    refine ⟨hsafe.1, ?_⟩
    cases hd : decode_run compressed with
    | exited st =>
      rw [hd] at hrun
      rw [hrun]
      refine ⟨rfl, ?_⟩
      intro x hx
      have := hsafe.2 st hd x hx
      exact mem_present.mp (hperm.mem_iff.mp this)
    | null_dereference st => exact absurd hd (hsafe.1 st)
    | fuel_exhausted => exact absurd hd (decode_run_terminates compressed)

/-- Witness of C27 on the header A:5, B:2, C:1 followed by the payload bytes
255 and 0, which no compression produced. -/
theorem C27_walk_safe_witness :
    (perform_decompression
      (List.replicate 260 0 ++ [5, 0, 0, 0, 2, 0, 0, 0, 1, 0, 0, 0] ++ List.replicate 752 0
        ++ [255, 0])).outcome = DecompressionOutcome.completed ∧
    (perform_decompression
      (List.replicate 260 0 ++ [5, 0, 0, 0, 2, 0, 0, 0, 1, 0, 0, 0] ++ List.replicate 752 0
        ++ [255, 0])).output_file = [65, 65, 65, 65, 65, 65, 65, 65] :=
  ⟨(C27_walk_safe
      (List.replicate 260 0 ++ [5, 0, 0, 0, 2, 0, 0, 0, 1, 0, 0, 0] ++ List.replicate 752 0
        ++ [255, 0]) (by decide!) (by decide!)).2.1,
    by decide!⟩

/-- C28. On every file the loop of `perform_decompression` ends within
`8 * (number of payload bytes) + 1` executions of its body, and more fuel
gives the same result; each call of `input_bit` it makes on a reader that has
not seen the end of the file takes one bit of the payload or, when none is
left, sets the end-of-file flag, which ends the loop. -/
theorem C28_decoder_terminates (compressed : List Nat) :
    decode_run compressed ≠ LoopResult.fuel_exhausted ∧
    (perform_decompression compressed).outcome ≠ DecompressionOutcome.fuel_exhausted ∧
    (∀ k : Nat,
      decode_loop (construct_huffman_tree (header_counters compressed))
          (header_total compressed)
          (8 * (payload_stream compressed).unread.length + 1 + k)
          ⟨⟨payload_stream compressed, 0, 0, 0⟩,
            construct_huffman_tree (header_counters compressed), 0, []⟩
        = decode_run compressed) ∧
    (∀ rd : BitReader, ReaderOK rd →
      (pending rd = [] ∧ (input_bit rd).2.end_of_file = 1 ∧
        pending (input_bit rd).2 = []) ∨
      (∃ b rest, pending rd = b :: rest ∧ (input_bit rd).1 = b ∧
        pending (input_bit rd).2 = rest ∧ (input_bit rd).2.end_of_file = 0)) ∧
    (∀ (fuel : Nat) (st : DecodeState), st.reader.end_of_file ≠ 0 →
      decode_loop (construct_huffman_tree (header_counters compressed))
        (header_total compressed) fuel st = LoopResult.exited st) := by
  have hterm := decode_run_terminates compressed
  refine ⟨hterm, ?_, ?_, input_bit_progress, fun fuel st h => decode_loop_exit _ _ fuel st h⟩
  · rw [perform_decompression_run]
    by_cases h1 : (header_counters compressed).length ≠ 256
    · rw [if_pos h1]
      exact fun h => DecompressionOutcome.noConfusion h
    · rw [if_neg h1]
      by_cases h2 : (construct_huffman_tree (header_counters compressed)).is_null = true
      · rw [if_pos h2]
        exact fun h => DecompressionOutcome.noConfusion h
      · rw [if_neg h2]
        cases hd : decode_run compressed with
        | exited st => exact fun h => DecompressionOutcome.noConfusion h
        | null_dereference st => exact fun h => DecompressionOutcome.noConfusion h
        | fuel_exhausted => exact absurd hd hterm
  · intro k
    exact decode_loop_mono _ _ _ _ hterm k

end HuffmanCodec
